import Mathlib

/-
Shallow embedding of pyOptSparse's `Optimization` class
(src/pyOptSparse/pyOpt_optimization.py) and proofs about it.

Modelling conventions:
* numeric values (numpy floats) are modelled as exact rationals `ℚ`;
* `OrderedDict` is modelled as an association list `List (String × α)`
  with insertion-order iteration; assignment `d[k] = v` keeps the position
  of an existing key and appends a fresh one (`setKey`);
* python `set` objects used only for membership are `List String`;
* a raised `Error` (or a python `KeyError` / `IndexError`) is modelled with
  `Except Err` (or `Option` where the source can only fail, not succeed
  with a value of a different shape);
* `self.comm` collectives (`_reduceDict`) are modelled for a single-process
  communicator, where gather/bcast/send/recv return the local dictionary
  unchanged; every claim below concerns single-process semantics;
* scipy CSR matrices are modelled by `SpMat` (per-row lists of
  (column, value) pairs); a csr's flat `data` array is the row-major
  concatenation of the per-row values, and `indptr`-driven loops are
  modelled by zipping row-major streams.
-/

namespace PyOptSparse

/-- Value used by the source for infinity: `inf = 1e20`. -/
def infVal : ℚ := 10 ^ 20

/-- Sentinel used by the source for structural zeros: `1e-50`. -/
def tiny : ℚ := 1 / 10 ^ 50

/-- Look a key up in an ordered association list (python `d[k]` read / `k in d`). -/
def getKey {α : Type} (l : List (String × α)) (k : String) : Option α :=
  (l.find? (fun p => p.1 == k)).map Prod.snd

/-- Membership test `k in d` for an ordered dictionary. -/
def hasKey {α : Type} (l : List (String × α)) (k : String) : Bool :=
  l.any (fun p => p.1 == k)

/-- Ordered-dictionary assignment `d[k] = v`: an existing key keeps its
position, a fresh key is appended at the end. -/
def setKey {α : Type} (l : List (String × α)) (k : String) (v : α) : List (String × α) :=
  if hasKey l k then l.map (fun p => if p.1 == k then (k, v) else p) else l ++ [(k, v)]

/-- Variable value object. Modelled from the spec: the `Variable` class
(`pyOpt_variable.py`) is not under src/; §3 of the spec lists its fields
(name, type, value, lower, upper, scale, scalar flag), which is exactly how
`pyOpt_optimization.py` uses it. Discrete `choices` are omitted: no code
under src/ reads them. -/
structure Var where
  vname : String
  typ : String
  value : ℚ
  lower : ℚ
  upper : ℚ
  scale : ℚ
  scalar : Bool
deriving Repr, DecidableEq

/-- Objective value object. Modelled from the spec: the `Objective` class
(`pyOpt_objective.py`) is not under src/; §3 of the spec gives its fields
(name, scale factor). -/
structure Objective where
  oname : String
  scale : ℚ
deriving Repr, DecidableEq

/-- Sparse CSR matrix: for each of the `nrows` rows, the list of
(column index, stored value) pairs, in column order.  The flat `data`
array of scipy's csr format is the row-major concatenation of the values;
`indices` the concatenation of the column indices. -/
structure SpMat where
  nrows : Nat
  ncols : Nat
  rowsData : List (List (Nat × ℚ))
deriving Repr, DecidableEq

/-- Number of stored entries (scipy `mat.nnz`). -/
def SpMat.nnz (m : SpMat) : Nat := (m.rowsData.map List.length).sum

/-- Row-major flat list of stored values (scipy `mat.data`). -/
def SpMat.flatData (m : SpMat) : List ℚ := (m.rowsData.map (fun r => r.map Prod.snd)).flatten

/-- Row-major flat list of (row, column) positions of the stored entries;
entry `ii` of this list and entry `ii` of `flatData` describe the same
stored element, mirroring how the source walks `indptr`/`indices`/`data`
with one linear index. -/
def SpMat.linearEntries (m : SpMat) : List (Nat × Nat) :=
  (m.rowsData.enum.map (fun p => p.2.map (fun e => (p.1, e.1)))).flatten

/-- Shape (numpy `m.shape`) of a dense matrix given as a list of rows. -/
def denseShape (m : List (List ℚ)) : Nat × Nat := (m.length, (m.headD []).length)

/-- Replace every numerically zero entry of a dense matrix by the `1e-50`
sentinel (`mat[numpy.where(mat==0)] = 1e-50`). -/
def replaceZeros (m : List (List ℚ)) : List (List ℚ) :=
  m.map (fun r => r.map (fun v => if v = 0 then tiny else v))

/-- Conversion of a dense matrix to csr (`sparse.csr_matrix(dense)`):
only the nonzero entries are stored. -/
def csrFromDense (m : List (List ℚ)) : SpMat :=
  ⟨m.length, (m.headD []).length, m.map (fun r => r.enum.filter (fun e => decide (e.2 ≠ 0)))⟩

/-- The dense all-structurally-nonzero placeholder block the source
synthesizes when no jacobian template is given:
`jac[dvSet] = sparse.csr_matrix(numpy.ones((nCon, ndvs))); jac[dvSet].data[:] = 0.0`
(every position stored, every stored value zero). -/
def zeroPlaceholder (nCon ndvs : Nat) : SpMat :=
  ⟨nCon, ndvs, List.replicate nCon ((List.range ndvs).map (fun j => (j, (0 : ℚ))))⟩

/-- Row scaling of a csr matrix keeping the stored structure
(`_csrRowScale`: `mat.data[indptr[i]:indptr[i+1]] *= vec[i]`).  The
source's `assert mat.shape[0] == len(vec)` is guaranteed by the shape
checks performed before every call, so the assertion is not modelled. -/
def csrRowScale (m : SpMat) (vec : List ℚ) : SpMat :=
  ⟨m.nrows, m.ncols,
    m.rowsData.enum.map (fun p => p.2.map (fun e => (e.1, e.2 * vec.getD p.1 0)))⟩

/-- Constraint group value object. Modelled from the spec: the `Constraint`
class (`pyOpt_constraint.py`) is not under src/; §3 of the spec lists its
fields (name, count `nCon`, `linear` flag, `wrt`, per-set `jac` templates,
`partialReturnOk`-style flag, bounds, scale, post-finalization row range
`rs`/`re`), matching every access `pyOpt_optimization.py` makes.  `rs`/`re`
are 0 before `finalizeConstraints` assigns them. -/
structure Constraint where
  cname : String
  linear : Bool
  wrt : List String
  jac : List (String × SpMat)
  partRetOk : Bool
  lower : List ℚ
  upper : List ℚ
  scale : List ℚ
  ncon : Nat
  rs : Nat
  re : Nat
deriving Repr, DecidableEq

/-- Errors raised by the source (its `Error` class plus python's own
`KeyError`/`IndexError`/`ValueError`), distinguished by raise site. -/
inductive Err where
  | duplicateName (kind name : String)
  | badType
  | shapeMismatch (what : String)
  | orderingViolation
  | badWrt (s : String)
  | linearNeedsJac
  | jacWrongSize (dvSet con : String)
  | denseForbidden
  | denseWrongSize
  | missingConJac (con : String)
  | missingDvSetJac (con dvSet : String)
  | jacWrongShape (con : String)
  | nnzMismatch (con : String)
  | missingConValue (con : String)
  | conValWrongLength (con : String)
  | keyErr (k : String)
  | indexErr
  | valueErr
  | assertFail
deriving Repr, DecidableEq

/-- Offset record stored in `dvOffset[dvSet]`: the key `'n'` holds the
set's range `[lo, hi)` (a 2-element python list, `flag = none`), a group
key holds `[lo, hi, scalar]` (`flag = some scalar`).  A variable group
literally named `"n"` therefore collides with the set record, exactly as
in the source. -/
structure OffRec where
  lo : Nat
  hi : Nat
  flag : Option Bool
deriving Repr, DecidableEq

/-- The mutable state of an `Optimization` object.  `objFun` and the MPI
communicator are omitted: the first is an opaque user callback the class
never calls in the modelled code, the second is modelled by the
single-process semantics of `reduceDict`.  Fields initialized to `None`
in `__init__` and only meaningful after finalization (`ndvs`, scale
vectors, row counts) are carried with zero/empty defaults. -/
structure Optimization where
  pname : String
  useGroups : Bool
  vars : List (String × List (String × List Var))
  constraints : List (String × Constraint)
  objectives : List (String × Objective)
  dvOffset : List (String × List (String × OffRec))
  varSetNames : List String
  varGroupNames : List String
  conGroupNames : List String
  ableToAddVariables : Bool
  denseJacobianOK : Bool
  ndvs : Nat
  conScaleNonLinear : List ℚ
  conScaleLinear : List ℚ
  nnCon : Nat
  nCon : Nat
  nlCon : Nat
  xscale : List ℚ
  dummyConstraint : Bool
deriving Repr, DecidableEq

/-- The state built by `Optimization.__init__`. -/
def initOpt (name : String) (useGroups : Bool) : Optimization :=
  ⟨name, useGroups, [], [], [], [], [], [], [], true, true,
    0, [], [], 0, 0, 0, [], false⟩

/-- Single-process `_reduceDict`: gathering from and broadcasting to a
one-rank communicator returns the local dictionary unchanged. -/
def reduceDict {α : Type} (d : List (String × α)) : List (String × α) := d

/-- Internal gate `checkOkToAddVariables`. -/
def checkOkToAddVariables (st : Optimization) : Except Err Unit :=
  if st.ableToAddVariables then .ok () else .error .orderingViolation

/-- The registration call `addVarSet(name)`. -/
def addVarSet (st : Optimization) (name : String) : Except Err Optimization := do
  checkOkToAddVariables st
  if name ∈ st.varSetNames then
    .error (.duplicateName "varSet" name)
  else
    .ok { st with varSetNames := st.varSetNames ++ [name],
                  vars := setKey st.vars name [] }

/-- Scalar-or-array broadcast used by `addVarGroup`/`addConGroup` for the
`value`/`lower`/`upper`/`scale` arguments: after `numpy.atleast_1d`, a
length-1 array is broadcast to `n` copies, a length-`n` array is kept, and
any other length raises a shape-mismatch `Error`. -/
def broadcast (v : List ℚ) (n : Nat) (what : String) : Except Err (List ℚ) :=
  if v.length = 1 then .ok (List.replicate n (v.getD 0 0))
  else if v.length = n then .ok v
  else .error (.shapeMismatch what)

/-- Option-defaulting broadcast for `lower`/`upper`/`scale` arguments:
python `None` becomes a constant vector, anything else is broadcast. -/
def defaultBroadcast (o : Option (List ℚ)) (dflt : ℚ) (n : Nat) (what : String) :
    Except Err (List ℚ) :=
  match o with
  | none => .ok (List.replicate n dflt)
  | some l => broadcast l n what

/-- The implicit set creation of `addVarGroup`:
`if not varSet in self.variables: self.addVarSet(varSet)`. -/
def ensureVarSet (st : Optimization) (vSet : String) : Except Err Optimization :=
  if hasKey st.vars vSet then .ok st else addVarSet st vSet

/-- The `Variable` objects one `addVarGroup` call creates. -/
def mkVarList (name typ : String) (nVars : Nat)
    (value lower upper scale : List ℚ) (scalar : Bool) : List Var :=
  (List.range nVars).map (fun i =>
    Var.mk (name ++ "_" ++ toString i) typ (value.getD i 0)
      (lower.getD i 0) (upper.getD i 0) (scale.getD i 0) scalar)

/-- The registration call
`addVarGroup(name, nVars, type, value, lower, upper, scale, varSet, ..., scalar)`.
`value` is given after `numpy.atleast_1d` (a python scalar is `[v]`);
`lower`, `upper` and `scale` are `none` for python `None` (defaulting to
`-inf`/`inf`/all-ones vectors).  The undocumented internal kwarg `scalar`
is the flag `addVar` sets. -/
def addVarGroup (st : Optimization) (name : String) (nVars : Nat) (typ : String)
    (value : List ℚ) (lower upper scale : Option (List ℚ))
    (varSet : Option String) (scalar : Bool) : Except Err Optimization := do
  checkOkToAddVariables st
  if name ∈ st.varGroupNames then
    .error (.duplicateName "varGroup" name)
  else do
    let st := { st with varGroupNames := st.varGroupNames ++ [name] }
    let vSet := varSet.getD name
    let st ← ensureVarSet st vSet
    if typ = "c" ∨ typ = "i" ∨ typ = "d" then do
      let value ← broadcast value nVars "value"
      let lower ← defaultBroadcast lower (-infVal) nVars "lower"
      let upper ← defaultBroadcast upper infVal nVars "upper"
      let scale ← defaultBroadcast scale 1 nVars "scale"
      let newVars := mkVarList name typ nVars value lower upper scale scalar
      let inner := (getKey st.vars vSet).getD []
      .ok { st with vars := setKey st.vars vSet (setKey inner name newVars) }
    else
      .error .badType

/-- The convenience call `addVar(name, ...)`:
`addVarGroup(name, 1, *args, scalar=True, **kwargs)`. -/
def addVar (st : Optimization) (name : String) (typ : String)
    (value : List ℚ) (lower upper scale : Option (List ℚ))
    (varSet : Option String) : Except Err Optimization :=
  addVarGroup st name 1 typ value lower upper scale varSet true

/-- Inner loop of `finalizeDesignVariables` over the groups of one
variable set: assigns `[dvCounter, dvCounter + n, scalar]` records and
advances the counter.  The access `self.variables[dvSet][dvGroup][0].scalar`
raises `IndexError` on an empty group, hence the `Option`. -/
def finGroups (c : Nat) :
    List (String × List Var) → Option (List (String × OffRec) × Nat)
  | [] => some ([], c)
  | (g, vs) :: rest => do
    let v0 ← vs.head?
    let (tl, c2) ← finGroups (c + vs.length) rest
    some ((g, ⟨c, c + vs.length, some v0.scalar⟩) :: tl, c2)

/-- Builds the `dvOffset[dvSet]` inner dictionary for one set the way the
source does: first `dvOffset[dvSet]['n'] = [dvCounter, -1]`, then one
record per group (a group named `"n"` overwrites the set record), and
finally `dvOffset[dvSet]['n'][1] = dvCounter` patches index 1 of whatever
record now sits at key `'n'`. -/
def finSetRecord (c : Nat) (goffs : List (String × OffRec)) (c2 : Nat) :
    List (String × OffRec) :=
  (goffs.foldl (fun d p => setKey d p.1 p.2) [("n", ⟨c, 0, none⟩)]).map
    (fun p => if p.1 == "n" then (p.1, ⟨p.2.lo, c2, p.2.flag⟩) else p)

/-- Outer loop of `finalizeDesignVariables` over the variable sets:
a set with no variable groups is popped from the registry, any other set
gets an offset record.  (The source pops from the dictionary it iterates
over; with the linked-list `OrderedDict` iterator of the python these
modules target, iteration continues over the remaining original keys,
which is what recursing over the initial list models.) -/
def finSets (c : Nat) :
    List (String × List (String × List Var)) →
    Option (List (String × List (String × List Var)) ×
            List (String × List (String × OffRec)) × Nat)
  | [] => some ([], [], c)
  | (s, gs) :: rest =>
    if gs.length > 0 then do
      let (goffs, c2) ← finGroups c gs
      let (vrest, orest, c3) ← finSets c2 rest
      some ((s, gs) :: vrest, (s, finSetRecord c goffs c2) :: orest, c3)
    else
      finSets c rest

/-- The collective `finalizeDesignVariables()`: reduces the registry,
computes the offset table, the total count `ndvs`, and closes the
registry to further variable additions. -/
def finalizeDesignVariables (st : Optimization) : Option Optimization := do
  let vars := reduceDict st.vars
  let (vars2, offs, total) ← finSets 0 vars
  some { st with
    vars := vars2,
    dvOffset := offs.foldl (fun d p => setKey d p.1 p.2) st.dvOffset,
    ndvs := total,
    ableToAddVariables := false }

/-- The registration call `addObj(name, scale)`: a bare dictionary
assignment `self.objectives[name] = Objective(name, scale)`, with no
duplicate-name check and no possibility of an error. -/
def addObj (st : Optimization) (name : String) (scale : ℚ) : Optimization :=
  { st with objectives := setKey st.objectives name ⟨name, scale⟩ }

/-- Deletion of a key from a dictionary (python `d.pop(k)`). -/
def delKey {α : Type} (l : List (String × α)) (k : String) : List (String × α) :=
  l.filter (fun p => !(p.1 == k))

/-- Lookup `self.dvOffset[dvSet]['n']` (raises `KeyError` when absent). -/
def dvSetN (st : Optimization) (s : String) : Except Err OffRec :=
  match getKey st.dvOffset s with
  | none => .error (.keyErr s)
  | some inner =>
    match getKey inner "n" with
    | none => .error (.keyErr "n")
    | some r => .ok r

/-- A jacobian block as the user may pass it: a dense numpy array or a
scipy sparse matrix. -/
inductive BlockInput where
  | dense (m : List (List ℚ))
  | sp (m : SpMat)
deriving Repr, DecidableEq

/-- Shape of a submitted block before any conversion. -/
def blockShape : BlockInput → Nat × Nat
  | .dense m => denseShape m
  | .sp m => (m.nrows, m.ncols)

/-- Conversion of a submitted block to csr as the source performs it: a
sparse matrix is converted with `tocsr()` (keeping any explicitly stored
zeros), a dense one first has its zeros replaced by the sentinel and is
then converted (so every position is stored). -/
def blockToCsr : BlockInput → SpMat
  | .sp m => m
  | .dense m => csrFromDense (replaceZeros m)

/-- Validation of an explicitly supplied `wrt` list: each name must be a
registered variable set. -/
def checkWrt (st : Optimization) : List String → Except Err Unit
  | [] => .ok ()
  | s :: rest => if hasKey st.vars s then checkWrt st rest else .error (.badWrt s)

/-- Pairs `(dvStart, dvSet)` for the `wrt` sort. -/
def wrtStarts (st : Optimization) : List String → Except Err (List (Nat × String))
  | [] => .ok []
  | s :: rest => do
    let n ← dvSetN st s
    let tl ← wrtStarts st rest
    .ok ((n.lo, s) :: tl)

/-- Python string comparison: lexicographic on the code points. -/
def charListLe : List Char → List Char → Bool
  | [], _ => true
  | _ :: _, [] => false
  | c :: cs, d :: ds =>
    if c.toNat < d.toNat then true
    else if c.toNat = d.toNat then charListLe cs ds
    else false

/-- Python `a <= b` on strings. -/
def pyStrLe (a b : String) : Bool := charListLe a.data b.data

/-- Python tuple comparison on `(int, str)` pairs, used by
`sorted(zip(dvStart, wrt))`. -/
def tupleLe (a b : Nat × String) : Prop :=
  a.1 < b.1 ∨ (a.1 = b.1 ∧ pyStrLe a.2 b.2 = true)

instance tupleLeDec : DecidableRel tupleLe := fun a b =>
  inferInstanceAs (Decidable (a.1 < b.1 ∨ (a.1 = b.1 ∧ pyStrLe a.2 b.2 = true)))

/-- Synthesized jacobian templates when `jac` is omitted: one dense
all-structurally-nonzero zero-valued placeholder per `wrt` set. -/
def buildJacNone (st : Optimization) (nCon : Nat) :
    List String → Except Err (List (String × SpMat))
  | [] => .ok []
  | dvSet :: rest => do
    let nrec ← dvSetN st dvSet
    let tl ← buildJacNone st nCon rest
    .ok ((dvSet, zeroPlaceholder nCon (nrec.hi - nrec.lo)) :: tl)

/-- Jacobian templates when `jac` is supplied: each `wrt` set pops its
block out of the user dictionary (a missing set gets a placeholder), the
block's shape is checked against `(nCon, ndvs of the set)`, and the block
is converted to csr (dense blocks with zeros replaced by the sentinel
first). -/
def buildJacExplicit (st : Optimization) (conName : String) (nCon : Nat) :
    List String → List (String × BlockInput) → Except Err (List (String × SpMat))
  | [], _ => .ok []
  | dvSet :: rest, tmp => do
    let nrec ← dvSetN st dvSet
    let ndvsK := nrec.hi - nrec.lo
    let blk := match getKey tmp dvSet with
      | some b => b
      | none => BlockInput.sp (zeroPlaceholder nCon ndvsK)
    let tmp2 := delKey tmp dvSet
    if blockShape blk = (nCon, ndvsK) then do
      let tl ← buildJacExplicit st conName nCon rest tmp2
      .ok ((dvSet, blockToCsr blk) :: tl)
    else
      .error (.jacWrongSize dvSet conName)

/-- The registration call
`addConGroup(name, nCon, lower, upper, scale, linear, wrt, jac)`.
`scale` is given after `numpy.atleast_1d` (its python default `1.0`
is `[1]`); `lower`/`upper` are `none` for python `None`. -/
def wrtDefault (st : Optimization) (wrt : Option (List String)) : List String :=
  match wrt with
  | none => st.vars.map Prod.fst
  | some l => l

/-- Validation of an explicitly supplied `wrt` list; an omitted one needs
no validation. -/
def wrtValidate (st : Optimization) (wrt : Option (List String)) : Except Err Unit :=
  match wrt with
  | none => .ok ()
  | some l => checkWrt st l

/-- The jacobian-template processing of `addConGroup` together with the
resulting `partialReturnOk` flag. -/
def buildJac (st : Optimization) (conName : String) (nCon : Nat) (linear : Bool)
    (wrtS : List String) (jac : Option (List (String × BlockInput))) :
    Except Err (List (String × SpMat) × Bool) :=
  match jac with
  | none =>
    if linear then .error Err.linearNeedsJac
    else do
      let j ← buildJacNone st nCon wrtS
      .ok (j, true)
  | some jIn => do
      let j ← buildJacExplicit st conName nCon wrtS jIn
      .ok (j, false)

def addConGroup (st : Optimization) (name : String) (nCon : Nat)
    (lower upper : Option (List ℚ)) (scale : List ℚ) (linear : Bool)
    (wrt : Option (List String)) (jac : Option (List (String × BlockInput))) :
    Except Err Optimization := do
  if st.ableToAddVariables then .error .orderingViolation
  else if name ∈ st.conGroupNames then .error (.duplicateName "conGroup" name)
  else do
    let st := { st with conGroupNames := st.conGroupNames ++ [name] }
    let lower ← defaultBroadcast lower (-infVal) nCon "lower"
    let upper ← defaultBroadcast upper infVal nCon "upper"
    let scale ← broadcast scale nCon "scale"
    let wrt0 := wrtDefault st wrt
    wrtValidate st wrt
    let starts ← wrtStarts st wrt0
    let wrtS := (starts.insertionSort tupleLe).map Prod.snd
    let jacPair ← buildJac st name nCon linear wrtS jac
    let jacD := jacPair.1.map (fun p => (p.1, csrRowScale p.2 scale))
    let newCon : Constraint :=
      ⟨name, linear, wrtS, jacD, jacPair.2,
        List.zipWith (fun a b => a * b) lower scale,
        List.zipWith (fun a b => a * b) upper scale, scale, nCon, 0, 0⟩
    .ok { st with constraints := setKey st.constraints name newCon }

/-- The convenience call `addCon(name, ...)`: `addConGroup(name, 1, ...)`. -/
def addCon (st : Optimization) (name : String)
    (lower upper : Option (List ℚ)) (scale : List ℚ) (linear : Bool)
    (wrt : Option (List String)) (jac : Option (List (String × BlockInput))) :
    Except Err Optimization :=
  addConGroup st name 1 lower upper scale linear wrt jac

/-- Sparse coordinate matrix (`scipy.sparse.coo_matrix`): the list of
(row, column, value) triples in the order the source appends them. -/
structure Coo where
  nrows : Nat
  ncols : Nat
  entries : List (Nat × Nat × ℚ)
deriving Repr, DecidableEq

/-- Constructor `sparse.coo_matrix((data, (row, col)), shp)`: scipy
validates that every index is inside the shape. -/
def cooFromTriples (nr nc : Nat) (es : List (Nat × Nat × ℚ)) : Except Err Coo :=
  if es.all (fun e => decide (e.1 < nr) && decide (e.2.1 < nc)) then .ok ⟨nr, nc, es⟩
  else .error .indexErr

/-- Constructor `sparse.coo_matrix(dense)`: the nonzero entries of a dense
matrix in row-major order. -/
def cooFromDense (m : List (List ℚ)) : Coo :=
  ⟨m.length, (m.headD []).length,
    (m.enum.map (fun p => (p.2.enum.filter (fun e => decide (e.2 ≠ 0))).map
      (fun e => (p.1, e.1, e.2)))).flatten⟩

/-- Row scaling of a coo matrix keeping the stored structure
(`_cooRowScale`: `mat.data[i] *= vec[mat.row[i]]`), including its
`assert mat.shape[0] == len(vec)`. -/
def cooRowScale (c : Coo) (vec : List ℚ) : Except Err Coo :=
  if c.nrows = vec.length then
    .ok ⟨c.nrows, c.ncols, c.entries.map (fun e => (e.1, e.2.1, e.2.2 * vec.getD e.1 0))⟩
  else .error .assertFail

/-- A per-iteration constraint-jacobian submission: one full dense array,
or a nested dictionary of per-constraint, per-set blocks. -/
inductive GconArg where
  | arr (m : List (List ℚ))
  | dict (d : List (String × List (String × BlockInput)))
deriving Repr, DecidableEq

/-- Full-dense branch of `processConstraintJacobian`: shape must match the
partition, a dense return must be allowed, zeros are replaced by the
sentinel, columns are divided by `xscale`, the array becomes a coo matrix
and its rows are scaled by the partition's constraint scales.  The loop
`for i in range(self.ndvs): gcon[:, i] /= self.xscale[i]` indexes
`xscale`, raising `IndexError` when it is shorter than `ndvs`. -/
def processDenseJac (st : Optimization) (shp : Nat × Nat) (conScale : List ℚ)
    (m : List (List ℚ)) : Except Err Coo :=
  if denseShape m = shp then
    if st.denseJacobianOK then
      if st.ndvs ≤ st.xscale.length then
        let g1 := replaceZeros m
        let g2 := g1.map (fun r => r.enum.map (fun e => e.2 / st.xscale.getD e.1 0))
        cooRowScale (cooFromDense g2) conScale
      else .error .indexErr
    else .error .denseForbidden
  else .error .denseWrongSize

/-- Triples contributed by one (constraint, dvSet) pair in the dictionary
branch: the submitted block (or, when absent, the stored template) is
converted to csr, its shape and its nonzero count are checked against the
stored template, and one triple per stored template position is emitted at
global row `con.rs + iRow` and global column `set offset + indices[ii]`
with value `tmp.data[ii] / xscale[icol]` — positions walk the template's
`indptr`/`indices` while values walk the submitted flat `data`, which the
zip of the two row-major streams models. -/
def conKeyTriples (st : Optimization) (con : Constraint)
    (sub : List (String × BlockInput)) (key : String) :
    Except Err (List (Nat × Nat × ℚ)) := do
  let nrec ← dvSetN st key
  let ndvsK := nrec.hi - nrec.lo
  let templ ← match getKey con.jac key with
    | some t => .ok t
    | none => .error (Err.keyErr key)
  let tmp := match getKey sub key with
    | some b => blockToCsr b
    | none => templ
  if tmp.nrows = con.ncon ∧ tmp.ncols = ndvsK then
    if tmp.nnz = templ.nnz then
      .ok ((templ.linearEntries.zip tmp.flatData).map
        (fun p => (con.rs + p.1.1, nrec.lo + p.1.2,
                   p.2 / st.xscale.getD (nrec.lo + p.1.2) 0)))
    else .error (.nnzMismatch con.cname)
  else .error (.jacWrongShape con.cname)

/-- Loop over the sorted `wrt` keys of one constraint. -/
def conKeysFold (st : Optimization) (con : Constraint)
    (sub : List (String × BlockInput)) :
    List String → Except Err (List (Nat × Nat × ℚ))
  | [] => .ok []
  | k :: ks => do
    let t ← conKeyTriples st con sub k
    let ts ← conKeysFold st con sub ks
    .ok (t ++ ts)

/-- Processing of one constraint in the dictionary branch: the constraint's
name must be a key of the submission; when the user supplied an explicit
template at declaration (`partialReturnOk` false) every declared set must
be present; then every `wrt` key contributes its triples. -/
def conTriples (st : Optimization) (d : List (String × List (String × BlockInput)))
    (iCon : String) (con : Constraint) : Except Err (List (Nat × Nat × ℚ)) :=
  if !(hasKey d con.cname) then .error (.missingConJac con.cname)
  else
    match getKey d iCon with
    | none => .error (.keyErr iCon)
    | some sub =>
      match (if !con.partRetOk then con.jac.find? (fun p => !(hasKey sub p.1)) else none) with
      | some p => .error (.missingDvSetJac con.cname p.1)
      | none => conKeysFold st con sub con.wrt

/-- Loop over all constraints of the requested partition in registration
order. -/
def consFold (st : Optimization) (d : List (String × List (String × BlockInput)))
    (linearFlag : Bool) :
    List (String × Constraint) → Except Err (List (Nat × Nat × ℚ))
  | [] => .ok []
  | p :: ps =>
    if p.2.linear = linearFlag then do
      let t ← conTriples st d p.1 p.2
      let ts ← consFold st d linearFlag ps
      .ok (t ++ ts)
    else consFold st d linearFlag ps

/-- Dictionary branch of `processConstraintJacobian`: collect all triples,
shift linear rows down by `nnCon` (numpy `row -= self.nnCon`; the shift
applies to rows at or above `nnCon` in every state arising here, so
truncated subtraction agrees with the signed arithmetic of the source),
build the coo matrix of the partition's shape and scale its rows. -/
def processDictJac (st : Optimization) (shp : Nat × Nat) (conScale : List ℚ)
    (d : List (String × List (String × BlockInput))) (linearFlag : Bool) :
    Except Err Coo := do
  let triples ← consFold st d linearFlag st.constraints
  let triples := if linearFlag
    then triples.map (fun e => (e.1 - st.nnCon, e.2.1, e.2.2))
    else triples
  let coo ← cooFromTriples shp.1 shp.2 triples
  cooRowScale coo conScale

/-- The assembler `processConstraintJacobian(gcon, linearFlag)`. -/
def processConstraintJacobian (st : Optimization) (gcon : GconArg)
    (linearFlag : Bool) : Except Err Coo :=
  if st.nCon = 0 then
    (if st.dummyConstraint then
      .ok ⟨1, st.ndvs, (List.range st.ndvs).map (fun j => (0, j, tiny))⟩
     else .ok ⟨0, 0, []⟩)
  else
    let shp := if linearFlag then (st.nlCon, st.ndvs) else (st.nnCon, st.ndvs)
    let conScale := if linearFlag then st.conScaleLinear else st.conScaleNonLinear
    match gcon with
    | .arr m => processDenseJac st shp conScale m
    | .dict d => processDictJac st shp conScale d linearFlag

/-- Row-range assignment pass of `finalizeConstraints`: the constraints
whose `linear` flag equals `flag` get `rs = rowCounter`,
`re = rowCounter + ncon` in registration order and their scales are
concatenated; the other constraints are left untouched.  Returns the
updated list, the concatenated scale vector and the final counter. -/
def assignRows (flag : Bool) (c : Nat) :
    List (String × Constraint) → List (String × Constraint) × List ℚ × Nat
  | [] => ([], [], c)
  | (k, con) :: rest =>
    if con.linear = flag then
      let res := assignRows flag (c + con.ncon) rest
      ((k, { con with rs := c, re := c + con.ncon }) :: res.1,
        con.scale ++ res.2.1, res.2.2)
    else
      let res := assignRows flag c rest
      ((k, con) :: res.1, res.2.1, res.2.2)

/-- Design-variable scale vector assembled in set/group/variable order. -/
def xscaleOf (vars : List (String × List (String × List Var))) : List ℚ :=
  (vars.map (fun s => (s.2.map (fun g => g.2.map Var.scale)).flatten)).flatten

/-- Step 3 of `finalizeConstraints` exactly as written in the source:
`denseJacobianOK` is cleared whenever some constraint's `wrt` is **not a
subset** of the registered variable sets (`if not set(con.wrt) <=
allVarSets`).  Since `addConGroup` validates every `wrt` entry against
the registry, this condition never fires; the coverage test the
surrounding comments describe is not what the code computes. -/
def denseOKCheck (dense0 : Bool) (keys : List String)
    (cons : List (String × Constraint)) : Bool :=
  cons.foldl (fun ok p => if p.2.wrt.all (fun s => keys.contains s) then ok else false)
    dense0

/-- The `gcon` dictionary `finalizeConstraints` builds for the linear
constraints: each linear constraint contributes its stored (sparse)
template blocks. -/
def linearGconArg (cons : List (String × Constraint)) :
    List (String × List (String × BlockInput)) :=
  (cons.filter (fun p => p.2.linear)).map
    (fun p => (p.1, p.2.jac.map (fun q => (q.1, BlockInput.sp q.2))))

/-- The collective `finalizeConstraints()`: reduces the registry, counts
linear/nonlinear rows, assigns row ranges (nonlinear first, then linear,
both in registration order), stores the concatenated scale vectors and
`xscale`, runs the (ineffective) dense-return check, and, when linear
constraints exist, assembles their fixed jacobian through
`processConstraintJacobian`. -/
def finalizeConstraints (st : Optimization) : Except Err (Optimization × Option Coo) := do
  let cons0 := reduceDict st.constraints
  let nlcon := ((cons0.filter (fun p => p.2.linear)).map (fun p => p.2.ncon)).sum
  let nncon := ((cons0.filter (fun p => !p.2.linear)).map (fun p => p.2.ncon)).sum
  let r1 := assignRows false 0 cons0
  let r2 := assignRows true r1.2.2 r1.1
  let st : Optimization := { st with
    constraints := r2.1,
    nnCon := nncon, nlCon := nlcon, nCon := nncon + nlcon,
    conScaleNonLinear := r1.2.1, conScaleLinear := r2.2.1,
    xscale := xscaleOf st.vars,
    denseJacobianOK := denseOKCheck st.denseJacobianOK (st.vars.map Prod.fst)
      r2.1 }
  if 0 < st.nlCon then do
    let lj ← processConstraintJacobian st (GconArg.dict (linearGconArg st.constraints)) true
    pure (st, some lj)
  else pure (st, none)

/-- A value of the named dictionary form: a python scalar or a 1d array.
Used both for design-variable groups (`processX`/`deProcessX`) and for
constraint values (`processNonlinearConstraints`, via `numpy.atleast_1d`). -/
inductive XVal where
  | scl (v : ℚ)
  | arr (l : List ℚ)
deriving Repr, DecidableEq

/-- The two shapes `x` can take: the optimizer's flat array or the
named-group dictionary. -/
inductive XForm where
  | flat (x : List ℚ)
  | named (d : List (String × XVal))
deriving Repr, DecidableEq

/-- Python slice read `x[i:j]` for `0 ≤ i ≤ j` (clamped at the ends). -/
def sliceClamp (x : List ℚ) (i j : Nat) : List ℚ := (x.drop i).take (j - i)

/-- Slice assignment `l[i:i+len(vs)] = vs` for an in-range slice. -/
def listSet (l : List ℚ) (i : Nat) (vs : List ℚ) : List ℚ :=
  l.take i ++ vs ++ l.drop (i + vs.length)

/-- Inner loop of `processX` over the groups of one variable set: scalar
groups read `x[istart]` (an `IndexError` when out of range), vector
groups the copied slice `x[istart:iend]`.  The offset record is unpacked
as `[istart, iend, scalar]`, so a record without the scalar flag is an
`IndexError`. -/
def processXSet (st : Optimization) (x : List ℚ) (dvSet : String) :
    List (String × List Var) → List (String × XVal) → Option (List (String × XVal))
  | [], acc => some acc
  | (g, _) :: rest, acc => do
    let inner ← getKey st.dvOffset dvSet
    let r ← getKey inner g
    let sc ← r.flag
    if sc then do
      let v ← x.get? r.lo
      processXSet st x dvSet rest (setKey acc g (XVal.scl v))
    else
      processXSet st x dvSet rest (setKey acc g (XVal.arr (sliceClamp x r.lo r.hi)))

/-- Outer loop of `processX` over the variable sets. -/
def processXGroups (st : Optimization) (x : List ℚ) :
    List (String × List (String × List Var)) → List (String × XVal) →
    Option (List (String × XVal))
  | [], acc => some acc
  | (dvSet, gs) :: rest, acc => do
    let acc2 ← processXSet st x dvSet gs acc
    processXGroups st x rest acc2

/-- The codec call `processX(x)`: with `useGroups` the flat array is
expanded to the named dictionary; without it the input is returned
unchanged.  A dictionary input under `useGroups` would make the source
index a dictionary with integer offsets, which fails. -/
def processX (st : Optimization) : XForm → Option XForm
  | .flat x =>
    if st.useGroups then (processXGroups st x st.vars []).map XForm.named
    else some (.flat x)
  | .named d =>
    if st.useGroups then none
    else some (.named d)

/-- Inner loop of `deProcessX`: writes each group's dictionary entry into
`x_array` at the group's offsets.  numpy semantics of the assignments:
`x_array[istart] = v` needs `istart` in range; `x_array[istart:iend] = v`
broadcasts a scalar over the (clamped) slice and requires an array to
match the slice length exactly. -/
def deProcessXSet (st : Optimization) (d : List (String × XVal)) (dvSet : String) :
    List (String × List Var) → List ℚ → Option (List ℚ)
  | [], acc => some acc
  | (g, _) :: rest, acc => do
    let inner ← getKey st.dvOffset dvSet
    let r ← getKey inner g
    let sc ← r.flag
    let xv ← getKey d g
    if sc then
      match xv with
      | .scl v =>
        if r.lo < acc.length then deProcessXSet st d dvSet rest (listSet acc r.lo [v])
        else none
      | .arr _ => none
    else
      match xv with
      | .scl v =>
        deProcessXSet st d dvSet rest (listSet acc (min r.lo acc.length)
          (List.replicate (min r.hi acc.length - min r.lo acc.length) v))
      | .arr l =>
        if l.length = min r.hi acc.length - min r.lo acc.length then
          deProcessXSet st d dvSet rest (listSet acc (min r.lo acc.length) l)
        else none

/-- Outer loop of `deProcessX` over the variable sets. -/
def deProcessXGroups (st : Optimization) (d : List (String × XVal)) :
    List (String × List (String × List Var)) → List ℚ → Option (List ℚ)
  | [], acc => some acc
  | (dvSet, gs) :: rest, acc => do
    let acc2 ← deProcessXSet st d dvSet gs acc
    deProcessXGroups st d rest acc2

/-- The codec call `deProcessX(x)`: with `useGroups` the dictionary is
collapsed into a fresh `numpy.zeros(self.ndvs)` array; without it the
input is returned unchanged. -/
def deProcessX (st : Optimization) : XForm → Option XForm
  | .named d =>
    if st.useGroups then
      (deProcessXGroups st d st.vars (List.replicate st.ndvs 0)).map XForm.flat
    else some (.named d)
  | .flat x =>
    if st.useGroups then none
    else some (.flat x)

/-- `numpy.atleast_1d` on a dictionary value. -/
def atleast1d : XVal → List ℚ
  | .scl v => [v]
  | .arr l => l

/-- Loop of `processNonlinearConstraints` over the registered constraints:
each nonlinear constraint must appear in the submitted dictionary with
exactly `ncon` values, which are written at `fcon[con.rs:con.re]`. -/
def pncFold (st : Optimization) (fcon_in : List (String × XVal)) :
    List (String × Constraint) → List ℚ → Except Err (List ℚ)
  | [], acc => .ok acc
  | (iCon, con) :: rest, acc =>
    if !con.linear then
      match getKey fcon_in iCon with
      | some cv =>
        if (atleast1d cv).length = con.ncon then
          if (atleast1d cv).length =
              min con.re acc.length - min con.rs acc.length then
            pncFold st fcon_in rest
              (listSet acc (min con.rs acc.length) (atleast1d cv))
          else .error .valueErr
        else .error (.conValWrongLength iCon)
      | none => .error (.missingConValue iCon)
    else pncFold st fcon_in rest acc

/-- The assembler `processNonlinearConstraints(fcon_in, scaled)`: places
each nonlinear constraint's values at its row range inside a zero vector
of length `nnCon` and multiplies elementwise by the nonlinear scale
vector (or by ones when `scaled` is false). -/
def processNonlinearConstraints (st : Optimization) (fcon_in : List (String × XVal))
    (scaled : Bool) : Except Err (List ℚ) :=
  if st.dummyConstraint then .ok [0]
  else
    let scaleFact := if scaled then st.conScaleNonLinear
      else List.replicate st.conScaleNonLinear.length 1
    do
      let fcon ← pncFold st fcon_in st.constraints (List.replicate st.nnCon 0)
      if scaleFact.length = fcon.length then
        .ok (List.zipWith (fun a b => a * b) scaleFact fcon)
      else .error .valueErr

/-- One design-variable declaration call of the public API
(`addVarSet`, `addVar`, or `addVarGroup`). -/
inductive Decl where
  | dvSetDecl (name : String)
  | dvDecl (name : String) (typ : String) (value : List ℚ)
      (lower upper scale : Option (List ℚ)) (varSet : Option String)
  | dvGroupDecl (name : String) (nVars : Nat) (typ : String) (value : List ℚ)
      (lower upper scale : Option (List ℚ)) (varSet : Option String)
deriving Repr

/-- Runs one declaration against the state. -/
def runDecl (st : Optimization) : Decl → Except Err Optimization
  | .dvSetDecl n => addVarSet st n
  | .dvDecl n t v lo hi sc vs => addVar st n t v lo hi sc vs
  | .dvGroupDecl n k t v lo hi sc vs => addVarGroup st n k t v lo hi sc vs false

/-- Runs a sequence of declarations left to right. -/
def runDecls (st : Optimization) : List Decl → Except Err Optimization
  | [] => .ok st
  | d :: ds => do
    let st2 ← runDecl st d
    runDecls st2 ds

/-- Consecutive half-open ranges: the ranges in the list sit end to end
from the first bound to the last. -/
inductive ConsecCover : Nat → List (Nat × Nat) → Nat → Prop
  | nil (a : Nat) : ConsecCover a [] a
  | cons (a b e : Nat) (l : List (Nat × Nat)) (hab : a ≤ b)
      (h : ConsecCover b l e) : ConsecCover a ((a, b) :: l) e

theorem ConsecCover.start_le {a l e} (h : ConsecCover a l e) : a ≤ e := by
  induction h with
  | nil => exact le_refl _
  | cons a b e l hab h ih => exact le_trans hab ih

theorem ConsecCover.mem_bounds {a l e} (h : ConsecCover a l e) :
    ∀ r ∈ l, a ≤ r.1 ∧ r.1 ≤ r.2 ∧ r.2 ≤ e := by
  induction h with
  | nil => intro r hr; cases hr
  | cons a b e l hab h ih =>
    intro r hr
    cases hr with
    | head => exact ⟨le_refl _, hab, h.start_le⟩
    | tail _ hr =>
      have hb := ih r hr
      exact ⟨le_trans hab hb.1, hb.2⟩

theorem ConsecCover.covers {a l e} (h : ConsecCover a l e) :
    ∀ i, a ≤ i → i < e → ∃ r ∈ l, r.1 ≤ i ∧ i < r.2 := by
  induction h with
  | nil a => intro i h1 h2; omega
  | cons a b e l hab h ih =>
    intro i h1 h2
    by_cases hib : i < b
    · exact ⟨(a, b), List.mem_cons_self _ _, h1, hib⟩
    · obtain ⟨r, hr, hlo, hhi⟩ := ih i (by omega) h2
      exact ⟨r, List.mem_cons_of_mem _ hr, hlo, hhi⟩

theorem ConsecCover.pairwise_disjoint {a l e} (h : ConsecCover a l e) :
    l.Pairwise (fun r s => r.2 ≤ s.1) := by
  induction h with
  | nil => exact List.Pairwise.nil
  | cons a b e l hab h ih =>
    exact List.Pairwise.cons (fun s hs => (h.mem_bounds s hs).1) ih

theorem ConsecCover.append {a l1 b l2 e} (h1 : ConsecCover a l1 b)
    (h2 : ConsecCover b l2 e) : ConsecCover a (l1 ++ l2) e := by
  induction h1 with
  | nil => exact h2
  | cons a b e l hab h ih => exact ConsecCover.cons _ _ _ _ hab (ih h2)

theorem ConsecCover.in_range {a l e} (h : ConsecCover a l e) :
    ∀ r ∈ l, ∀ i, r.1 ≤ i → i < r.2 → a ≤ i ∧ i < e := by
  intro r hr i h1 h2
  have hb := h.mem_bounds r hr
  omega

theorem hasKey_iff {α : Type} (l : List (String × α)) (k : String) :
    hasKey l k = true ↔ k ∈ l.map Prod.fst := by
  unfold hasKey
  rw [List.any_eq_true]
  constructor
  · rintro ⟨p, hp, he⟩
    have hpk : p.1 = k := by simpa using he
    exact hpk ▸ List.mem_map_of_mem Prod.fst hp
  · intro hk
    obtain ⟨p, hp, he⟩ := List.mem_map.mp hk
    exact ⟨p, hp, by simp [he]⟩

theorem hasKey_false {α : Type} (l : List (String × α)) (k : String)
    (h : k ∉ l.map Prod.fst) : hasKey l k = false := by
  rw [← Bool.not_eq_true, hasKey_iff]
  exact h

theorem setKey_fresh {α : Type} (l : List (String × α)) (k : String) (v : α)
    (h : k ∉ l.map Prod.fst) : setKey l k v = l ++ [(k, v)] := by
  unfold setKey
  rw [hasKey_false l k h]
  simp

theorem getKey_nil {α : Type} (k : String) : getKey ([] : List (String × α)) k = none := rfl

theorem getKey_cons {α : Type} (p : String × α) (l : List (String × α)) (k : String) :
    getKey (p :: l) k = if p.1 = k then some p.2 else getKey l k := by
  by_cases h : p.1 = k
  · unfold getKey
    rw [List.find?_cons_of_pos _ (by simpa using h), if_pos h]
    rfl
  · unfold getKey
    rw [List.find?_cons_of_neg _ (by simpa using h), if_neg h]

theorem getKey_append {α : Type} (l1 l2 : List (String × α)) (k : String) :
    getKey (l1 ++ l2) k =
      ((getKey l1 k).rec (getKey l2 k) (fun v => some v) : Option α) := by
  induction l1 with
  | nil => simp [getKey]
  | cons p l1 ih =>
    rw [List.cons_append, getKey_cons, getKey_cons]
    by_cases h : p.1 = k
    · simp [h]
    · simp [h, ih]

theorem getKey_not_mem {α : Type} (l : List (String × α)) (k : String)
    (h : k ∉ l.map Prod.fst) : getKey l k = none := by
  induction l with
  | nil => rfl
  | cons p l ih =>
    rw [getKey_cons]
    simp only [List.map_cons, List.mem_cons] at h
    push_neg at h
    rw [if_neg (fun he => h.1 he.symm), ih h.2]

theorem foldl_setKey_fresh {α : Type} (add : List (String × α)) :
    ∀ (l : List (String × α)),
    (∀ k ∈ add.map Prod.fst, k ∉ l.map Prod.fst) → (add.map Prod.fst).Nodup →
    add.foldl (fun d p => setKey d p.1 p.2) l = l ++ add := by
  induction add with
  | nil => intro l _ _; simp
  | cons p add ih =>
    intro l hfresh hnd
    simp only [List.foldl_cons]
    rw [setKey_fresh l p.1 p.2 (hfresh p.1 (by simp))]
    rw [ih (l ++ [(p.1, p.2)]) ?fresh ?nd]
    · simp
    case fresh =>
      intro k hk
      simp only [List.map_append, List.mem_append]
      push_neg
      constructor
      · exact hfresh k (by simp [hk])
      · simp only [List.map_cons, List.nodup_cons] at hnd
        intro hc
        simp at hc
        exact hnd.1 (hc ▸ hk)
    case nd =>
      simp only [List.map_cons, List.nodup_cons] at hnd
      exact hnd.2

theorem listSet_append_replicate (done vs : List ℚ) (N : Nat) :
    listSet (done ++ List.replicate (N - done.length) (0 : ℚ)) done.length vs
      = (done ++ vs) ++ List.replicate (N - (done.length + vs.length)) 0 := by
  unfold listSet
  have ht : (done ++ List.replicate (N - done.length) (0 : ℚ)).take done.length = done :=
    List.take_left done _
  have hd : (done ++ List.replicate (N - done.length) (0 : ℚ)).drop
      (done.length + vs.length) = List.replicate (N - (done.length + vs.length)) 0 := by
    rw [List.drop_append, List.drop_replicate]
    congr 1
    omega
  rw [ht, hd, List.append_assoc]

theorem sliceClamp_spec (pre mid post : List ℚ) :
    sliceClamp (pre ++ mid ++ post) pre.length (pre.length + mid.length) = mid := by
  unfold sliceClamp
  rw [List.append_assoc, List.drop_left, Nat.add_sub_cancel_left]
  rw [List.take_left]

theorem sliceClamp_take (x : List ℚ) (c n : Nat) :
    x.take c ++ sliceClamp x c (c + n) = x.take (c + n) := by
  unfold sliceClamp
  rw [Nat.add_sub_cancel_left, List.take_add]

theorem sliceClamp_length (x : List ℚ) (c n : Nat) (h : c + n ≤ x.length) :
    (sliceClamp x c (c + n)).length = n := by
  unfold sliceClamp
  rw [Nat.add_sub_cancel_left, List.length_take, List.length_drop]
  omega

theorem getD_append_left (l1 l2 : List ℚ) (i : Nat) (h : i < l1.length) :
    (l1 ++ l2).getD i 0 = l1.getD i 0 := by
  simp [List.getD, List.getElem?_append, h]

theorem getD_append_right (l1 l2 : List ℚ) (i : Nat) :
    (l1 ++ l2).getD (l1.length + i) 0 = l2.getD i 0 := by
  simp [List.getD, List.getElem?_append]

instance : Inhabited Var := ⟨⟨"", "", 0, 0, 0, 0, false⟩⟩

/-- Total number of variables in one set's group list. -/
def varsLen (gs : List (String × List Var)) : Nat := (gs.map (fun g => g.2.length)).sum

/-- Closed form of the group offset records `finGroups` produces. -/
def groupOffsFrom (c : Nat) : List (String × List Var) → List (String × OffRec)
  | [] => []
  | (g, vs) :: rest =>
    (g, ⟨c, c + vs.length, some (vs.headD default).scalar⟩) ::
      groupOffsFrom (c + vs.length) rest

theorem finGroups_eq (gs : List (String × List Var)) :
    ∀ c goffs c2, finGroups c gs = some (goffs, c2) →
    (∀ p ∈ gs, p.2 ≠ []) ∧ goffs = groupOffsFrom c gs ∧ c2 = c + varsLen gs := by
  induction gs with
  | nil =>
    intro c goffs c2 h
    simp [finGroups] at h
    simp [h.1, h.2, groupOffsFrom, varsLen]
  | cons p rest ih =>
    intro c goffs c2 h
    obtain ⟨g, vs⟩ := p
    simp only [finGroups, Option.bind_eq_bind, Option.bind_eq_some] at h
    obtain ⟨v0, hv0, ⟨tl, ctl⟩, htl, heq⟩ := h
    obtain ⟨hne, htlr, hc⟩ := ih (c + vs.length) tl ctl htl
    simp only [Option.some.injEq, Prod.mk.injEq] at heq
    constructor
    · intro q hq
      cases hq with
      | head => simp only [ne_eq]; intro hc2; rw [hc2] at hv0; simp at hv0
      | tail _ hq => exact hne q hq
    · constructor
      · rw [← heq.1, groupOffsFrom, htlr]
        have hh : vs.headD default = v0 := by
          cases vs with
          | nil => simp at hv0
          | cons a l => simp at hv0; simp [hv0]
        rw [hh]
      · rw [← heq.2, hc, varsLen, varsLen]
        simp
        omega

/-- Closed form of the per-set offset table `finSets` produces over the
pruned registry. -/
def offTableFrom (c : Nat) :
    List (String × List (String × List Var)) → List (String × List (String × OffRec))
  | [] => []
  | (s, gs) :: rest =>
    (s, finSetRecord c (groupOffsFrom c gs) (c + varsLen gs)) ::
      offTableFrom (c + varsLen gs) rest

/-- Total number of variables over all sets. -/
def allVarsLen (vs : List (String × List (String × List Var))) : Nat :=
  (vs.map (fun s => varsLen s.2)).sum

theorem finSets_eq (sets : List (String × List (String × List Var))) :
    ∀ c vars2 offs c2, finSets c sets = some (vars2, offs, c2) →
    vars2 = sets.filter (fun p => decide (0 < p.2.length)) ∧
    offs = offTableFrom c vars2 ∧ c2 = c + allVarsLen vars2 ∧
    (∀ s ∈ vars2, ∀ p ∈ s.2, p.2 ≠ []) := by
  induction sets with
  | nil =>
    intro c vars2 offs c2 h
    simp [finSets] at h
    simp [h.1, h.2.1, h.2.2, offTableFrom, allVarsLen]
  | cons p rest ih =>
    intro c vars2 offs c2 h
    obtain ⟨s, gs⟩ := p
    by_cases hgs : 0 < gs.length
    · simp only [finSets, if_pos hgs, Option.bind_eq_bind, Option.bind_eq_some] at h
      obtain ⟨⟨goffs, cg⟩, hg, ⟨vrest, orest, crest⟩, hr, heq⟩ := h
      obtain ⟨hne, hgoffs, hcg⟩ := finGroups_eq gs c goffs cg hg
      obtain ⟨hv, ho, hc, hne2⟩ := ih cg vrest orest crest hr
      simp only [Option.some.injEq, Prod.mk.injEq] at heq
      refine ⟨?_, ?_, ?_, ?_⟩
      · rw [← heq.1, List.filter_cons, if_pos (by simpa using hgs), hv]
      · rw [← heq.2.1, ← heq.1, offTableFrom, hgoffs, ho, hcg, hv]
      · rw [← heq.2.2, hc, ← heq.1, allVarsLen, allVarsLen, hcg, hv]
        simp
        omega
      · intro q hq
        rw [← heq.1] at hq
        cases hq with
        | head => exact hne
        | tail _ hq => exact hne2 q hq
    · simp only [finSets, if_neg hgs] at h
      obtain ⟨hv, ho, hc, hne2⟩ := ih c vars2 offs c2 h
      refine ⟨?_, ho, hc, hne2⟩
      rw [List.filter_cons, if_neg (by simpa using hgs), hv]

theorem map_id_of {α : Type} (f : α → α) (l : List α) (h : ∀ p ∈ l, f p = p) :
    l.map f = l := by
  induction l with
  | nil => rfl
  | cons a l ih =>
    rw [List.map_cons, h a (by simp), ih (fun p hp => h p (by simp [hp]))]

theorem finSetRecord_no_n (c c2 : Nat) (goffs : List (String × OffRec))
    (h : "n" ∉ goffs.map Prod.fst) (hnd : (goffs.map Prod.fst).Nodup) :
    finSetRecord c goffs c2 = ("n", ⟨c, c2, none⟩) :: goffs := by
  unfold finSetRecord
  rw [foldl_setKey_fresh goffs [("n", ⟨c, 0, none⟩)]
    (fun k hk => by simp; intro he; rw [he] at hk; exact h hk) hnd]
  rw [List.singleton_append, List.map_cons]
  simp only [beq_self_eq_true, if_true]
  rw [map_id_of _ goffs ?hid]
  case hid =>
    intro p hp
    have hne : p.1 ≠ "n" := by
      intro he
      exact h (he ▸ List.mem_map_of_mem Prod.fst hp)
    simp [hne]

theorem offTableFrom_keys (vs : List (String × List (String × List Var))) :
    ∀ c, (offTableFrom c vs).map Prod.fst = vs.map Prod.fst := by
  induction vs with
  | nil => intro c; rfl
  | cons p rest ih =>
    intro c
    obtain ⟨s, gs⟩ := p
    rw [offTableFrom, List.map_cons, List.map_cons, ih]

theorem finalizeDesignVariables_eq (st st' : Optimization)
    (hoff : st.dvOffset = [])
    (hnd : (st.vars.map Prod.fst).Nodup)
    (h : finalizeDesignVariables st = some st') :
    st'.vars = st.vars.filter (fun p => decide (0 < p.2.length)) ∧
    st'.dvOffset = offTableFrom 0 st'.vars ∧
    st'.ndvs = allVarsLen st'.vars ∧
    (∀ s ∈ st'.vars, ∀ p ∈ s.2, p.2 ≠ []) ∧
    st'.ableToAddVariables = false ∧
    st'.useGroups = st.useGroups ∧
    st'.constraints = st.constraints ∧
    st'.varGroupNames = st.varGroupNames := by
  unfold finalizeDesignVariables reduceDict at h
  simp only [Option.bind_eq_bind, Option.bind_eq_some] at h
  obtain ⟨⟨vars2, offs, total⟩, hfs, hst⟩ := h
  obtain ⟨hv, ho, hc, hne⟩ := finSets_eq st.vars 0 vars2 offs total hfs
  have hkeys : (offs.map Prod.fst).Nodup := by
    rw [ho, offTableFrom_keys, hv]
    exact hnd.sublist ((List.filter_sublist _).map Prod.fst)
  have hfold : offs.foldl (fun d p => setKey d p.1 p.2) st.dvOffset = offs := by
    rw [hoff, foldl_setKey_fresh offs [] (by simp) hkeys, List.nil_append]
  rw [hfold] at hst
  simp only [Option.some.injEq] at hst
  rw [← hst]
  refine ⟨hv, ?_, ?_, hne, rfl, rfl, rfl, rfl⟩
  · simpa using ho
  · simp [hc]

/-- The per-set index ranges stored in the offset table: for each set, the
`[lo, hi)` pair of its record at the reserved key `'n'`. -/
def setRangesOf (off : List (String × List (String × OffRec))) : List (Nat × Nat) :=
  off.filterMap (fun p => (getKey p.2 "n").map (fun r => (r.lo, r.hi)))

/-- The per-group index ranges stored in the offset table: for each set,
the `[lo, hi)` pairs of every record other than the reserved key `'n'`. -/
def groupRangesOf (off : List (String × List (String × OffRec))) : List (Nat × Nat) :=
  (off.map (fun p => (p.2.filter (fun q => !(q.1 == "n"))).map
    (fun q => (q.2.lo, q.2.hi)))).flatten

theorem groupOffsFrom_keys (gs : List (String × List Var)) :
    ∀ c, (groupOffsFrom c gs).map Prod.fst = gs.map Prod.fst := by
  induction gs with
  | nil => intro c; rfl
  | cons p rest ih =>
    intro c
    obtain ⟨g, vs⟩ := p
    rw [groupOffsFrom, List.map_cons, List.map_cons, ih]

theorem groupOffs_cover (gs : List (String × List Var)) :
    ∀ c, ConsecCover c ((groupOffsFrom c gs).map (fun q => (q.2.lo, q.2.hi)))
      (c + varsLen gs) := by
  induction gs with
  | nil => intro c; simpa [groupOffsFrom, varsLen] using ConsecCover.nil c
  | cons p rest ih =>
    intro c
    obtain ⟨g, vs⟩ := p
    rw [groupOffsFrom, List.map_cons]
    have hl : varsLen ((g, vs) :: rest) = vs.length + varsLen rest := by
      simp [varsLen]
    rw [hl, ← Nat.add_assoc]
    exact ConsecCover.cons _ _ _ _ (Nat.le_add_right c vs.length) (ih (c + vs.length))

theorem finSetRecord_getN (c c2 : Nat) (goffs : List (String × OffRec))
    (h : "n" ∉ goffs.map Prod.fst) (hnd : (goffs.map Prod.fst).Nodup) :
    getKey (finSetRecord c goffs c2) "n" = some ⟨c, c2, none⟩ := by
  rw [finSetRecord_no_n c c2 goffs h hnd, getKey_cons, if_pos rfl]

theorem finSetRecord_groups (c c2 : Nat) (goffs : List (String × OffRec))
    (h : "n" ∉ goffs.map Prod.fst) (hnd : (goffs.map Prod.fst).Nodup) :
    (finSetRecord c goffs c2).filter (fun q => !(q.1 == "n")) = goffs := by
  rw [finSetRecord_no_n c c2 goffs h hnd, List.filter_cons]
  simp only [beq_self_eq_true, Bool.not_true, Bool.false_eq_true, if_false]
  apply List.filter_eq_self.mpr
  intro p hp
  have hne : p.1 ≠ "n" := fun he => h (he ▸ List.mem_map_of_mem Prod.fst hp)
  simp [hne]

/-- Hygiene of the variable registry needed for the offset table to mean
what it says: per-set group keys are unique and no group uses the reserved
key `'n'`. -/
def InnerOk (vs : List (String × List (String × List Var))) : Prop :=
  ∀ s ∈ vs, ("n" ∉ s.2.map Prod.fst) ∧ (s.2.map Prod.fst).Nodup

theorem setRanges_cover (vs : List (String × List (String × List Var)))
    (hin : InnerOk vs) :
    ∀ c, ConsecCover c (setRangesOf (offTableFrom c vs)) (c + allVarsLen vs) := by
  induction vs with
  | nil => intro c; simpa [offTableFrom, setRangesOf, allVarsLen] using ConsecCover.nil c
  | cons p rest ih =>
    intro c
    obtain ⟨s, gs⟩ := p
    obtain ⟨hn, hnd⟩ := hin (s, gs) (by simp)
    have hn2 : "n" ∉ (groupOffsFrom c gs).map Prod.fst := by
      rw [groupOffsFrom_keys]; exact hn
    have hnd2 : ((groupOffsFrom c gs).map Prod.fst).Nodup := by
      rw [groupOffsFrom_keys]; exact hnd
    rw [offTableFrom, setRangesOf, List.filterMap_cons]
    rw [finSetRecord_getN c (c + varsLen gs) (groupOffsFrom c gs) hn2 hnd2]
    have hl : allVarsLen ((s, gs) :: rest) = varsLen gs + allVarsLen rest := by
      simp [allVarsLen]
    rw [hl, ← Nat.add_assoc]
    exact ConsecCover.cons _ _ _ _ (Nat.le_add_right c (varsLen gs))
      (ih (fun q hq => hin q (by simp [hq])) (c + varsLen gs))

theorem groupRanges_cover (vs : List (String × List (String × List Var)))
    (hin : InnerOk vs) :
    ∀ c, ConsecCover c (groupRangesOf (offTableFrom c vs)) (c + allVarsLen vs) := by
  induction vs with
  | nil => intro c; simpa [offTableFrom, groupRangesOf, allVarsLen] using ConsecCover.nil c
  | cons p rest ih =>
    intro c
    obtain ⟨s, gs⟩ := p
    obtain ⟨hn, hnd⟩ := hin (s, gs) (by simp)
    have hn2 : "n" ∉ (groupOffsFrom c gs).map Prod.fst := by
      rw [groupOffsFrom_keys]; exact hn
    have hnd2 : ((groupOffsFrom c gs).map Prod.fst).Nodup := by
      rw [groupOffsFrom_keys]; exact hnd
    rw [offTableFrom, groupRangesOf, List.map_cons, List.flatten_cons]
    rw [finSetRecord_groups c (c + varsLen gs) (groupOffsFrom c gs) hn2 hnd2]
    have hl : allVarsLen ((s, gs) :: rest) = varsLen gs + allVarsLen rest := by
      simp [allVarsLen]
    rw [hl, ← Nat.add_assoc]
    exact (groupOffs_cover gs c).append
      (ih (fun q hq => hin q (by simp [hq])) (c + varsLen gs))

theorem except_bind_ok {ε α β : Type} (x : Except ε α) (f : α → Except ε β) (b : β) :
    (x >>= f) = .ok b ↔ ∃ a, x = .ok a ∧ f a = .ok b := by
  cases x with
  | error e => simp [Bind.bind, Except.bind]
  | ok a => simp [Bind.bind, Except.bind]

/-- The names of all variable groups, over all sets, in registration
order. -/
def allGroupNames (vs : List (String × List (String × List Var))) : List String :=
  (vs.map (fun s => s.2.map Prod.fst)).flatten

/-- Registry hygiene maintained by the declaration API: unique set keys,
globally unique group keys, names tracked in the name sets, an untouched
offset table, and scalar groups of length one. -/
def RegInv (st : Optimization) : Prop :=
  (st.vars.map Prod.fst).Nodup ∧
  (allGroupNames st.vars).Nodup ∧
  (∀ g ∈ allGroupNames st.vars, g ∈ st.varGroupNames) ∧
  (∀ s ∈ st.vars.map Prod.fst, s ∈ st.varSetNames) ∧
  st.dvOffset = [] ∧
  (∀ s ∈ st.vars, ∀ p ∈ s.2, (p.2.headD default).scalar = true → p.2.length = 1)

theorem regInv_init (name : String) (useGroups : Bool) :
    RegInv (initOpt name useGroups) := by
  refine ⟨?_, ?_, ?_, ?_, rfl, ?_⟩ <;> simp [initOpt, allGroupNames]

theorem addVarSet_spec (st st' : Optimization) (name : String)
    (h : addVarSet st name = .ok st') :
    st.ableToAddVariables = true ∧ name ∉ st.varSetNames ∧
    st' = { st with varSetNames := st.varSetNames ++ [name],
                    vars := setKey st.vars name [] } := by
  unfold addVarSet checkOkToAddVariables at h
  by_cases hok : st.ableToAddVariables
  · rw [if_pos hok] at h
    simp only [except_bind_ok] at h
    obtain ⟨u, _, h⟩ := h
    by_cases hdup : name ∈ st.varSetNames
    · rw [if_pos hdup] at h; cases h
    · rw [if_neg hdup] at h
      simp only [Except.ok.injEq] at h
      exact ⟨hok, hdup, h.symm⟩
  · rw [if_neg hok] at h
    simp [Bind.bind, Except.bind] at h

theorem allGroupNames_append_empty (vs : List (String × List (String × List Var)))
    (name : String) :
    allGroupNames (vs ++ [(name, [])]) = allGroupNames vs := by
  simp [allGroupNames]

theorem regInv_addVarSet (st st' : Optimization) (name : String)
    (h : addVarSet st name = .ok st') (hInv : RegInv st) : RegInv st' := by
  obtain ⟨hok, hdup, hst⟩ := addVarSet_spec st st' name h
  obtain ⟨h1, h2, h3, h4, h5, h6⟩ := hInv
  have hfresh : name ∉ st.vars.map Prod.fst := fun hc => hdup (h4 name hc)
  have hsk : setKey st.vars name [] = st.vars ++ [(name, [])] :=
    setKey_fresh _ _ _ hfresh
  subst hst
  refine ⟨?_, ?_, ?_, ?_, h5, ?_⟩
  · simp only [hsk, List.map_append]
    rw [List.nodup_append]
    refine ⟨h1, by simp, ?_⟩
    intro a ha hb
    simp at hb
    exact hfresh (hb ▸ ha)
  · simpa [hsk, allGroupNames_append_empty] using h2
  · intro g hg
    rw [hsk, allGroupNames_append_empty] at hg
    exact h3 g hg
  · intro s hs
    rw [hsk, List.map_append] at hs
    rcases List.mem_append.mp hs with hs | hs
    · exact List.mem_append_left _ (h4 s hs)
    · simp at hs
      simp [hs]
  · intro s hs p hp
    rw [hsk] at hs
    rcases List.mem_append.mp hs with hs | hs
    · exact h6 s hs p hp
    · simp at hs
      rw [hs] at hp
      cases hp

theorem mem_setKey {α : Type} (l : List (String × α)) (k : String) (v : α)
    (s : String × α) (h : s ∈ setKey l k v) : s ∈ l ∨ s = (k, v) := by
  unfold setKey at h
  by_cases hk : hasKey l k
  · rw [if_pos hk] at h
    obtain ⟨p, hp, he⟩ := List.mem_map.mp h
    by_cases hpk : p.1 == k
    · rw [if_pos hpk] at he
      exact Or.inr he.symm
    · rw [if_neg hpk] at he
      exact Or.inl (he ▸ hp)
  · rw [if_neg hk] at h
    rcases List.mem_append.mp h with h | h
    · exact Or.inl h
    · simp at h
      exact Or.inr h

theorem setKey_keys {α : Type} (l : List (String × α)) (k : String) (v : α)
    (hk : hasKey l k = true) : (setKey l k v).map Prod.fst = l.map Prod.fst := by
  unfold setKey
  rw [if_pos hk, List.map_map]
  apply List.map_congr_left
  intro p _
  by_cases hpk : p.1 == k
  · simp only [Function.comp_apply, if_pos hpk]
    have : p.1 = k := by simpa using hpk
    simp [this]
  · simp only [Function.comp_apply, if_neg hpk]

theorem getKey_cons_ne {α : Type} (p : String × α) (l : List (String × α)) (k : String)
    (h : p.1 ≠ k) : getKey (p :: l) k = getKey l k := by
  rw [getKey_cons, if_neg h]

theorem hasKey_cons {α : Type} (p : String × α) (l : List (String × α)) (k : String) :
    hasKey (p :: l) k = ((p.1 == k) || hasKey l k) := by
  simp [hasKey]

theorem setKey_cons_ne {α : Type} (p : String × α) (l : List (String × α))
    (k : String) (v : α) (hne : p.1 ≠ k) (hk : hasKey l k = true) :
    setKey (p :: l) k v = p :: setKey l k v := by
  unfold setKey
  rw [hasKey_cons, hk, if_pos (by simp), if_pos (by simp)]
  rw [List.map_cons, if_neg (by simpa using hne)]

theorem setKey_cons_eq {α : Type} (p : String × α) (l : List (String × α))
    (k : String) (v : α) (heq : p.1 = k) (hnd : k ∉ l.map Prod.fst) :
    setKey (p :: l) k v = (k, v) :: l := by
  unfold setKey
  rw [hasKey_cons, if_pos (by simp [heq]), List.map_cons, if_pos (by simpa using heq)]
  congr 1
  apply map_id_of
  intro q hq
  have : q.1 ≠ k := fun he => hnd (he ▸ List.mem_map_of_mem Prod.fst hq)
  simp [this]

theorem allGroupNames_setKey_extend
    (vars : List (String × List (String × List Var))) (vSet : String)
    (ni : List (String × List Var)) (x : String)
    (hnd : (vars.map Prod.fst).Nodup) (hkey : hasKey vars vSet = true)
    (hni : ni.map Prod.fst = (((getKey vars vSet).getD []).map Prod.fst) ++ [x]) :
    (allGroupNames (setKey vars vSet ni)).Perm (allGroupNames vars ++ [x]) := by
  induction vars with
  | nil => simp [hasKey] at hkey
  | cons p rest ih =>
    by_cases hpk : p.1 = vSet
    · have hnotin : vSet ∉ rest.map Prod.fst := by
        simp only [List.map_cons, List.nodup_cons] at hnd
        exact hpk ▸ hnd.1
      rw [setKey_cons_eq p rest vSet ni hpk hnotin]
      rw [getKey_cons, if_pos hpk] at hni
      simp only [Option.getD_some] at hni
      unfold allGroupNames
      simp only [List.map_cons, List.flatten_cons]
      rw [hni, List.append_assoc, List.append_assoc]
      exact List.Perm.append_left _ List.perm_append_comm
    · have hkr : hasKey rest vSet = true := by
        rw [hasKey_cons] at hkey
        rcases Bool.or_eq_true_iff.mp hkey with hc | hc
        · exact absurd (by simpa using hc) hpk
        · exact hc
      rw [setKey_cons_ne p rest vSet ni hpk hkr]
      rw [getKey_cons_ne p rest vSet hpk] at hni
      have hnd2 : (rest.map Prod.fst).Nodup := by
        simp only [List.map_cons, List.nodup_cons] at hnd
        exact hnd.2
      have ihp := ih hnd2 hkr hni
      unfold allGroupNames
      simp only [List.map_cons, List.flatten_cons]
      rw [List.append_assoc]
      exact List.Perm.append_left _ ihp

theorem getKey_mem {α : Type} (l : List (String × α)) (k : String) (v : α)
    (h : getKey l k = some v) : (k, v) ∈ l := by
  unfold getKey at h
  cases hf : l.find? (fun p => p.1 == k) with
  | none => rw [hf] at h; cases h
  | some p =>
    rw [hf] at h
    simp only [Option.map, Option.some.injEq] at h
    have hm := List.mem_of_find?_eq_some hf
    have hk := List.find?_some hf
    have hk2 : p.1 = k := by simpa using hk
    have : (k, v) = p := by
      rw [← hk2, ← h]
    rw [this]
    exact hm

theorem inner_sub_allGroupNames (vars : List (String × List (String × List Var)))
    (s : String) (gs : List (String × List Var)) (h : getKey vars s = some gs) :
    ∀ k ∈ gs.map Prod.fst, k ∈ allGroupNames vars := by
  intro k hk
  have hm := getKey_mem vars s gs h
  unfold allGroupNames
  rw [List.mem_flatten]
  exact ⟨gs.map Prod.fst, List.mem_map.mpr ⟨(s, gs), hm, rfl⟩, hk⟩

theorem regInv_addVarGroup (st st' : Optimization) (name : String) (nV : Nat)
    (t : String) (v : List ℚ) (lo hi sc : Option (List ℚ)) (vso : Option String)
    (scalar : Bool) (hsc : scalar = true → nV = 1)
    (h : addVarGroup st name nV t v lo hi sc vso scalar = .ok st')
    (hInv : RegInv st) : RegInv st' := by
  obtain ⟨h1, h2, h3, h4, h5, h6⟩ := hInv
  unfold addVarGroup checkOkToAddVariables at h
  by_cases hok : st.ableToAddVariables
  case neg => rw [if_neg hok] at h; simp [Bind.bind, Except.bind] at h
  rw [if_pos hok] at h
  simp only [Bind.bind, Except.bind] at h
  by_cases hdup : name ∈ st.varGroupNames
  case pos => rw [if_pos hdup] at h; cases h
  rw [if_neg hdup] at h
  set st1 : Optimization :=
    { st with varGroupNames := st.varGroupNames ++ [name] } with hst1
  set vSet : String := vso.getD name with hvSet
  cases hst2 : ensureVarSet st1 vSet with
  | error e => rw [hst2] at h; simp [Except.bind] at h
  | ok st2 =>
  rw [hst2] at h
  simp only [Except.bind] at h
  by_cases ht : t = "c" ∨ t = "i" ∨ t = "d"
  case neg => rw [if_neg ht] at h; cases h
  rw [if_pos ht] at h
  cases hval : broadcast v nV "value" with
  | error e => rw [hval] at h; simp [Except.bind] at h
  | ok valB =>
  rw [hval] at h
  simp only [Except.bind] at h
  cases hlow : defaultBroadcast lo (-infVal) nV "lower" with
  | error e => rw [hlow] at h; simp [Except.bind] at h
  | ok lowB =>
  rw [hlow] at h
  simp only [Except.bind] at h
  cases hupp : defaultBroadcast hi infVal nV "upper" with
  | error e => rw [hupp] at h; simp [Except.bind] at h
  | ok uppB =>
  rw [hupp] at h
  simp only [Except.bind] at h
  cases hsca : defaultBroadcast sc 1 nV "scale" with
  | error e => rw [hsca] at h; simp [Except.bind] at h
  | ok scaB =>
  rw [hsca] at h
  simp only [Except.bind, Except.ok.injEq] at h
  -- facts about the intermediate state st2
  have hInv1 : RegInv st1 := by
    refine ⟨h1, h2, ?_, h4, h5, h6⟩
    intro g hg
    exact List.mem_append_left _ (h3 g hg)
  have hname1 : name ∉ allGroupNames st1.vars := fun hc => hdup (h3 name hc)
  have hst2spec : RegInv st2 ∧ hasKey st2.vars vSet = true ∧
      allGroupNames st2.vars = allGroupNames st1.vars ∧
      st2.varGroupNames = st1.varGroupNames ∧ st2.dvOffset = st1.dvOffset := by
    unfold ensureVarSet at hst2
    by_cases hk : hasKey st1.vars vSet
    · rw [if_pos hk] at hst2
      simp only [Except.ok.injEq] at hst2
      rw [← hst2]
      exact ⟨hInv1, hk, rfl, rfl, rfl⟩
    · rw [if_neg hk] at hst2
      obtain ⟨_, _, hset⟩ := addVarSet_spec st1 st2 vSet hst2
      have hfr : vSet ∉ st1.vars.map Prod.fst :=
        fun hc => hk ((hasKey_iff _ _).mpr hc)
      refine ⟨regInv_addVarSet st1 st2 vSet hst2 hInv1, ?_, ?_, ?_, ?_⟩
      · rw [hset]
        simp only
        rw [setKey_fresh _ _ _ hfr, hasKey_iff]
        simp
      · rw [hset]
        simp only
        rw [setKey_fresh _ _ _ hfr]
        exact allGroupNames_append_empty _ _
      · rw [hset]
      · rw [hset]
  obtain ⟨⟨g1, g2, g3, g4, g5, g6⟩, hkey2, hagn2, hvgn2, hdv2⟩ := hst2spec
  have hname2 : name ∉ allGroupNames st2.vars := by rw [hagn2]; exact hname1
  -- the new group list
  set newVars : List Var := mkVarList name t nV valB lowB uppB scaB scalar with hnv
  set inner : List (String × List Var) := (getKey st2.vars vSet).getD [] with hinner
  have hinq : ∀ k ∈ inner.map Prod.fst, k ∈ allGroupNames st2.vars := by
    cases hgk : getKey st2.vars vSet with
    | none => rw [hinner, hgk]; simp
    | some gs =>
      rw [hinner, hgk]
      exact inner_sub_allGroupNames st2.vars vSet gs hgk
  have hfreshInner : name ∉ inner.map Prod.fst := fun hc => hname2 (hinq name hc)
  have hskInner : setKey inner name newVars = inner ++ [(name, newVars)] :=
    setKey_fresh _ _ _ hfreshInner
  rw [← h]
  refine ⟨?_, ?_, ?_, ?_, ?_, ?_⟩
  · simp only
    rw [setKey_keys _ _ _ hkey2]
    exact g1
  · simp only
    rw [hskInner]
    have hperm := allGroupNames_setKey_extend st2.vars vSet
      (inner ++ [(name, newVars)]) name g1 hkey2 (by rw [← hinner]; simp)
    rw [hperm.nodup_iff]
    rw [List.nodup_append]
    refine ⟨g2, by simp, fun a ha hb => hname2 ?_⟩
    have hae : a = name := by simpa using hb
    exact hae ▸ ha
  · simp only
    intro g hg
    rw [hskInner] at hg
    have hperm := allGroupNames_setKey_extend st2.vars vSet
      (inner ++ [(name, newVars)]) name g1 hkey2 (by rw [← hinner]; simp)
    have := hperm.mem_iff.mp hg
    rcases List.mem_append.mp this with hl | hr
    · exact g3 g hl
    · simp at hr
      rw [hr, hvgn2, hst1]
      simp
  · simp only
    rw [setKey_keys _ _ _ hkey2]
    exact g4
  · simp only
    exact g5
  · simp only
    intro s hs p hp
    rcases mem_setKey _ _ _ _ hs with hs2 | hs2
    · exact g6 s hs2 p hp
    · rw [hs2] at hp
      simp only at hp
      rw [hskInner] at hp
      rcases List.mem_append.mp hp with hp2 | hp2
      · cases hgk : getKey st2.vars vSet with
        | none =>
          rw [hinner, hgk] at hp2
          cases hp2
        | some gs =>
          have hm := getKey_mem st2.vars vSet gs hgk
          rw [hinner, hgk] at hp2
          exact g6 (vSet, gs) hm p hp2
      · simp at hp2
        rw [hp2]
        simp only
        intro hsct
        cases nV with
        | zero =>
          rw [hnv] at hsct
          have hfalse :
              ((mkVarList name t 0 valB lowB uppB scaB scalar).headD
                default).scalar = false := rfl
          rw [hfalse] at hsct
          cases hsct
        | succ n =>
          have hs1 : scalar = true := by
            rw [hnv] at hsct
            simpa [mkVarList, List.range_succ_eq_map] using hsct
          have hn1 := hsc hs1
          rw [hnv]
          simp only [mkVarList, List.length_map, List.length_range]
          omega

theorem regInv_runDecl (st st' : Optimization) (d : Decl)
    (h : runDecl st d = .ok st') (hInv : RegInv st) : RegInv st' := by
  cases d with
  | dvSetDecl n => exact regInv_addVarSet st st' n h hInv
  | dvDecl n t v lo hi sc vs =>
    exact regInv_addVarGroup st st' n 1 t v lo hi sc vs true (fun _ => rfl) h hInv
  | dvGroupDecl n k t v lo hi sc vs =>
    exact regInv_addVarGroup st st' n k t v lo hi sc vs false
      (fun hc => by cases hc) h hInv

theorem regInv_runDecls (ds : List Decl) :
    ∀ (st st' : Optimization), runDecls st ds = .ok st' → RegInv st → RegInv st' := by
  induction ds with
  | nil =>
    intro st st' h hInv
    simp only [runDecls, Except.ok.injEq] at h
    exact h ▸ hInv
  | cons d ds ih =>
    intro st st' h hInv
    simp only [runDecls] at h
    cases hd : runDecl st d with
    | error e => rw [hd] at h; simp [Bind.bind, Except.bind] at h
    | ok st2 =>
      rw [hd] at h
      simp only [Bind.bind, Except.bind] at h
      exact ih st2 st' h (regInv_runDecl st st2 d hd hInv)

theorem allVarsLen_filter (vs : List (String × List (String × List Var))) :
    allVarsLen (vs.filter (fun p => decide (0 < p.2.length))) = allVarsLen vs := by
  induction vs with
  | nil => rfl
  | cons p rest ih =>
    rw [List.filter_cons]
    by_cases hp : 0 < p.2.length
    · rw [if_pos (by simpa using hp)]
      simp only [allVarsLen, List.map_cons, List.sum_cons] at ih ⊢
      rw [ih]
    · rw [if_neg (by simpa using hp)]
      have hlen : p.2.length = 0 := by omega
      have hvl : varsLen p.2 = 0 := by
        rw [List.length_eq_zero] at hlen
        rw [hlen]
        rfl
      simp only [allVarsLen, List.map_cons, List.sum_cons] at ih ⊢
      rw [ih, hvl, Nat.zero_add]

theorem nodup_of_mem_flatten {α : Type} (l : List (List α)) (x : List α)
    (hx : x ∈ l) (h : l.flatten.Nodup) : x.Nodup := by
  induction l with
  | nil => cases hx
  | cons a l ih =>
    rw [List.flatten_cons, List.nodup_append] at h
    cases hx with
    | head => exact h.1
    | tail _ hx => exact ih hx h.2.1

theorem innerOk_of_regInv (st0 st : Optimization) (hInv : RegInv st0)
    (hn : "n" ∉ allGroupNames st0.vars)
    (hfil : st.vars = st0.vars.filter (fun p => decide (0 < p.2.length))) :
    InnerOk st.vars := by
  intro s hs
  have hs0 : s ∈ st0.vars := by
    rw [hfil] at hs
    exact List.mem_of_mem_filter hs
  have hsub : s.2.map Prod.fst ∈ st0.vars.map (fun q => q.2.map Prod.fst) :=
    List.mem_map.mpr ⟨s, hs0, rfl⟩
  constructor
  · intro hc
    apply hn
    unfold allGroupNames
    rw [List.mem_flatten]
    exact ⟨s.2.map Prod.fst, hsub, hc⟩
  · exact nodup_of_mem_flatten _ _ hsub hInv.2.1

/-- Declaration list of the counterexample: two one-variable groups in one
set, the second named `"n"`. -/
def c4decls : List Decl :=
  [Decl.dvGroupDecl "g1" 1 "c" [0] none none none (some "a"),
   Decl.dvGroupDecl "n" 1 "c" [0] none none none (some "a")]

/-- The finalized state the counterexample declarations produce. -/
def c4state : Option Optimization :=
  match runDecls (initOpt "p" true) c4decls with
  | .ok st => finalizeDesignVariables st
  | .error _ => none

/-- Does some stored range cover index `i`? -/
def coversIndex (rs : List (Nat × Nat)) (i : Nat) : Bool :=
  rs.any (fun r => decide (r.1 ≤ i) && decide (i < r.2))

/-- C4 counterexample: after declaring groups `g1` and `n` (one variable
each) in variable set `a` and finalizing, `ndvs = 2` but the only per-set
range stored in `dvOffset` is `[1, 2)` — the group named `n` overwrote the
set's own record at the reserved key `'n'` — so index 0 is covered by no
stored per-set range and the stored ranges do not partition `[0, ndvs)`. -/
theorem C4_counterexample :
    c4state.map (fun st => (st.ndvs, setRangesOf st.dvOffset,
      coversIndex (setRangesOf st.dvOffset) 0)) = some (2, [(1, 2)], false) := by
  decide

/-- C4 (amended): for any sequence of `addVarSet`/`addVar`/`addVarGroup`
declarations in which no variable group is named `"n"` (the reserved key
of the offset table), after a successful `finalizeDesignVariables` the
per-set ranges and the per-group ranges stored in `dvOffset` each form a
chain of contiguous, pairwise non-overlapping half-open intervals that
together cover exactly `[0, ndvs)`, with `ndvs` the total number of
declared variables. -/
theorem C4_theorem (name : String) (ds : List Decl) (st0 st : Optimization)
    (h0 : runDecls (initOpt name true) ds = .ok st0)
    (hn : "n" ∉ allGroupNames st0.vars)
    (h : finalizeDesignVariables st0 = some st) :
    st.ndvs = allVarsLen st0.vars ∧
    ConsecCover 0 (setRangesOf st.dvOffset) st.ndvs ∧
    ConsecCover 0 (groupRangesOf st.dvOffset) st.ndvs ∧
    (∀ i, i < st.ndvs → ∃ r ∈ setRangesOf st.dvOffset, r.1 ≤ i ∧ i < r.2) ∧
    (setRangesOf st.dvOffset).Pairwise (fun r s => r.2 ≤ s.1) ∧
    (∀ r ∈ setRangesOf st.dvOffset, r.2 ≤ st.ndvs) ∧
    (∀ i, i < st.ndvs → ∃ r ∈ groupRangesOf st.dvOffset, r.1 ≤ i ∧ i < r.2) ∧
    (groupRangesOf st.dvOffset).Pairwise (fun r s => r.2 ≤ s.1) ∧
    (∀ r ∈ groupRangesOf st.dvOffset, r.2 ≤ st.ndvs) := by
  have hInv := regInv_runDecls ds (initOpt name true) st0 h0 (regInv_init name true)
  obtain ⟨hfil, hoff, hndvs, _, _, _, _, _⟩ :=
    finalizeDesignVariables_eq st0 st hInv.2.2.2.2.1 hInv.1 h
  have hio : InnerOk st.vars := innerOk_of_regInv st0 st hInv hn hfil
  have hset := setRanges_cover st.vars hio 0
  have hgrp := groupRanges_cover st.vars hio 0
  rw [← hoff, Nat.zero_add, ← hndvs] at hset hgrp
  refine ⟨?_, hset, hgrp, ?_, hset.pairwise_disjoint, ?_, ?_,
    hgrp.pairwise_disjoint, ?_⟩
  · rw [hndvs, hfil, allVarsLen_filter]
  · intro i hi
    exact hset.covers i (Nat.zero_le i) hi
  · intro r hr
    exact (hset.mem_bounds r hr).2.2
  · intro i hi
    exact hgrp.covers i (Nat.zero_le i) hi
  · intro r hr
    exact (hgrp.mem_bounds r hr).2.2

/-- Declarations for the C4 witness: a two-variable group in set `a` and a
scalar variable `s1`. -/
def c4wdecls : List Decl :=
  [Decl.dvGroupDecl "g1" 2 "c" [0] none none none (some "a"),
   Decl.dvDecl "s1" "c" [1] none none none none]

/-- The state after running the witness declarations. -/
def c4wSt0 : Optimization :=
  (runDecls (initOpt "p" true) c4wdecls).toOption.getD (initOpt "x" true)

/-- The finalized witness state. -/
def c4wSt : Optimization :=
  (finalizeDesignVariables c4wSt0).getD (initOpt "x" true)

theorem C4_witness :
    c4wSt.ndvs = allVarsLen c4wSt0.vars ∧
    ConsecCover 0 (setRangesOf c4wSt.dvOffset) c4wSt.ndvs ∧
    ConsecCover 0 (groupRangesOf c4wSt.dvOffset) c4wSt.ndvs ∧
    (∀ i, i < c4wSt.ndvs → ∃ r ∈ setRangesOf c4wSt.dvOffset, r.1 ≤ i ∧ i < r.2) ∧
    (setRangesOf c4wSt.dvOffset).Pairwise (fun r s => r.2 ≤ s.1) ∧
    (∀ r ∈ setRangesOf c4wSt.dvOffset, r.2 ≤ c4wSt.ndvs) ∧
    (∀ i, i < c4wSt.ndvs → ∃ r ∈ groupRangesOf c4wSt.dvOffset, r.1 ≤ i ∧ i < r.2) ∧
    (groupRangesOf c4wSt.dvOffset).Pairwise (fun r s => r.2 ≤ s.1) ∧
    (∀ r ∈ groupRangesOf c4wSt.dvOffset, r.2 ≤ c4wSt.ndvs) :=
  C4_theorem "p" c4wdecls c4wSt0 c4wSt (by rfl) (by decide) (by rfl)

/-- C9: `finalizeDesignVariables` pops every variable set with no variable
groups, so afterwards every remaining set has at least one group, and the
offset table has entries for exactly the remaining sets (in order).  The
hypotheses state the representation facts of a pre-finalization object:
unique dictionary keys and an offset table not yet written to. -/
theorem C9_theorem (st st' : Optimization) (hoff : st.dvOffset = [])
    (hnd : (st.vars.map Prod.fst).Nodup)
    (h : finalizeDesignVariables st = some st') :
    st'.vars = st.vars.filter (fun p => decide (0 < p.2.length)) ∧
    (∀ s ∈ st'.vars, s.2 ≠ []) ∧
    st'.dvOffset.map Prod.fst = st'.vars.map Prod.fst := by
  obtain ⟨hfil, hoff', _, _, _, _, _, _⟩ :=
    finalizeDesignVariables_eq st st' hoff hnd h
  refine ⟨hfil, ?_, ?_⟩
  · intro s hs
    rw [hfil] at hs
    have := List.of_mem_filter hs
    simp only [decide_eq_true_eq] at this
    intro hc
    rw [hc] at this
    simp at this
  · rw [hoff', offTableFrom_keys]

theorem C9_witness :
    c4wSt.vars = c4wSt0.vars.filter (fun p => decide (0 < p.2.length)) ∧
    (∀ s ∈ c4wSt.vars, s.2 ≠ []) ∧
    c4wSt.dvOffset.map Prod.fst = c4wSt.vars.map Prod.fst :=
  C9_theorem c4wSt0 c4wSt (by decide) (by decide) (by rfl)

theorem getKey_setKey {α : Type} (l : List (String × α)) (k : String) (v : α) :
    getKey (setKey l k v) k = some v := by
  unfold setKey
  by_cases hk : hasKey l k
  · rw [if_pos hk]
    induction l with
    | nil => simp [hasKey] at hk
    | cons p rest ih =>
      rw [List.map_cons]
      by_cases hpk : p.1 == k
      · rw [if_pos hpk, getKey_cons, if_pos rfl]
      · rw [if_neg hpk, getKey_cons,
          if_neg (by simpa using hpk)]
        apply ih
        rw [hasKey_cons] at hk
        rcases Bool.or_eq_true_iff.mp hk with hc | hc
        · rw [hc] at hpk; cases hpk rfl
        · exact hc
  · rw [if_neg hk]
    have : getKey l k = none := by
      apply getKey_not_mem
      intro hc
      exact hk ((hasKey_iff _ _).mpr hc)
    rw [getKey_append, this]
    simp [getKey]

/-- C10: `addObj` performs no duplicate check — it is a total function on
the state, and a second call with the same name silently replaces the
stored `Objective` — while `addVarSet`, `addVarGroup` and `addConGroup`
raise a Duplicate-Name error for a name already registered in their
respective name sets. -/
theorem C10_theorem (st : Optimization) (name : String) (s1 s2 : ℚ)
    (nV : Nat) (t : String) (v : List ℚ) (lo hi sc : Option (List ℚ))
    (vso : Option String) (scalar : Bool) (nCon : Nat) (cl cu : Option (List ℚ))
    (cs : List ℚ) (lin : Bool) (w : Option (List String))
    (j : Option (List (String × BlockInput))) :
    getKey (addObj st name s1).objectives name = some ⟨name, s1⟩ ∧
    getKey (addObj (addObj st name s1) name s2).objectives name = some ⟨name, s2⟩ ∧
    (st.ableToAddVariables = true → name ∈ st.varSetNames →
      addVarSet st name = .error (.duplicateName "varSet" name)) ∧
    (st.ableToAddVariables = true → name ∈ st.varGroupNames →
      addVarGroup st name nV t v lo hi sc vso scalar =
        .error (.duplicateName "varGroup" name)) ∧
    (st.ableToAddVariables = false → name ∈ st.conGroupNames →
      addConGroup st name nCon cl cu cs lin w j =
        .error (.duplicateName "conGroup" name)) := by
  refine ⟨?_, ?_, ?_, ?_, ?_⟩
  · exact getKey_setKey _ _ _
  · exact getKey_setKey _ _ _
  · intro hok hdup
    unfold addVarSet checkOkToAddVariables
    rw [hok]
    simp only [if_true, Bind.bind, Except.bind]
    rw [if_pos hdup]
  · intro hok hdup
    unfold addVarGroup checkOkToAddVariables
    rw [hok]
    simp only [if_true, Bind.bind, Except.bind]
    rw [if_pos hdup]
  · intro hok hdup
    unfold addConGroup
    rw [hok]
    simp only [Bool.false_eq_true, if_false]
    rw [if_pos hdup]

/-- A state with a registered constraint group `c1`, used to witness the
duplicate-name branches. -/
def c10st : Optimization :=
  (addConGroup c4wSt "c1" 1 none none [1] false none none).toOption.getD
    (initOpt "x" true)

theorem C10_witness :
    getKey (addObj c10st "f" 1).objectives "f" = some ⟨"f", 1⟩ ∧
    getKey (addObj (addObj c10st "f" 1) "f" 2).objectives "f" = some ⟨"f", 2⟩ ∧
    addVarSet c4wSt0 "a" = .error (.duplicateName "varSet" "a") ∧
    addVarGroup c4wSt0 "g1" 1 "c" [0] none none none none false =
      .error (.duplicateName "varGroup" "g1") ∧
    addConGroup c10st "c1" 1 none none [1] false none none =
      .error (.duplicateName "conGroup" "c1") := by
  refine ⟨(C10_theorem c10st "f" 1 2 1 "c" [0] none none none none false
      1 none none [1] false none none).1,
    (C10_theorem c10st "f" 1 2 1 "c" [0] none none none none false
      1 none none [1] false none none).2.1,
    (C10_theorem c4wSt0 "a" 1 2 1 "c" [0] none none none none false
      1 none none [1] false none none).2.2.1 (by decide) (by decide),
    (C10_theorem c4wSt0 "g1" 1 2 1 "c" [0] none none none none false
      1 none none [1] false none none).2.2.2.1 (by decide) (by decide),
    (C10_theorem c10st "c1" 1 2 1 "c" [0] none none none none false
      1 none none [1] false none none).2.2.2.2 (by decide) (by decide)⟩

theorem processDenseJac_ok (st : Optimization) (shp : Nat × Nat)
    (conScale : List ℚ) (m : List (List ℚ)) (h1 : denseShape m = shp)
    (h2 : st.denseJacobianOK = true) (h3 : st.ndvs ≤ st.xscale.length)
    (h4 : conScale.length = m.length) :
    ∃ c, processDenseJac st shp conScale m = .ok c := by
  unfold processDenseJac
  rw [if_pos h1, if_pos h2, if_pos h3]
  unfold cooRowScale
  rw [if_pos ?hlen]
  · exact ⟨_, rfl⟩
  case hlen =>
    show (cooFromDense _).nrows = conScale.length
    unfold cooFromDense replaceZeros
    simp only [List.length_map]
    rw [h4]

/-- The state of the C1 scenario: variable sets `a` and `b` (one variable
each), one nonlinear constraint `c1` declared with the restricted
coverage `wrt = ["a"]`, then `finalizeConstraints`. -/
def c1st : Optimization :=
  ((do
    let s1 ← runDecls (initOpt "p" true)
      [Decl.dvGroupDecl "ga" 1 "c" [0] none none none (some "a"),
       Decl.dvGroupDecl "gb" 1 "c" [0] none none none (some "b")]
    let s2 ← match finalizeDesignVariables s1 with
      | some s => Except.ok s
      | none => Except.error Err.indexErr
    let s3 ← addConGroup s2 "c1" 1 none none [1] false (some ["a"]) none
    let p ← finalizeConstraints s3
    Except.ok p.1 : Except Err Optimization)).toOption.getD (initOpt "x" true)

/-- C1 exhibits the code bug: although constraint `c1` restricts its `wrt`
coverage to set `a` alone (so the spec — and the source's own comment,
"We ONLY allow a dense return if no 'wrt' flags were set" — require
`denseJacobianOK = False` and a Dense-Return-Forbidden error), the check
`if not set(con.wrt) <= allVarSets` tests the wrong inclusion and can
never fire: `denseJacobianOK` stays `True` and a full dense array of the
partition's shape is accepted and assembled. -/
theorem C1_theorem :
    c1st.denseJacobianOK = true ∧
    (getKey c1st.constraints "c1").map Constraint.wrt = some ["a"] ∧
    c1st.ndvs = 2 ∧ c1st.nnCon = 1 ∧
    ∃ c, processConstraintJacobian c1st (GconArg.arr [[2, 3]]) false = .ok c := by
  refine ⟨by decide, by decide, by decide, by decide, ?_⟩
  unfold processConstraintJacobian
  rw [if_neg (by decide)]
  have hshp : (if false = true then (c1st.nlCon, c1st.ndvs)
      else (c1st.nnCon, c1st.ndvs)) = (1, 2) := by decide
  rw [hshp]
  exact processDenseJac_ok c1st (1, 2) _ [[2, 3]] (by decide) (by decide)
    (by decide) (by decide)

theorem getKey_of_mem_nodup {α : Type} (l : List (String × α)) (k : String) (v : α)
    (h : (k, v) ∈ l) (hnd : (l.map Prod.fst).Nodup) : getKey l k = some v := by
  induction l with
  | nil => cases h
  | cons p rest ih =>
    simp only [List.map_cons, List.nodup_cons] at hnd
    cases h with
    | head => rw [getKey_cons, if_pos rfl]
    | tail _ h =>
      have hne : p.1 ≠ k := by
        intro he
        exact hnd.1 (he ▸ List.mem_map_of_mem Prod.fst h)
      rw [getKey_cons, if_neg hne]
      exact ih h hnd.2

/-- The value `processX` produces for one group whose offsets start at `c`:
a scalar group reads `x[c]`, a vector group the copied slice. -/
def specGroupVal (x : List ℚ) (c : Nat) (vs : List Var) : XVal :=
  if (vs.headD default).scalar then XVal.scl (x.getD c 0)
  else XVal.arr (sliceClamp x c (c + vs.length))

/-- Closed form of the dictionary `processX` builds over one set. -/
def specProcessGroups (x : List ℚ) : Nat → List (String × List Var) → List (String × XVal)
  | _, [] => []
  | c, (g, vs) :: rest =>
    (g, specGroupVal x c vs) :: specProcessGroups x (c + vs.length) rest

/-- Closed form of the dictionary `processX` builds over all sets. -/
def specProcessSets (x : List ℚ) :
    Nat → List (String × List (String × List Var)) → List (String × XVal)
  | _, [] => []
  | c, (_s, gs) :: rest =>
    specProcessGroups x c gs ++ specProcessSets x (c + varsLen gs) rest

theorem specProcessGroups_keys (x : List ℚ) (gs : List (String × List Var)) :
    ∀ c, (specProcessGroups x c gs).map Prod.fst = gs.map Prod.fst := by
  induction gs with
  | nil => intro c; rfl
  | cons p rest ih =>
    intro c
    obtain ⟨g, vs⟩ := p
    rw [specProcessGroups, List.map_cons, List.map_cons, ih]

theorem specProcessSets_keys (x : List ℚ)
    (vs : List (String × List (String × List Var))) :
    ∀ c, (specProcessSets x c vs).map Prod.fst = allGroupNames vs := by
  induction vs with
  | nil => intro c; rfl
  | cons p rest ih =>
    intro c
    obtain ⟨s, gs⟩ := p
    rw [specProcessSets, List.map_append, specProcessGroups_keys, ih]
    unfold allGroupNames
    rw [List.map_cons, List.flatten_cons]

/-- The flat payload one dictionary entry contributes. -/
def payloadsG (d : List (String × XVal)) (gs : List (String × List Var)) : List ℚ :=
  (gs.map (fun p => atleast1d ((getKey d p.1).getD (XVal.arr [])))).flatten

/-- The flat array `deProcessX` reconstructs: the per-group payloads in
registry order. -/
def payloads (d : List (String × XVal))
    (vs : List (String × List (String × List Var))) : List ℚ :=
  (vs.map (fun s => payloadsG d s.2)).flatten

/-- Shape discipline of the named dictionary: one entry per variable
group, a scalar for a scalar group, a length-`n` array for a vector group
of `n` variables. -/
def DictShaped (st : Optimization) (d : List (String × XVal)) : Prop :=
  ∀ s ∈ st.vars, ∀ p ∈ s.2,
    ((p.2.headD default).scalar = true → ∃ v, getKey d p.1 = some (XVal.scl v)) ∧
    ((p.2.headD default).scalar = false →
      ∃ l, getKey d p.1 = some (XVal.arr l) ∧ l.length = p.2.length)

/-- Hygiene package of a finalized variable registry. -/
def StructuredVars (st : Optimization) : Prop :=
  st.dvOffset = offTableFrom 0 st.vars ∧
  (st.vars.map Prod.fst).Nodup ∧
  (allGroupNames st.vars).Nodup ∧
  ("n" ∉ allGroupNames st.vars) ∧
  (∀ s ∈ st.vars, ∀ p ∈ s.2, p.2 ≠ []) ∧
  (∀ s ∈ st.vars, ∀ p ∈ s.2, (p.2.headD default).scalar = true → p.2.length = 1) ∧
  st.ndvs = allVarsLen st.vars

theorem sublist_flatten_of_sublist {α : Type} (l1 l2 : List (List α))
    (h : l1.Sublist l2) : l1.flatten.Sublist l2.flatten := by
  induction h with
  | slnil => exact List.Sublist.refl _
  | cons a h ih => exact ih.trans (List.sublist_append_right a _)
  | cons₂ a h ih =>
    rw [List.flatten_cons, List.flatten_cons]
    exact ih.append_left a

theorem allGroupNames_filter_sublist (vs : List (String × List (String × List Var))) :
    (allGroupNames (vs.filter (fun p => decide (0 < p.2.length)))).Sublist
      (allGroupNames vs) := by
  unfold allGroupNames
  exact sublist_flatten_of_sublist _ _
    ((List.filter_sublist vs).map (fun s => s.2.map Prod.fst))

theorem structuredVars_of_decls (name : String) (ds : List Decl)
    (st0 st : Optimization)
    (h0 : runDecls (initOpt name true) ds = .ok st0)
    (hn : "n" ∉ allGroupNames st0.vars)
    (h : finalizeDesignVariables st0 = some st) : StructuredVars st := by
  have hInv := regInv_runDecls ds (initOpt name true) st0 h0 (regInv_init name true)
  obtain ⟨h1, h2, h3, h4, h5, h6⟩ := hInv
  obtain ⟨hfil, hoff, hndvs, hne, _, _, _, _⟩ :=
    finalizeDesignVariables_eq st0 st h5 h1 h
  have hsub : (allGroupNames st.vars).Sublist (allGroupNames st0.vars) := by
    rw [hfil]; exact allGroupNames_filter_sublist st0.vars
  refine ⟨hoff, ?_, h2.sublist hsub, fun hc => hn (hsub.mem hc), hne, ?_, hndvs⟩
  · rw [hfil]
    exact h1.sublist ((List.filter_sublist _).map Prod.fst)
  · intro s hs p hp
    rw [hfil] at hs
    exact h6 s (List.mem_of_mem_filter hs) p hp

theorem get?_some_getD (x : List ℚ) (c : Nat) (h : c < x.length) :
    x.get? c = some (x.getD c 0) := by
  cases hx : x.get? c with
  | none =>
    rw [List.get?_eq_none] at hx
    omega
  | some v =>
    rw [List.getD_eq_getElem?_getD, ← List.get?_eq_getElem?, hx]
    rfl

theorem processXSet_spec (st : Optimization) (x : List ℚ) (dvSet : String)
    (inner : List (String × OffRec)) (hGet : getKey st.dvOffset dvSet = some inner) :
    ∀ (gs : List (String × List Var)) (c : Nat) (acc : List (String × XVal)),
    (∀ p ∈ groupOffsFrom c gs, getKey inner p.1 = some p.2) →
    (∀ p ∈ gs, p.2 ≠ []) →
    c + varsLen gs ≤ x.length →
    (gs.map Prod.fst).Nodup →
    (∀ g ∈ gs.map Prod.fst, g ∉ acc.map Prod.fst) →
    processXSet st x dvSet gs acc = some (acc ++ specProcessGroups x c gs) := by
  intro gs
  induction gs with
  | nil =>
    intro c acc _ _ _ _ _
    simp [processXSet, specProcessGroups]
  | cons p rest ih =>
    intro c acc hrec hne hlen hnd hfresh
    obtain ⟨g, vs⟩ := p
    have hr : getKey inner g = some ⟨c, c + vs.length, some (vs.headD default).scalar⟩ :=
      hrec _ (by rw [groupOffsFrom]; exact List.mem_cons_self _ _)
    have hvs : vs ≠ [] := hne (g, vs) (List.mem_cons_self _ _)
    have hlenvs : 1 ≤ vs.length := by
      cases vs with
      | nil => cases hvs rfl
      | cons a l => simp
    have hvl : varsLen ((g, vs) :: rest) = vs.length + varsLen rest := by
      simp [varsLen]
    have hgfresh : g ∉ acc.map Prod.fst := hfresh g (by simp)
    have hsk : ∀ xv : XVal, setKey acc g xv = acc ++ [(g, xv)] :=
      fun xv => setKey_fresh acc g xv hgfresh
    unfold processXSet
    simp only [hGet, hr, Option.bind_eq_bind, Option.some_bind]
    by_cases hscal : (vs.headD default).scalar
    · rw [if_pos hscal]
      have hc : c < x.length := by omega
      rw [get?_some_getD x c hc]
      simp only [Option.some_bind]
      rw [hsk]
      rw [ih (c + vs.length) (acc ++ [(g, XVal.scl (x.getD c 0))]) ?hrec2 ?hne2 ?hlen2 ?hnd2 ?hfresh2]
      · rw [specProcessGroups]
        unfold specGroupVal
        rw [if_pos hscal]
        simp
      case hrec2 =>
        intro q hq
        exact hrec q (by rw [groupOffsFrom]; exact List.mem_cons_of_mem _ hq)
      case hne2 => exact fun q hq => hne q (List.mem_cons_of_mem _ hq)
      case hlen2 => omega
      case hnd2 =>
        simp only [List.map_cons, List.nodup_cons] at hnd
        exact hnd.2
      case hfresh2 =>
        intro g2 hg2
        simp only [List.map_append, List.mem_append]
        push_neg
        constructor
        · apply hfresh
          simp [hg2]
        · simp only [List.map_cons, List.nodup_cons] at hnd
          simp only [List.map_cons, List.map_nil, List.mem_singleton]
          intro hc2
          exact hnd.1 (hc2 ▸ hg2)
    · rw [if_neg hscal]
      rw [hsk]
      rw [ih (c + vs.length) (acc ++ [(g, XVal.arr (sliceClamp x c (c + vs.length)))])
        ?hrec2 ?hne2 ?hlen2 ?hnd2 ?hfresh2]
      · rw [specProcessGroups]
        unfold specGroupVal
        rw [if_neg hscal]
        simp
      case hrec2 =>
        intro q hq
        exact hrec q (by rw [groupOffsFrom]; exact List.mem_cons_of_mem _ hq)
      case hne2 => exact fun q hq => hne q (List.mem_cons_of_mem _ hq)
      case hlen2 => omega
      case hnd2 =>
        simp only [List.map_cons, List.nodup_cons] at hnd
        exact hnd.2
      case hfresh2 =>
        intro g2 hg2
        simp only [List.map_append, List.mem_append]
        push_neg
        constructor
        · apply hfresh
          simp [hg2]
        · simp only [List.map_cons, List.nodup_cons] at hnd
          simp only [List.map_cons, List.map_nil, List.mem_singleton]
          intro hc2
          exact hnd.1 (hc2 ▸ hg2)

theorem processXGroups_spec (st : Optimization) (x : List ℚ) :
    ∀ (vs : List (String × List (String × List Var))) (c : Nat)
      (acc : List (String × XVal)),
    (∀ p ∈ offTableFrom c vs, getKey st.dvOffset p.1 = some p.2) →
    InnerOk vs →
    (∀ s ∈ vs, ∀ p ∈ s.2, p.2 ≠ []) →
    c + allVarsLen vs ≤ x.length →
    (allGroupNames vs).Nodup →
    (∀ g ∈ allGroupNames vs, g ∉ acc.map Prod.fst) →
    processXGroups st x vs acc = some (acc ++ specProcessSets x c vs) := by
  intro vs
  induction vs with
  | nil =>
    intro c acc _ _ _ _ _ _
    simp [processXGroups, specProcessSets]
  | cons p rest ih =>
    intro c acc htbl hio hne hlen hnd hfresh
    obtain ⟨s, gs⟩ := p
    obtain ⟨hnN, hndg⟩ := hio (s, gs) (by simp)
    have hnN2 : "n" ∉ (groupOffsFrom c gs).map Prod.fst := by
      rw [groupOffsFrom_keys]; exact hnN
    have hndg2 : ((groupOffsFrom c gs).map Prod.fst).Nodup := by
      rw [groupOffsFrom_keys]; exact hndg
    have hinner : getKey st.dvOffset s =
        some (finSetRecord c (groupOffsFrom c gs) (c + varsLen gs)) :=
      htbl _ (by rw [offTableFrom]; exact List.mem_cons_self _ _)
    have hgnames : allGroupNames ((s, gs) :: rest) =
        gs.map Prod.fst ++ allGroupNames rest := by
      unfold allGroupNames
      rw [List.map_cons, List.flatten_cons]
    have hal : allVarsLen ((s, gs) :: rest) = varsLen gs + allVarsLen rest := by
      simp [allVarsLen]
    unfold processXGroups
    rw [processXSet_spec st x s
        (finSetRecord c (groupOffsFrom c gs) (c + varsLen gs)) hinner gs c acc
        ?hrec ?hneg ?hleng ?hndgg ?hfreshg]
    · simp only [Option.bind_eq_bind, Option.some_bind]
      rw [ih (c + varsLen gs) (acc ++ specProcessGroups x c gs)
        ?htbl2 ?hio2 ?hne2 ?hlen2 ?hnd2 ?hfresh2]
      · rw [specProcessSets, List.append_assoc]
      case htbl2 =>
        intro q hq
        exact htbl q (by rw [offTableFrom]; exact List.mem_cons_of_mem _ hq)
      case hio2 => exact fun q hq => hio q (by simp [hq])
      case hne2 => exact fun q hq => hne q (by simp [hq])
      case hlen2 => omega
      case hnd2 =>
        rw [hgnames] at hnd
        exact (List.nodup_append.mp hnd).2.1
      case hfresh2 =>
        intro g hg
        simp only [List.map_append, List.mem_append]
        push_neg
        constructor
        · exact hfresh g (by rw [hgnames]; exact List.mem_append_right _ hg)
        · rw [specProcessGroups_keys]
          rw [hgnames] at hnd
          intro hc2
          exact (List.nodup_append.mp hnd).2.2 hc2 hg
    case hrec =>
      intro q hq
      rw [finSetRecord_no_n c (c + varsLen gs) (groupOffsFrom c gs) hnN2 hndg2]
      rw [getKey_cons, if_neg ?hq1]
      · exact getKey_of_mem_nodup _ _ _ hq hndg2
      case hq1 =>
        intro he
        apply hnN2
        rw [show "n" = q.1 from he]
        exact List.mem_map_of_mem Prod.fst hq
    case hneg => exact fun q hq => hne (s, gs) (by simp) q hq
    case hleng => omega
    case hndgg => exact hndg
    case hfreshg =>
      intro g hg
      exact hfresh g (by rw [hgnames]; exact List.mem_append_left _ hg)

/-- With a structured registry and `useGroups`, `processX` expands a flat
array of length `ndvs` to exactly the closed-form dictionary. -/
theorem processX_spec (st : Optimization) (x : List ℚ)
    (hst : StructuredVars st) (hug : st.useGroups = true)
    (hx : x.length = st.ndvs) :
    processX st (XForm.flat x) = some (XForm.named (specProcessSets x 0 st.vars)) := by
  obtain ⟨hoff, hnd1, hnd2, hnN, hne, _, hndvs⟩ := hst
  simp only [processX, hug, reduceIte]
  rw [processXGroups_spec st x st.vars 0 [] ?htbl ?hio ?hne2 ?hlen ?hnd3 ?hfresh]
  · simp
  case htbl =>
    intro q hq
    rw [hoff]
    apply getKey_of_mem_nodup _ _ _ hq
    rw [offTableFrom_keys]
    exact hnd1
  case hio =>
    intro q hq
    constructor
    · intro hc
      apply hnN
      unfold allGroupNames
      rw [List.mem_flatten]
      exact ⟨q.2.map Prod.fst, List.mem_map.mpr ⟨q, hq, rfl⟩, hc⟩
    · exact nodup_of_mem_flatten _ _ (List.mem_map.mpr ⟨q, hq, rfl⟩) hnd2
  case hne2 => exact hne
  case hlen => rw [hx, hndvs, Nat.zero_add]
  case hnd3 => exact hnd2
  case hfresh => simp

/-- Shape discipline restricted to one group list. -/
def GroupsShaped (d : List (String × XVal)) (gs : List (String × List Var)) : Prop :=
  ∀ p ∈ gs,
    ((p.2.headD default).scalar = true → ∃ v, getKey d p.1 = some (XVal.scl v)) ∧
    ((p.2.headD default).scalar = false →
      ∃ l, getKey d p.1 = some (XVal.arr l) ∧ l.length = p.2.length)

theorem payloadsG_cons (d : List (String × XVal)) (g : String) (vs : List Var)
    (rest : List (String × List Var)) :
    payloadsG d ((g, vs) :: rest) =
      atleast1d ((getKey d g).getD (XVal.arr [])) ++ payloadsG d rest := by
  unfold payloadsG
  rw [List.map_cons, List.flatten_cons]

theorem payloadsG_length (d : List (String × XVal)) (gs : List (String × List Var))
    (hsh : GroupsShaped d gs)
    (hsc : ∀ p ∈ gs, (p.2.headD default).scalar = true → p.2.length = 1) :
    (payloadsG d gs).length = varsLen gs := by
  induction gs with
  | nil => rfl
  | cons p rest ih =>
    obtain ⟨g, vs⟩ := p
    rw [payloadsG_cons, List.length_append]
    have hvl : varsLen ((g, vs) :: rest) = vs.length + varsLen rest := by simp [varsLen]
    rw [hvl, ih (fun q hq => hsh q (List.mem_cons_of_mem _ hq))
      (fun q hq => hsc q (List.mem_cons_of_mem _ hq))]
    have hpl : (atleast1d ((getKey d g).getD (XVal.arr []))).length = vs.length := by
      by_cases hfl : (vs.headD default).scalar
      · obtain ⟨v, hv⟩ := (hsh (g, vs) (List.mem_cons_self _ _)).1 hfl
        rw [hv]
        have h1 := hsc (g, vs) (List.mem_cons_self _ _) hfl
        simp only at h1
        rw [h1]
        rfl
      · obtain ⟨l, hl, hlen⟩ := (hsh (g, vs) (List.mem_cons_self _ _)).2
          (Bool.not_eq_true _ ▸ hfl)
        rw [hl]
        exact hlen
    rw [hpl]

theorem deProcessXSet_spec (st : Optimization) (d : List (String × XVal))
    (dvSet : String) (inner : List (String × OffRec))
    (hGet : getKey st.dvOffset dvSet = some inner) (N : Nat) :
    ∀ (gs : List (String × List Var)) (c : Nat) (done : List ℚ),
    (∀ p ∈ groupOffsFrom c gs, getKey inner p.1 = some p.2) →
    (∀ p ∈ gs, p.2 ≠ []) →
    (∀ p ∈ gs, (p.2.headD default).scalar = true → p.2.length = 1) →
    GroupsShaped d gs →
    done.length = c →
    c + varsLen gs ≤ N →
    deProcessXSet st d dvSet gs (done ++ List.replicate (N - c) 0) =
      some ((done ++ payloadsG d gs) ++ List.replicate (N - (c + varsLen gs)) 0) := by
  intro gs
  induction gs with
  | nil =>
    intro c done _ _ _ _ _ _
    simp only [deProcessXSet, payloadsG, List.map_nil, List.flatten_nil,
      List.append_nil]
    have : varsLen ([] : List (String × List Var)) = 0 := rfl
    rw [this, Nat.add_zero]
  | cons p rest ih =>
    intro c done hrec hne hsc hsh hdone hlen
    obtain ⟨g, vs⟩ := p
    have hr : getKey inner g = some ⟨c, c + vs.length, some (vs.headD default).scalar⟩ :=
      hrec _ (by rw [groupOffsFrom]; exact List.mem_cons_self _ _)
    have hvs : vs ≠ [] := hne (g, vs) (List.mem_cons_self _ _)
    have hlenvs : 1 ≤ vs.length := by
      cases vs with
      | nil => cases hvs rfl
      | cons a l => simp
    have hvl : varsLen ((g, vs) :: rest) = vs.length + varsLen rest := by simp [varsLen]
    have hacclen : (done ++ List.replicate (N - c) (0 : ℚ)).length = N := by
      rw [List.length_append, List.length_replicate, hdone]
      omega
    unfold deProcessXSet
    simp only [hGet, hr, Option.bind_eq_bind, Option.some_bind]
    by_cases hfl : (vs.headD default).scalar
    · obtain ⟨v, hv⟩ := (hsh (g, vs) (List.mem_cons_self _ _)).1 hfl
      have h1 : vs.length = 1 := hsc (g, vs) (List.mem_cons_self _ _) hfl
      simp only [hfl, hv, Option.some_bind, reduceIte]
      rw [if_pos (by rw [hacclen]; omega)]
      have hls : listSet (done ++ List.replicate (N - c) 0) c [v] =
          (done ++ [v]) ++ List.replicate (N - (c + 1)) 0 := by
        have hx := listSet_append_replicate done [v] N
        rw [hdone] at hx
        simpa using hx
      rw [hls]
      have hstep := ih (c + 1) (done ++ [v])
        ?hrec2 ?hne2 ?hsc2 ?hsh2 ?hdone2 ?hlen2
      · have hal : atleast1d ((some (XVal.scl v)).getD (XVal.arr [])) = [v] := rfl
        have harith : N - (c + 1 + varsLen rest) =
            N - (c + varsLen ((g, vs) :: rest)) := by omega
        rw [hstep, payloadsG_cons, hv, hal, harith]
        simp [List.append_assoc]
      case hrec2 =>
        intro q hq
        apply hrec
        rw [groupOffsFrom, h1]
        exact List.mem_cons_of_mem _ hq
      case hne2 => exact fun q hq => hne q (List.mem_cons_of_mem _ hq)
      case hsc2 => exact fun q hq => hsc q (List.mem_cons_of_mem _ hq)
      case hsh2 => exact fun q hq => hsh q (List.mem_cons_of_mem _ hq)
      case hdone2 => rw [List.length_append, hdone]; rfl
      case hlen2 => omega
    · obtain ⟨l, hl, hlen2⟩ := (hsh (g, vs) (List.mem_cons_self _ _)).2
        (Bool.not_eq_true _ ▸ hfl)
      replace hlen2 : l.length = vs.length := hlen2
      simp only [hfl, hl, Option.some_bind, reduceIte]
      have hcond : l.length =
          min (c + vs.length) (done ++ List.replicate (N - c) (0 : ℚ)).length
            - min c (done ++ List.replicate (N - c) (0 : ℚ)).length := by
        rw [hacclen]; omega
      rw [if_pos hcond]
      have hlo : min c (done ++ List.replicate (N - c) (0 : ℚ)).length = c := by
        rw [hacclen]; omega
      rw [hlo]
      have hls : listSet (done ++ List.replicate (N - c) 0) c l =
          (done ++ l) ++ List.replicate (N - (c + vs.length)) 0 := by
        have hx := listSet_append_replicate done l N
        rw [hdone, hlen2] at hx
        simpa using hx
      rw [hls]
      have hstep := ih (c + vs.length) (done ++ l)
        ?hrec2 ?hne2 ?hsc2 ?hsh2 ?hdone2 ?hlen2b
      · have hal : atleast1d ((some (XVal.arr l)).getD (XVal.arr [])) = l := rfl
        have harith : N - (c + vs.length + varsLen rest) =
            N - (c + varsLen ((g, vs) :: rest)) := by omega
        rw [hstep, payloadsG_cons, hl, hal, harith]
        simp [List.append_assoc]
      case hrec2 =>
        intro q hq
        apply hrec
        rw [groupOffsFrom]
        exact List.mem_cons_of_mem _ hq
      case hne2 => exact fun q hq => hne q (List.mem_cons_of_mem _ hq)
      case hsc2 => exact fun q hq => hsc q (List.mem_cons_of_mem _ hq)
      case hsh2 => exact fun q hq => hsh q (List.mem_cons_of_mem _ hq)
      case hdone2 => rw [List.length_append, hdone, hlen2]
      case hlen2b => omega

theorem payloads_cons (d : List (String × XVal)) (s : String)
    (gs : List (String × List Var))
    (rest : List (String × List (String × List Var))) :
    payloads d ((s, gs) :: rest) = payloadsG d gs ++ payloads d rest := by
  unfold payloads
  rw [List.map_cons, List.flatten_cons]

theorem deProcessXGroups_spec (st : Optimization) (d : List (String × XVal))
    (N : Nat) :
    ∀ (vs : List (String × List (String × List Var))) (c : Nat) (done : List ℚ),
    (∀ p ∈ offTableFrom c vs, getKey st.dvOffset p.1 = some p.2) →
    InnerOk vs →
    (∀ s ∈ vs, ∀ p ∈ s.2, p.2 ≠ []) →
    (∀ s ∈ vs, ∀ p ∈ s.2, (p.2.headD default).scalar = true → p.2.length = 1) →
    (∀ s ∈ vs, GroupsShaped d s.2) →
    done.length = c →
    c + allVarsLen vs ≤ N →
    deProcessXGroups st d vs (done ++ List.replicate (N - c) 0) =
      some ((done ++ payloads d vs) ++ List.replicate (N - (c + allVarsLen vs)) 0) := by
  intro vs
  induction vs with
  | nil =>
    intro c done _ _ _ _ _ hdone _
    simp only [deProcessXGroups, payloads, List.map_nil, List.flatten_nil,
      List.append_nil]
    have : allVarsLen ([] : List (String × List (String × List Var))) = 0 := rfl
    rw [this, Nat.add_zero]
  | cons p rest ih =>
    intro c done htbl hio hne hsc hsh hdone hlen
    obtain ⟨s, gs⟩ := p
    obtain ⟨hnN, hndg⟩ := hio (s, gs) (by simp)
    have hnN2 : "n" ∉ (groupOffsFrom c gs).map Prod.fst := by
      rw [groupOffsFrom_keys]; exact hnN
    have hndg2 : ((groupOffsFrom c gs).map Prod.fst).Nodup := by
      rw [groupOffsFrom_keys]; exact hndg
    have hinner : getKey st.dvOffset s =
        some (finSetRecord c (groupOffsFrom c gs) (c + varsLen gs)) :=
      htbl _ (by rw [offTableFrom]; exact List.mem_cons_self _ _)
    have hal : allVarsLen ((s, gs) :: rest) = varsLen gs + allVarsLen rest := by
      simp [allVarsLen]
    have hshg : GroupsShaped d gs := hsh (s, gs) (by simp)
    have hscg : ∀ p ∈ gs, (p.2.headD default).scalar = true → p.2.length = 1 :=
      fun q hq => hsc (s, gs) (by simp) q hq
    unfold deProcessXGroups
    rw [deProcessXSet_spec st d s
        (finSetRecord c (groupOffsFrom c gs) (c + varsLen gs)) hinner N gs c done
        ?hrec ?hneg hscg hshg hdone ?hleng]
    · simp only [Option.bind_eq_bind, Option.some_bind]
      rw [ih (c + varsLen gs) (done ++ payloadsG d gs)
        ?htbl2 ?hio2 ?hne2 ?hsc2 ?hsh2 ?hdone2 ?hlen2]
      · rw [payloads_cons]
        have harith : N - (c + varsLen gs + allVarsLen rest) =
            N - (c + allVarsLen ((s, gs) :: rest)) := by
          rw [hal]; omega
        rw [harith]
        simp [List.append_assoc]
      case htbl2 =>
        intro q hq
        exact htbl q (by rw [offTableFrom]; exact List.mem_cons_of_mem _ hq)
      case hio2 => exact fun q hq => hio q (by simp [hq])
      case hne2 => exact fun q hq => hne q (by simp [hq])
      case hsc2 => exact fun q hq => hsc q (by simp [hq])
      case hsh2 => exact fun q hq => hsh q (by simp [hq])
      case hdone2 =>
        rw [List.length_append, hdone, payloadsG_length d gs hshg hscg]
      case hlen2 => rw [hal] at hlen; omega
    case hrec =>
      intro q hq
      rw [finSetRecord_no_n c (c + varsLen gs) (groupOffsFrom c gs) hnN2 hndg2]
      rw [getKey_cons, if_neg ?hq1]
      · exact getKey_of_mem_nodup _ _ _ hq hndg2
      case hq1 =>
        intro he
        apply hnN2
        rw [show "n" = q.1 from he]
        exact List.mem_map_of_mem Prod.fst hq
    case hneg => exact fun q hq => hne (s, gs) (by simp) q hq
    case hleng => rw [hal] at hlen; omega

/-- With a structured registry and `useGroups`, `deProcessX` collapses a
shaped dictionary to exactly the concatenated per-group payloads. -/
theorem deProcessX_spec (st : Optimization) (d : List (String × XVal))
    (hst : StructuredVars st) (hug : st.useGroups = true)
    (hsh : ∀ s ∈ st.vars, GroupsShaped d s.2) :
    deProcessX st (XForm.named d) = some (XForm.flat (payloads d st.vars)) := by
  obtain ⟨hoff, hnd1, hnd2, hnN, hne, hsc1, hndvs⟩ := hst
  simp only [deProcessX, hug, reduceIte]
  have hrepl : List.replicate st.ndvs (0 : ℚ) =
      [] ++ List.replicate (st.ndvs - 0) 0 := by simp
  rw [hrepl, deProcessXGroups_spec st d st.ndvs st.vars 0 []
    ?htbl ?hio hne ?hsc ?hsh2 rfl ?hlen]
  · rw [hndvs]
    simp
  case htbl =>
    intro q hq
    rw [hoff]
    apply getKey_of_mem_nodup _ _ _ hq
    rw [offTableFrom_keys]
    exact hnd1
  case hio =>
    intro q hq
    constructor
    · intro hc
      apply hnN
      unfold allGroupNames
      rw [List.mem_flatten]
      exact ⟨q.2.map Prod.fst, List.mem_map.mpr ⟨q, hq, rfl⟩, hc⟩
    · exact nodup_of_mem_flatten _ _ (List.mem_map.mpr ⟨q, hq, rfl⟩) hnd2
  case hsc => exact hsc1
  case hsh2 => exact hsh
  case hlen => rw [hndvs, Nat.zero_add]

theorem sliceClamp_append (x : List ℚ) (c m e : Nat) (h1 : c ≤ m) (h2 : m ≤ e) :
    sliceClamp x c m ++ sliceClamp x m e = sliceClamp x c e := by
  unfold sliceClamp
  have he : e - c = (m - c) + (e - m) := by omega
  have hm : c + (m - c) = m := by omega
  rw [he, List.take_add, List.drop_drop, hm]

theorem sliceClamp_singleton :
    ∀ (x : List ℚ) (c : Nat), c < x.length → sliceClamp x c (c + 1) = [x.getD c 0] := by
  intro x
  induction x with
  | nil => intro c h; simp at h
  | cons a t ih =>
    intro c h
    cases c with
    | zero => rfl
    | succ c =>
      have h2 : c < t.length := by simpa using h
      have := ih c h2
      unfold sliceClamp at this ⊢
      simpa using this

theorem sliceClamp_full (x : List ℚ) : sliceClamp x 0 x.length = x := by
  unfold sliceClamp
  simp

theorem getD_append_cons (done : List ℚ) (v : ℚ) (t : List ℚ) :
    (done ++ v :: t).getD done.length 0 = v := by
  induction done with
  | nil => rfl
  | cons a r ih => simpa using ih

theorem sliceClamp_extract (done l t : List ℚ) :
    sliceClamp (done ++ (l ++ t)) done.length (done.length + l.length) = l := by
  unfold sliceClamp
  rw [Nat.add_sub_cancel_left, List.drop_left, List.take_left]

/-- Alignment of a dictionary with the registry's running offsets: the
entry stored for each group is exactly the value `processX` computes at
that group's offset. -/
def AlignedLookup (x : List ℚ) (d : List (String × XVal)) :
    Nat → List (String × List Var) → Prop
  | _, [] => True
  | c, (g, vs) :: rest =>
    getKey d g = some (specGroupVal x c vs) ∧ AlignedLookup x d (c + vs.length) rest

/-- `AlignedLookup` over the whole registry, set by set. -/
def AlignedLookupSets (x : List ℚ) (d : List (String × XVal)) :
    Nat → List (String × List (String × List Var)) → Prop
  | _, [] => True
  | c, (_s, gs) :: rest =>
    AlignedLookup x d c gs ∧ AlignedLookupSets x d (c + varsLen gs) rest

theorem payloadsG_aligned (x : List ℚ) (d : List (String × XVal)) :
    ∀ (gs : List (String × List Var)) (c : Nat),
    AlignedLookup x d c gs →
    (∀ p ∈ gs, (p.2.headD default).scalar = true → p.2.length = 1) →
    c + varsLen gs ≤ x.length →
    payloadsG d gs = sliceClamp x c (c + varsLen gs) := by
  intro gs
  induction gs with
  | nil =>
    intro c _ _ _
    unfold payloadsG sliceClamp
    simp [varsLen]
  | cons p rest ih =>
    intro c hal hsc hlen
    obtain ⟨g, vs⟩ := p
    obtain ⟨hlook, hal2⟩ := hal
    have hvl : varsLen ((g, vs) :: rest) = vs.length + varsLen rest := by simp [varsLen]
    rw [hvl] at hlen ⊢
    rw [payloadsG_cons, hlook]
    have hhead : atleast1d ((some (specGroupVal x c vs)).getD (XVal.arr [])) =
        sliceClamp x c (c + vs.length) := by
      unfold specGroupVal
      by_cases hfl : (vs.headD default).scalar
      · rw [if_pos hfl]
        have h1 : vs.length = 1 := hsc (g, vs) (List.mem_cons_self _ _) hfl
        rw [h1, sliceClamp_singleton x c (by omega)]
        rfl
      · rw [if_neg hfl]
        rfl
    rw [hhead, ih (c + vs.length) hal2
      (fun q hq => hsc q (List.mem_cons_of_mem _ hq)) (by omega)]
    rw [show c + (vs.length + varsLen rest) = c + vs.length + varsLen rest from by omega]
    exact sliceClamp_append x c (c + vs.length) (c + vs.length + varsLen rest)
      (by omega) (by omega)

theorem payloads_aligned (x : List ℚ) (d : List (String × XVal)) :
    ∀ (vs : List (String × List (String × List Var))) (c : Nat),
    AlignedLookupSets x d c vs →
    (∀ s ∈ vs, ∀ p ∈ s.2, (p.2.headD default).scalar = true → p.2.length = 1) →
    c + allVarsLen vs ≤ x.length →
    payloads d vs = sliceClamp x c (c + allVarsLen vs) := by
  intro vs
  induction vs with
  | nil =>
    intro c _ _ _
    unfold payloads sliceClamp
    simp [allVarsLen]
  | cons p rest ih =>
    intro c hal hsc hlen
    obtain ⟨s, gs⟩ := p
    obtain ⟨hag, hal2⟩ := hal
    have hav : allVarsLen ((s, gs) :: rest) = varsLen gs + allVarsLen rest := by
      simp [allVarsLen]
    rw [hav] at hlen ⊢
    rw [payloads_cons]
    rw [payloadsG_aligned x d gs c hag
      (fun q hq => hsc (s, gs) (List.mem_cons_self _ _) q hq) (by omega)]
    rw [ih (c + varsLen gs) hal2
      (fun q hq => hsc q (List.mem_cons_of_mem _ hq)) (by omega)]
    rw [show c + (varsLen gs + allVarsLen rest) = c + varsLen gs + allVarsLen rest
      from by omega]
    exact sliceClamp_append x c (c + varsLen gs) (c + varsLen gs + allVarsLen rest)
      (by omega) (by omega)

theorem alignedLookup_of_append (x : List ℚ) :
    ∀ (gs : List (String × List Var)) (c : Nat) (d1 d2 : List (String × XVal)),
    (((d1 ++ specProcessGroups x c gs ++ d2).map Prod.fst)).Nodup →
    AlignedLookup x (d1 ++ specProcessGroups x c gs ++ d2) c gs := by
  intro gs
  induction gs with
  | nil => intro c d1 d2 _; trivial
  | cons p rest ih =>
    intro c d1 d2 hnd
    obtain ⟨g, vs⟩ := p
    have hseg : specProcessGroups x c ((g, vs) :: rest) =
        (g, specGroupVal x c vs) :: specProcessGroups x (c + vs.length) rest := rfl
    constructor
    · apply getKey_of_mem_nodup _ _ _ _ hnd
      rw [hseg]
      exact List.mem_append_left _ (List.mem_append_right _ (List.mem_cons_self _ _))
    · have hre : d1 ++ specProcessGroups x c ((g, vs) :: rest) ++ d2 =
          (d1 ++ [(g, specGroupVal x c vs)]) ++
            specProcessGroups x (c + vs.length) rest ++ d2 := by
        rw [hseg]; simp
      rw [hre] at hnd ⊢
      exact ih (c + vs.length) (d1 ++ [(g, specGroupVal x c vs)]) d2 hnd

theorem alignedLookupSets_of_append (x : List ℚ) :
    ∀ (vs : List (String × List (String × List Var))) (c : Nat)
      (d1 d2 : List (String × XVal)),
    (((d1 ++ specProcessSets x c vs ++ d2).map Prod.fst)).Nodup →
    AlignedLookupSets x (d1 ++ specProcessSets x c vs ++ d2) c vs := by
  intro vs
  induction vs with
  | nil => intro c d1 d2 _; trivial
  | cons p rest ih =>
    intro c d1 d2 hnd
    obtain ⟨s, gs⟩ := p
    have hseg : specProcessSets x c ((s, gs) :: rest) =
        specProcessGroups x c gs ++ specProcessSets x (c + varsLen gs) rest := rfl
    constructor
    · have hre : d1 ++ specProcessSets x c ((s, gs) :: rest) ++ d2 =
          d1 ++ specProcessGroups x c gs ++
            (specProcessSets x (c + varsLen gs) rest ++ d2) := by
        rw [hseg]; simp
      rw [hre] at hnd ⊢
      exact alignedLookup_of_append x gs c d1 _ hnd
    · have hre : d1 ++ specProcessSets x c ((s, gs) :: rest) ++ d2 =
          (d1 ++ specProcessGroups x c gs) ++
            specProcessSets x (c + varsLen gs) rest ++ d2 := by
        rw [hseg]; simp
      rw [hre] at hnd ⊢
      exact ih (c + varsLen gs) (d1 ++ specProcessGroups x c gs) d2 hnd

theorem groupsShaped_of_aligned (x : List ℚ) (d : List (String × XVal)) :
    ∀ (gs : List (String × List Var)) (c : Nat),
    AlignedLookup x d c gs →
    (∀ p ∈ gs, (p.2.headD default).scalar = true → p.2.length = 1) →
    c + varsLen gs ≤ x.length →
    GroupsShaped d gs := by
  intro gs
  induction gs with
  | nil => intro c _ _ _ q hq; cases hq
  | cons p rest ih =>
    intro c hal hsc hlen
    obtain ⟨g, vs⟩ := p
    obtain ⟨hlook, hal2⟩ := hal
    have hvl : varsLen ((g, vs) :: rest) = vs.length + varsLen rest := by simp [varsLen]
    rw [hvl] at hlen
    intro q hq
    cases hq with
    | head =>
      constructor
      · intro hfl
        refine ⟨x.getD c 0, ?_⟩
        rw [hlook]
        unfold specGroupVal
        rw [if_pos hfl]
      · intro hfl
        have hfl2 : (vs.headD default).scalar = false := hfl
        refine ⟨sliceClamp x c (c + vs.length), ?_, ?_⟩
        · rw [hlook]
          unfold specGroupVal
          rw [if_neg (by rw [hfl2]; simp)]
        · exact sliceClamp_length x c vs.length (by omega)
    | tail _ hq =>
      exact ih (c + vs.length) hal2
        (fun r hr => hsc r (List.mem_cons_of_mem _ hr)) (by omega) q hq

theorem shapedSets_of_aligned (x : List ℚ) (d : List (String × XVal)) :
    ∀ (vs : List (String × List (String × List Var))) (c : Nat),
    AlignedLookupSets x d c vs →
    (∀ s ∈ vs, ∀ p ∈ s.2, (p.2.headD default).scalar = true → p.2.length = 1) →
    c + allVarsLen vs ≤ x.length →
    ∀ s ∈ vs, GroupsShaped d s.2 := by
  intro vs
  induction vs with
  | nil => intro c _ _ _ s hs; cases hs
  | cons p rest ih =>
    intro c hal hsc hlen s hs
    obtain ⟨t, gs⟩ := p
    obtain ⟨hag, hal2⟩ := hal
    have hav : allVarsLen ((t, gs) :: rest) = varsLen gs + allVarsLen rest := by
      simp [allVarsLen]
    rw [hav] at hlen
    cases hs with
    | head =>
      exact groupsShaped_of_aligned x d gs c hag
        (fun q hq => hsc (t, gs) (List.mem_cons_self _ _) q hq) (by omega)
    | tail _ hs =>
      exact ih (c + varsLen gs) hal2
        (fun q hq => hsc q (List.mem_cons_of_mem _ hq)) (by omega) s hs

/-- Expanding a flat array and collapsing the result restores the array. -/
theorem roundTrip_flat (st : Optimization) (x : List ℚ)
    (hst : StructuredVars st) (hug : st.useGroups = true)
    (hx : x.length = st.ndvs) :
    (processX st (XForm.flat x)).bind (deProcessX st) = some (XForm.flat x) := by
  obtain ⟨hoff, hnd1, hnd2, hnN, hne, hsc1, hndvs⟩ := hst
  rw [processX_spec st x ⟨hoff, hnd1, hnd2, hnN, hne, hsc1, hndvs⟩ hug hx,
    Option.some_bind]
  have hxlen : allVarsLen st.vars ≤ x.length := by rw [hx, hndvs]
  have hndK : ((specProcessSets x 0 st.vars).map Prod.fst).Nodup := by
    rw [specProcessSets_keys]; exact hnd2
  have hal : AlignedLookupSets x (specProcessSets x 0 st.vars) 0 st.vars := by
    have h := alignedLookupSets_of_append x st.vars 0 [] [] (by simpa using hndK)
    simpa using h
  have hsh : ∀ s ∈ st.vars, GroupsShaped (specProcessSets x 0 st.vars) s.2 :=
    shapedSets_of_aligned x _ st.vars 0 hal hsc1 (by omega)
  rw [deProcessX_spec st _ ⟨hoff, hnd1, hnd2, hnN, hne, hsc1, hndvs⟩ hug hsh]
  rw [payloads_aligned x _ st.vars 0 hal hsc1 (by omega)]
  rw [Nat.zero_add, show allVarsLen st.vars = x.length from by omega, sliceClamp_full]

theorem payloads_length (d : List (String × XVal))
    (vs : List (String × List (String × List Var)))
    (hsh : ∀ s ∈ vs, GroupsShaped d s.2)
    (hsc : ∀ s ∈ vs, ∀ p ∈ s.2, (p.2.headD default).scalar = true → p.2.length = 1) :
    (payloads d vs).length = allVarsLen vs := by
  induction vs with
  | nil => rfl
  | cons p rest ih =>
    obtain ⟨s, gs⟩ := p
    rw [payloads_cons, List.length_append,
      payloadsG_length d gs (hsh (s, gs) (List.mem_cons_self _ _))
        (fun q hq => hsc (s, gs) (List.mem_cons_self _ _) q hq),
      ih (fun q hq => hsh q (List.mem_cons_of_mem _ hq))
        (fun q hq => hsc q (List.mem_cons_of_mem _ hq))]
    simp [allVarsLen]

theorem specProcessGroups_payloads (d : List (String × XVal)) :
    ∀ (gs : List (String × List Var)) (done tail : List ℚ),
    GroupsShaped d gs →
    (∀ p ∈ gs, (p.2.headD default).scalar = true → p.2.length = 1) →
    specProcessGroups (done ++ (payloadsG d gs ++ tail)) done.length gs =
      gs.map (fun p => (p.1, (getKey d p.1).getD (XVal.arr []))) := by
  intro gs
  induction gs with
  | nil => intro done tail _ _; rfl
  | cons p rest ih =>
    intro done tail hsh hsc
    obtain ⟨g, vs⟩ := p
    have hshg := hsh (g, vs) (List.mem_cons_self _ _)
    have hsh2 : GroupsShaped d rest := fun q hq => hsh q (List.mem_cons_of_mem _ hq)
    have hsc2 : ∀ p ∈ rest, (p.2.headD default).scalar = true → p.2.length = 1 :=
      fun q hq => hsc q (List.mem_cons_of_mem _ hq)
    rw [payloadsG_cons, List.map_cons, specProcessGroups]
    by_cases hfl : (vs.headD default).scalar
    · obtain ⟨v, hv⟩ := hshg.1 hfl
      have h1 : vs.length = 1 := hsc (g, vs) (List.mem_cons_self _ _) hfl
      have hval : atleast1d ((getKey d g).getD (XVal.arr [])) = [v] := by
        rw [hv]; rfl
      rw [hval]
      congr 1
      · rw [hv]
        unfold specGroupVal
        rw [if_pos hfl]
        have hy : done ++ ([v] ++ payloadsG d rest ++ tail) =
            done ++ v :: (payloadsG d rest ++ tail) := by simp
        rw [hy, getD_append_cons]
        rfl
      · have hy : done ++ ([v] ++ payloadsG d rest ++ tail) =
            (done ++ [v]) ++ (payloadsG d rest ++ tail) := by simp
        rw [h1, show done.length + 1 = (done ++ [v]).length from by simp, hy]
        exact ih (done ++ [v]) tail hsh2 hsc2
    · obtain ⟨l, hl, hlen⟩ := hshg.2 (Bool.not_eq_true _ ▸ hfl)
      replace hlen : l.length = vs.length := hlen
      have hval : atleast1d ((getKey d g).getD (XVal.arr [])) = l := by
        rw [hl]; rfl
      rw [hval]
      congr 1
      · rw [hl]
        unfold specGroupVal
        rw [if_neg hfl]
        have hy : done ++ (l ++ payloadsG d rest ++ tail) =
            done ++ (l ++ (payloadsG d rest ++ tail)) := by simp
        rw [← hlen, hy, sliceClamp_extract]
        rfl
      · have hy : done ++ (l ++ payloadsG d rest ++ tail) =
            (done ++ l) ++ (payloadsG d rest ++ tail) := by simp
        rw [← hlen, show done.length + l.length = (done ++ l).length from by simp, hy]
        exact ih (done ++ l) tail hsh2 hsc2

theorem specProcessSets_payloads (d : List (String × XVal)) :
    ∀ (vs : List (String × List (String × List Var))) (done tail : List ℚ),
    (∀ s ∈ vs, GroupsShaped d s.2) →
    (∀ s ∈ vs, ∀ p ∈ s.2, (p.2.headD default).scalar = true → p.2.length = 1) →
    specProcessSets (done ++ (payloads d vs ++ tail)) done.length vs =
      (vs.map (fun s =>
        s.2.map (fun p => (p.1, (getKey d p.1).getD (XVal.arr []))))).flatten := by
  intro vs
  induction vs with
  | nil => intro done tail _ _; rfl
  | cons q rest ih =>
    intro done tail hsh hsc
    obtain ⟨s, gs⟩ := q
    have hshg : GroupsShaped d gs := hsh (s, gs) (List.mem_cons_self _ _)
    have hscg : ∀ p ∈ gs, (p.2.headD default).scalar = true → p.2.length = 1 :=
      fun p hp => hsc (s, gs) (List.mem_cons_self _ _) p hp
    have hsh2 : ∀ t ∈ rest, GroupsShaped d t.2 :=
      fun t ht => hsh t (List.mem_cons_of_mem _ ht)
    have hsc2 : ∀ t ∈ rest, ∀ p ∈ t.2,
        (p.2.headD default).scalar = true → p.2.length = 1 :=
      fun t ht => hsc t (List.mem_cons_of_mem _ ht)
    rw [payloads_cons, List.map_cons, List.flatten_cons, specProcessSets]
    congr 1
    · have hy : done ++ ((payloadsG d gs ++ payloads d rest) ++ tail) =
          done ++ (payloadsG d gs ++ (payloads d rest ++ tail)) := by simp
      rw [hy]
      exact specProcessGroups_payloads d gs done (payloads d rest ++ tail) hshg hscg
    · have hy : done ++ ((payloadsG d gs ++ payloads d rest) ++ tail) =
          (done ++ payloadsG d gs) ++ (payloads d rest ++ tail) := by simp
      rw [show done.length + varsLen gs = (done ++ payloadsG d gs).length from by
        rw [List.length_append, payloadsG_length d gs hshg hscg], hy]
      exact ih (done ++ payloadsG d gs) tail hsh2 hsc2

/-- The canonical dictionary with one entry per registered group, in
registry order, holding the value the submitted dictionary stores for the
group. -/
def canonDict (d : List (String × XVal))
    (vs : List (String × List (String × List Var))) : List (String × XVal) :=
  (vs.map (fun s =>
    s.2.map (fun p => (p.1, (getKey d p.1).getD (XVal.arr []))))).flatten

theorem canonDict_keys (d : List (String × XVal))
    (vs : List (String × List (String × List Var))) :
    (canonDict d vs).map Prod.fst = allGroupNames vs := by
  unfold canonDict allGroupNames
  rw [List.map_flatten, List.map_map]
  apply congrArg List.flatten
  apply List.map_congr_left
  intro s _
  rw [Function.comp_apply, List.map_map]
  rfl

theorem getKey_canonDict (d : List (String × XVal))
    (vs : List (String × List (String × List Var)))
    (hnd : (allGroupNames vs).Nodup)
    (hsh : ∀ s ∈ vs, GroupsShaped d s.2) :
    ∀ s ∈ vs, ∀ p ∈ s.2, getKey (canonDict d vs) p.1 = getKey d p.1 := by
  intro s hs p hp
  have hmem : (p.1, (getKey d p.1).getD (XVal.arr [])) ∈ canonDict d vs := by
    unfold canonDict
    rw [List.mem_flatten]
    exact ⟨s.2.map (fun q => (q.1, (getKey d q.1).getD (XVal.arr []))),
      List.mem_map.mpr ⟨s, hs, rfl⟩, List.mem_map.mpr ⟨p, hp, rfl⟩⟩
  have hkey : getKey (canonDict d vs) p.1 =
      some ((getKey d p.1).getD (XVal.arr [])) :=
    getKey_of_mem_nodup _ _ _ hmem (by rw [canonDict_keys]; exact hnd)
  have hval : ∃ w, getKey d p.1 = some w := by
    by_cases hfl : (p.2.headD default).scalar
    · obtain ⟨v, hv⟩ := (hsh s hs p hp).1 hfl
      exact ⟨XVal.scl v, hv⟩
    · obtain ⟨l, hl, _⟩ := (hsh s hs p hp).2 (Bool.not_eq_true _ ▸ hfl)
      exact ⟨XVal.arr l, hl⟩
  obtain ⟨w, hw⟩ := hval
  rw [hkey, hw]
  rfl

/-- Declaration list of the C3 counterexample: a one-variable vector group
literally named `"n"` followed by a second group, in one set. -/
def c3decls : List Decl :=
  [Decl.dvGroupDecl "n" 1 "c" [0] none none none (some "a"),
   Decl.dvGroupDecl "g2" 1 "c" [0] none none none (some "a")]

/-- The finalized state of the C3 counterexample declarations. -/
def c3state : Option Optimization :=
  match runDecls (initOpt "p" true) c3decls with
  | .ok st => finalizeDesignVariables st
  | .error _ => none

/-- A dictionary with one correctly-shaped entry per group: both groups
hold one variable and are vector groups, so each entry is a length-1
array. -/
def c3dict : List (String × XVal) := [("n", XVal.arr [5]), ("g2", XVal.arr [7])]

/-- C3 counterexample: with a variable group literally named `"n"`, the
registry holds two one-variable vector groups and the dictionary supplies
a length-1 array for each, yet `deProcessX` fails (returns `None`): the
group named `"n"` overwrote the offset table's reserved `'n'` record, the
final `['n'][1] = dvCounter` patch corrupted the group's own end offset to
2, and the slice assignment `x_array[0:2] = value` rejects the length-1
array.  So `processX(deProcessX(d)) == d` fails for a correctly-shaped
`d`. -/
theorem C3_counterexample :
    c3state.map (fun st => st.vars.map (fun s => (s.1, s.2.map (fun p =>
        (p.1, p.2.length, (p.2.headD default).scalar))))) =
      some [("a", [("n", 1, false), ("g2", 1, false)])] ∧
    c3dict.map (fun p => (p.1, (atleast1d p.2).length)) =
      [("n", 1), ("g2", 1)] ∧
    c3state.map (fun st => (deProcessX st (XForm.named c3dict)).isNone) =
      some true :=
  ⟨by decide, by decide, by decide⟩

/-- C3 (amended): for declarations in which no variable group is named
`"n"` (the offset table's reserved key), after finalization, with
`useGroups`, the codec round-trips both ways: `deProcessX (processX x)`
restores every flat array of length `ndvs` exactly, and
`processX (deProcessX d)` of a correctly-shaped dictionary (one entry per
group: a scalar for scalar groups, a length-`n` array for vector groups)
returns a dictionary with exactly the registered group names as keys that
stores, for every group, the same value as `d`. -/
theorem C3_theorem (name : String) (ds : List Decl) (st0 st : Optimization)
    (h0 : runDecls (initOpt name true) ds = .ok st0)
    (hn : "n" ∉ allGroupNames st0.vars)
    (h : finalizeDesignVariables st0 = some st)
    (hug : st.useGroups = true) :
    (∀ x : List ℚ, x.length = st.ndvs →
      (processX st (XForm.flat x)).bind (deProcessX st) = some (XForm.flat x)) ∧
    (∀ d : List (String × XVal), (∀ s ∈ st.vars, GroupsShaped d s.2) →
      ∃ d2 : List (String × XVal),
        (deProcessX st (XForm.named d)).bind (processX st) =
          some (XForm.named d2) ∧
        d2.map Prod.fst = allGroupNames st.vars ∧
        (∀ s ∈ st.vars, ∀ p ∈ s.2, getKey d2 p.1 = getKey d p.1)) := by
  have hst := structuredVars_of_decls name ds st0 st h0 hn h
  constructor
  · intro x hx
    exact roundTrip_flat st x hst hug hx
  · intro d hsh
    obtain ⟨hoff, hnd1, hnd2, hnN, hne, hsc1, hndvs⟩ := hst
    refine ⟨canonDict d st.vars, ?_, canonDict_keys d st.vars,
      getKey_canonDict d st.vars hnd2 hsh⟩
    rw [deProcessX_spec st d ⟨hoff, hnd1, hnd2, hnN, hne, hsc1, hndvs⟩ hug hsh,
      Option.some_bind]
    have hplen : (payloads d st.vars).length = st.ndvs := by
      rw [payloads_length d st.vars hsh hsc1, hndvs]
    rw [processX_spec st _ ⟨hoff, hnd1, hnd2, hnN, hne, hsc1, hndvs⟩ hug hplen]
    have hsp := specProcessSets_payloads d st.vars [] [] hsh hsc1
    simpa [canonDict] using hsp

/-- Witness declarations for C3: a two-variable vector group and a
one-variable group in one set. -/
def c3wdecls : List Decl :=
  [Decl.dvGroupDecl "g1" 2 "c" [0, 0] none none none (some "a"),
   Decl.dvGroupDecl "g2" 1 "c" [0] none none none (some "a")]

/-- The pre-finalization witness state for C3. -/
def c3wSt0 : Optimization :=
  (runDecls (initOpt "p" true) c3wdecls).toOption.getD (initOpt "x" true)

/-- The finalized witness state for C3. -/
def c3wSt : Optimization :=
  (finalizeDesignVariables c3wSt0).getD (initOpt "x" true)

theorem C3_witness :
    (∀ x : List ℚ, x.length = c3wSt.ndvs →
      (processX c3wSt (XForm.flat x)).bind (deProcessX c3wSt) =
        some (XForm.flat x)) ∧
    (∀ d : List (String × XVal), (∀ s ∈ c3wSt.vars, GroupsShaped d s.2) →
      ∃ d2 : List (String × XVal),
        (deProcessX c3wSt (XForm.named d)).bind (processX c3wSt) =
          some (XForm.named d2) ∧
        d2.map Prod.fst = allGroupNames c3wSt.vars ∧
        (∀ s ∈ c3wSt.vars, ∀ p ∈ s.2, getKey d2 p.1 = getKey d p.1)) :=
  C3_theorem "p" c3wdecls c3wSt0 c3wSt (by rfl) (by decide) (by rfl) (by rfl)

/-- The `[rs, re)` ranges stored on the constraints with the given
linearity, in registry order. -/
def rangesOf (flag : Bool) (cons : List (String × Constraint)) : List (Nat × Nat) :=
  (cons.filter (fun p => decide (p.2.linear = flag))).map (fun p => (p.2.rs, p.2.re))

theorem filterLin_cons (flag : Bool) (k : String) (con : Constraint)
    (rest : List (String × Constraint)) :
    ((k, con) :: rest).filter (fun p => decide (p.2.linear = flag)) =
      if con.linear = flag then
        (k, con) :: rest.filter (fun p => decide (p.2.linear = flag))
      else rest.filter (fun p => decide (p.2.linear = flag)) := by
  rw [List.filter_cons]
  by_cases hf : con.linear = flag
  · rw [if_pos (by simp [hf]), if_pos hf]
  · rw [if_neg (by simp [hf]), if_neg hf]

theorem filterNotLin_cons (flag : Bool) (k : String) (con : Constraint)
    (rest : List (String × Constraint)) :
    ((k, con) :: rest).filter (fun p => decide (¬ p.2.linear = flag)) =
      if con.linear = flag then
        rest.filter (fun p => decide (¬ p.2.linear = flag))
      else (k, con) :: rest.filter (fun p => decide (¬ p.2.linear = flag)) := by
  rw [List.filter_cons]
  by_cases hf : con.linear = flag
  · rw [if_neg (by simp [hf]), if_pos hf]
  · rw [if_pos (by simp [hf]), if_neg hf]

theorem assignRows_spec (flag : Bool) :
    ∀ (cons : List (String × Constraint)) (c : Nat),
    (assignRows flag c cons).2.2 =
      c + ((cons.filter (fun p => decide (p.2.linear = flag))).map
        (fun p => p.2.ncon)).sum ∧
    (assignRows flag c cons).1.map Prod.fst = cons.map Prod.fst ∧
    ConsecCover c (rangesOf flag (assignRows flag c cons).1)
      (assignRows flag c cons).2.2 ∧
    (assignRows flag c cons).1.filter (fun p => decide (¬ p.2.linear = flag)) =
      cons.filter (fun p => decide (¬ p.2.linear = flag)) ∧
    ((assignRows flag c cons).1.filter
        (fun p => decide (p.2.linear = flag))).map Prod.fst =
      (cons.filter (fun p => decide (p.2.linear = flag))).map Prod.fst := by
  intro cons
  induction cons with
  | nil =>
    intro c
    refine ⟨by simp [assignRows], rfl, ?_, rfl, rfl⟩
    exact ConsecCover.nil c
  | cons p rest ih =>
    intro c
    obtain ⟨k, con⟩ := p
    by_cases hf : con.linear = flag
    · obtain ⟨ih1, ih2, ih3, ih4, ih5⟩ := ih (c + con.ncon)
      have hstep : assignRows flag c ((k, con) :: rest) =
          ((k, { con with rs := c, re := c + con.ncon }) ::
            (assignRows flag (c + con.ncon) rest).1,
           con.scale ++ (assignRows flag (c + con.ncon) rest).2.1,
           (assignRows flag (c + con.ncon) rest).2.2) := by
        rw [assignRows, if_pos hf]
      have hf2 : ({ con with rs := c, re := c + con.ncon } : Constraint).linear
          = flag := hf
      rw [hstep]
      refine ⟨?_, ?_, ?_, ?_, ?_⟩
      · rw [ih1, filterLin_cons, if_pos hf, List.map_cons, List.sum_cons]
        have hk : ((k, con) : String × Constraint).2.ncon = con.ncon := rfl
        rw [hk]
        omega
      · rw [List.map_cons, ih2, List.map_cons]
      · unfold rangesOf
        rw [filterLin_cons, if_pos hf2, List.map_cons]
        exact ConsecCover.cons c (c + con.ncon) _ _ (by omega) ih3
      · rw [filterNotLin_cons, if_pos hf2, filterNotLin_cons, if_pos hf]
        exact ih4
      · rw [filterLin_cons, if_pos hf2, filterLin_cons, if_pos hf,
          List.map_cons, List.map_cons, ih5]
    · obtain ⟨ih1, ih2, ih3, ih4, ih5⟩ := ih c
      have hstep : assignRows flag c ((k, con) :: rest) =
          ((k, con) :: (assignRows flag c rest).1,
           (assignRows flag c rest).2.1,
           (assignRows flag c rest).2.2) := by
        rw [assignRows, if_neg hf]
      rw [hstep]
      refine ⟨?_, ?_, ?_, ?_, ?_⟩
      · rw [ih1, filterLin_cons, if_neg hf]
      · rw [List.map_cons, ih2, List.map_cons]
      · unfold rangesOf
        rw [filterLin_cons, if_neg hf]
        exact ih3
      · rw [filterNotLin_cons, if_neg hf, filterNotLin_cons, if_neg hf, ih4]
      · rw [filterLin_cons, if_neg hf, filterLin_cons, if_neg hf, ih5]

theorem filter_lin_bridge_not (l : List (String × Constraint)) :
    l.filter (fun p => !p.2.linear) =
      l.filter (fun p => decide (p.2.linear = false)) := by
  apply List.filter_congr
  intro p _
  cases p.2.linear <;> rfl

theorem filter_lin_bridge_pos (l : List (String × Constraint)) :
    l.filter (fun p => p.2.linear) =
      l.filter (fun p => decide (p.2.linear = true)) := by
  apply List.filter_congr
  intro p _
  cases p.2.linear <;> rfl

theorem filter_lin_bridge_nf (l : List (String × Constraint)) :
    l.filter (fun p => decide (¬ p.2.linear = false)) =
      l.filter (fun p => decide (p.2.linear = true)) := by
  apply List.filter_congr
  intro p _
  cases p.2.linear <;> rfl

theorem filter_lin_bridge_nt (l : List (String × Constraint)) :
    l.filter (fun p => decide (¬ p.2.linear = true)) =
      l.filter (fun p => decide (p.2.linear = false)) := by
  apply List.filter_congr
  intro p _
  cases p.2.linear <;> rfl

theorem finalizeConstraints_eq (st : Optimization) (pr : Optimization × Option Coo)
    (h : finalizeConstraints st = .ok pr) :
    pr.1.constraints =
      (assignRows true (assignRows false 0 st.constraints).2.2
        (assignRows false 0 st.constraints).1).1 ∧
    pr.1.nnCon = ((st.constraints.filter (fun p => !p.2.linear)).map
      (fun p => p.2.ncon)).sum ∧
    pr.1.nlCon = ((st.constraints.filter (fun p => p.2.linear)).map
      (fun p => p.2.ncon)).sum ∧
    pr.1.nCon = pr.1.nnCon + pr.1.nlCon := by
  simp only [finalizeConstraints, reduceDict] at h
  split at h
  · rw [except_bind_ok] at h
    obtain ⟨lj, _, hpure⟩ := h
    simp only [pure, Except.pure, Except.ok.injEq] at hpure
    rw [← hpure]
    exact ⟨rfl, rfl, rfl, rfl⟩
  · simp only [pure, Except.pure, Except.ok.injEq] at h
    rw [← h]
    exact ⟨rfl, rfl, rfl, rfl⟩

/-- C5: after a successful `finalizeConstraints`, the row ranges of the
nonlinear constraints (in registration order) sit end to end on
`[0, nnCon)`, the row ranges of the linear constraints (in registration
order) sit end to end on `[nnCon, nCon)`, and together they partition
`[0, nCon)` exactly: every row is covered, the ranges are pairwise
disjoint, every nonlinear row precedes every linear row irrespective of
declaration order, and the registry keeps both the overall and the
per-partition registration order of the constraint names. -/
theorem C5_theorem (st : Optimization) (pr : Optimization × Option Coo)
    (h : finalizeConstraints st = .ok pr) :
    pr.1.nCon = pr.1.nnCon + pr.1.nlCon ∧
    ConsecCover 0 (rangesOf false pr.1.constraints) pr.1.nnCon ∧
    ConsecCover pr.1.nnCon (rangesOf true pr.1.constraints) pr.1.nCon ∧
    ConsecCover 0 (rangesOf false pr.1.constraints ++
      rangesOf true pr.1.constraints) pr.1.nCon ∧
    (∀ i, i < pr.1.nCon → ∃ r ∈ rangesOf false pr.1.constraints ++
      rangesOf true pr.1.constraints, r.1 ≤ i ∧ i < r.2) ∧
    (rangesOf false pr.1.constraints ++
      rangesOf true pr.1.constraints).Pairwise (fun r s => r.2 ≤ s.1) ∧
    (∀ r ∈ rangesOf false pr.1.constraints, r.2 ≤ pr.1.nnCon) ∧
    (∀ r ∈ rangesOf true pr.1.constraints, pr.1.nnCon ≤ r.1) ∧
    pr.1.constraints.map Prod.fst = st.constraints.map Prod.fst ∧
    (pr.1.constraints.filter (fun p => decide (p.2.linear = false))).map Prod.fst =
      (st.constraints.filter (fun p => decide (p.2.linear = false))).map Prod.fst ∧
    (pr.1.constraints.filter (fun p => decide (p.2.linear = true))).map Prod.fst =
      (st.constraints.filter (fun p => decide (p.2.linear = true))).map Prod.fst := by
  obtain ⟨hcons, hnn, hnl, hsum⟩ := finalizeConstraints_eq st pr h
  obtain ⟨s11, s12, s13, s14, s15⟩ := assignRows_spec false st.constraints 0
  obtain ⟨s21, s22, s23, s24, s25⟩ := assignRows_spec true
    (assignRows false 0 st.constraints).1 (assignRows false 0 st.constraints).2.2
  set r1 := assignRows false 0 st.constraints with hr1
  set r2 := assignRows true r1.2.2 r1.1 with hr2
  have hc1 : r1.2.2 = pr.1.nnCon := by
    rw [s11, hnn, filter_lin_bridge_not st.constraints, Nat.zero_add]
  have hfiltF : r2.1.filter (fun p => decide (p.2.linear = false)) =
      r1.1.filter (fun p => decide (p.2.linear = false)) := by
    rw [← filter_lin_bridge_nt r2.1, s24, filter_lin_bridge_nt r1.1]
  have hrangesF : rangesOf false r2.1 = rangesOf false r1.1 := by
    unfold rangesOf
    rw [hfiltF]
  have hcovF : ConsecCover 0 (rangesOf false pr.1.constraints) pr.1.nnCon := by
    rw [hcons, hrangesF, ← hc1]
    exact s13
  have hsumlin : ((r1.1.filter (fun p => decide (p.2.linear = true))).map
      (fun p => p.2.ncon)).sum = pr.1.nlCon := by
    rw [← filter_lin_bridge_nf r1.1, s14, filter_lin_bridge_nf st.constraints,
      hnl, filter_lin_bridge_pos st.constraints]
  have hend : r2.2.2 = pr.1.nCon := by
    rw [s21, hc1, hsumlin, hsum]
  have hcovT : ConsecCover pr.1.nnCon (rangesOf true pr.1.constraints)
      pr.1.nCon := by
    rw [hcons, ← hc1, ← hend]
    exact s23
  have hcovA : ConsecCover 0 (rangesOf false pr.1.constraints ++
      rangesOf true pr.1.constraints) pr.1.nCon := hcovF.append hcovT
  refine ⟨hsum, hcovF, hcovT, hcovA, ?_, hcovA.pairwise_disjoint, ?_, ?_, ?_, ?_, ?_⟩
  · intro i hi
    exact hcovA.covers i (Nat.zero_le i) hi
  · intro r hr
    exact (hcovF.mem_bounds r hr).2.2
  · intro r hr
    exact (hcovT.mem_bounds r hr).1
  · rw [hcons, s22, s12]
  · rw [hcons, hfiltF]
    exact s15
  · rw [hcons, s25, ← filter_lin_bridge_nf r1.1, s14,
      filter_lin_bridge_nf st.constraints]

/-- C5 witness state: one design-variable set, a linear constraint
registered first and a nonlinear one second. -/
def c5wSt : Optimization :=
  ((do
    let s1 ← runDecls (initOpt "p" true)
      [Decl.dvGroupDecl "ga" 1 "c" [0] none none none (some "a")]
    let s2 ← match finalizeDesignVariables s1 with
      | some s => Except.ok s
      | none => Except.error Err.indexErr
    let s3 ← addConGroup s2 "lin1" 1 none none [1] true (some ["a"])
      (some [("a", BlockInput.dense [[1]])])
    addConGroup s3 "nl1" 1 none none [1] false (some ["a"]) none
    : Except Err Optimization)).toOption.getD (initOpt "x" true)

/-- The pair `finalizeConstraints` returns on the C5 witness state. -/
def c5wPr : Optimization × Option Coo :=
  (finalizeConstraints c5wSt).toOption.getD (initOpt "x" true, none)

theorem C5_witness :
    c5wPr.1.nCon = c5wPr.1.nnCon + c5wPr.1.nlCon ∧
    ConsecCover 0 (rangesOf false c5wPr.1.constraints) c5wPr.1.nnCon ∧
    ConsecCover c5wPr.1.nnCon (rangesOf true c5wPr.1.constraints) c5wPr.1.nCon ∧
    ConsecCover 0 (rangesOf false c5wPr.1.constraints ++
      rangesOf true c5wPr.1.constraints) c5wPr.1.nCon ∧
    (∀ i, i < c5wPr.1.nCon → ∃ r ∈ rangesOf false c5wPr.1.constraints ++
      rangesOf true c5wPr.1.constraints, r.1 ≤ i ∧ i < r.2) ∧
    (rangesOf false c5wPr.1.constraints ++
      rangesOf true c5wPr.1.constraints).Pairwise (fun r s => r.2 ≤ s.1) ∧
    (∀ r ∈ rangesOf false c5wPr.1.constraints, r.2 ≤ c5wPr.1.nnCon) ∧
    (∀ r ∈ rangesOf true c5wPr.1.constraints, c5wPr.1.nnCon ≤ r.1) ∧
    c5wPr.1.constraints.map Prod.fst = c5wSt.constraints.map Prod.fst ∧
    (c5wPr.1.constraints.filter
      (fun p => decide (p.2.linear = false))).map Prod.fst =
      (c5wSt.constraints.filter
        (fun p => decide (p.2.linear = false))).map Prod.fst ∧
    (c5wPr.1.constraints.filter
      (fun p => decide (p.2.linear = true))).map Prod.fst =
      (c5wSt.constraints.filter
        (fun p => decide (p.2.linear = true))).map Prod.fst :=
  C5_theorem c5wSt c5wPr (by rfl)

/-- Total number of nonlinear constraint rows declared in the registry. -/
def nconSum (cons : List (String × Constraint)) : Nat :=
  ((cons.filter (fun p => decide (p.2.linear = false))).map (fun p => p.2.ncon)).sum

/-- The values the submitted dictionary holds for the nonlinear
constraints, concatenated in registry order. -/
def nlPayload (fcon_in : List (String × XVal))
    (cons : List (String × Constraint)) : List ℚ :=
  ((cons.filter (fun p => decide (p.2.linear = false))).map
    (fun p => atleast1d ((getKey fcon_in p.1).getD (XVal.arr [])))).flatten

/-- Row alignment of the registry: from offset `c` on, the nonlinear
constraints' `[rs, re)` ranges sit consecutively and match `ncon`;
linear entries are passed over. -/
def ConsAligned : Nat → List (String × Constraint) → Prop
  | _, [] => True
  | c, (_, con) :: rest =>
    (con.linear = true → ConsAligned c rest) ∧
    (con.linear = false →
      con.rs = c ∧ con.re = c + con.ncon ∧ ConsAligned (c + con.ncon) rest)

theorem nconSum_cons (k : String) (con : Constraint)
    (rest : List (String × Constraint)) :
    nconSum ((k, con) :: rest) =
      if con.linear = false then con.ncon + nconSum rest else nconSum rest := by
  unfold nconSum
  rw [filterLin_cons]
  by_cases hf : con.linear = false
  · rw [if_pos hf, if_pos hf, List.map_cons, List.sum_cons]
  · rw [if_neg hf, if_neg hf]

theorem nlPayload_cons (fcon_in : List (String × XVal)) (k : String)
    (con : Constraint) (rest : List (String × Constraint)) :
    nlPayload fcon_in ((k, con) :: rest) =
      if con.linear = false then
        atleast1d ((getKey fcon_in k).getD (XVal.arr [])) ++ nlPayload fcon_in rest
      else nlPayload fcon_in rest := by
  unfold nlPayload
  rw [filterLin_cons]
  by_cases hf : con.linear = false
  · rw [if_pos hf, if_pos hf, List.map_cons, List.flatten_cons]
  · rw [if_neg hf, if_neg hf]

theorem assignRows_ncons (flag : Bool) :
    ∀ (cons : List (String × Constraint)) (c : Nat),
    ((assignRows flag c cons).1.filter
        (fun p => decide (p.2.linear = flag))).map (fun p => p.2.ncon) =
      (cons.filter (fun p => decide (p.2.linear = flag))).map
        (fun p => p.2.ncon) := by
  intro cons
  induction cons with
  | nil => intro c; rfl
  | cons p rest ih =>
    intro c
    obtain ⟨k, con⟩ := p
    by_cases hf : con.linear = flag
    · have hf2 : ({ con with rs := c, re := c + con.ncon } : Constraint).linear
          = flag := hf
      rw [assignRows, if_pos hf]
      rw [filterLin_cons, if_pos hf2, filterLin_cons, if_pos hf,
        List.map_cons, List.map_cons, ih (c + con.ncon)]
    · rw [assignRows, if_neg hf]
      rw [filterLin_cons, if_neg hf, filterLin_cons, if_neg hf, ih c]

theorem assignRows_scales (flag : Bool) :
    ∀ (cons : List (String × Constraint)) (c : Nat),
    (assignRows flag c cons).2.1 =
      ((cons.filter (fun p => decide (p.2.linear = flag))).map
        (fun p => p.2.scale)).flatten := by
  intro cons
  induction cons with
  | nil => intro c; rfl
  | cons p rest ih =>
    intro c
    obtain ⟨k, con⟩ := p
    by_cases hf : con.linear = flag
    · have hstep : assignRows flag c ((k, con) :: rest) =
          ((k, { con with rs := c, re := c + con.ncon }) ::
            (assignRows flag (c + con.ncon) rest).1,
           con.scale ++ (assignRows flag (c + con.ncon) rest).2.1,
           (assignRows flag (c + con.ncon) rest).2.2) := by
        rw [assignRows, if_pos hf]
      rw [hstep, filterLin_cons, if_pos hf, List.map_cons, List.flatten_cons,
        ih (c + con.ncon)]
    · have hstep : assignRows flag c ((k, con) :: rest) =
          ((k, con) :: (assignRows flag c rest).1,
           (assignRows flag c rest).2.1,
           (assignRows flag c rest).2.2) := by
        rw [assignRows, if_neg hf]
      rw [hstep, filterLin_cons, if_neg hf, ih c]

theorem conAligned_assignRows_false :
    ∀ (cons : List (String × Constraint)) (c : Nat),
    ConsAligned c (assignRows false c cons).1 := by
  intro cons
  induction cons with
  | nil => intro c; trivial
  | cons p rest ih =>
    intro c
    obtain ⟨k, con⟩ := p
    by_cases hf : con.linear = false
    · rw [assignRows, if_pos hf]
      refine ⟨fun hlin => ?_, fun _ => ⟨rfl, rfl, ih (c + con.ncon)⟩⟩
      · exact absurd (hf ▸ hlin) (by simp)
    · rw [assignRows, if_neg hf]
      have hlin : con.linear = true := by
        cases hcl : con.linear
        · exact absurd hcl hf
        · rfl
      refine ⟨fun _ => ih c, fun hfalse => absurd (hlin ▸ hfalse) (by simp)⟩

theorem conAligned_assignRows_true :
    ∀ (cons : List (String × Constraint)) (a c : Nat),
    ConsAligned a cons → ConsAligned a (assignRows true c cons).1 := by
  intro cons
  induction cons with
  | nil => intro a c _; trivial
  | cons p rest ih =>
    intro a c hal
    obtain ⟨k, con⟩ := p
    by_cases hf : con.linear = true
    · rw [assignRows, if_pos hf]
      refine ⟨fun _ => ih a (c + con.ncon) (hal.1 hf), fun hfalse => ?_⟩
      · exact absurd (hf ▸ hfalse : (true : Bool) = false) (by simp)
    · rw [assignRows, if_neg hf]
      have hlin : con.linear = false := by
        cases hcl : con.linear
        · rfl
        · exact absurd hcl hf
      obtain ⟨h1, h2, h3⟩ := hal.2 hlin
      exact ⟨fun htrue => absurd htrue hf,
        fun _ => ⟨h1, h2, ih (a + con.ncon) c h3⟩⟩

theorem conAligned_re_bound :
    ∀ (cons : List (String × Constraint)) (c : Nat),
    ConsAligned c cons →
    ∀ p ∈ cons, p.2.linear = false → c ≤ p.2.rs ∧ p.2.re ≤ c + nconSum cons := by
  intro cons
  induction cons with
  | nil => intro c _ p hp; cases hp
  | cons q rest ih =>
    intro c hal p hp
    obtain ⟨k, con⟩ := q
    intro hlin
    rw [nconSum_cons]
    cases hp with
    | head =>
      obtain ⟨h1, h2, _⟩ := hal.2 hlin
      rw [if_pos hlin, h1, h2]
      constructor
      · exact le_refl _
      · have : (k, con).2.ncon = con.ncon := rfl
        omega
    | tail _ hp =>
      by_cases hf : con.linear = false
      · obtain ⟨_, _, h3⟩ := hal.2 hf
        obtain ⟨hb1, hb2⟩ := ih (c + con.ncon) h3 p hp hlin
        rw [if_pos hf]
        omega
      · have hlin2 : con.linear = true := by
          cases hcl : con.linear
          · exact absurd hcl hf
          · rfl
        obtain ⟨hb1, hb2⟩ := ih c (hal.1 hlin2) p hp hlin
        rw [if_neg hf]
        omega

theorem getD_sliceClamp (l : List ℚ) (a b i : Nat) (h1 : a ≤ i) (h2 : i < b) :
    (sliceClamp l a b).getD (i - a) 0 = l.getD i 0 := by
  unfold sliceClamp
  rw [List.getD_eq_getElem?_getD, List.getD_eq_getElem?_getD]
  rw [List.getElem?_take_of_lt (by omega)]
  rw [List.getElem?_drop]
  congr 2
  omega

theorem getD_zipWith_mul :
    ∀ (a b : List ℚ) (i : Nat), i < a.length → i < b.length →
    (List.zipWith (fun x y => x * y) a b).getD i 0 = a.getD i 0 * b.getD i 0 := by
  intro a
  induction a with
  | nil => intro b i h _; simp at h
  | cons x t ih =>
    intro b i h1 h2
    cases b with
    | nil => simp at h2
    | cons y s =>
      cases i with
      | zero => rfl
      | succ i =>
        have := ih s i (by simpa using h1) (by simpa using h2)
        simpa using this

theorem nlPayload_length (fcon_in : List (String × XVal)) :
    ∀ (cons : List (String × Constraint)),
    (∀ p ∈ cons, p.2.linear = false → ∃ cv, getKey fcon_in p.1 = some cv ∧
      (atleast1d cv).length = p.2.ncon) →
    (nlPayload fcon_in cons).length = nconSum cons := by
  intro cons
  induction cons with
  | nil => intro _; rfl
  | cons q rest ih =>
    intro hlook
    obtain ⟨k, con⟩ := q
    rw [nlPayload_cons, nconSum_cons]
    by_cases hf : con.linear = false
    · obtain ⟨cv, hcv, hcl⟩ := hlook (k, con) (List.mem_cons_self _ _) hf
      have hcv2 : getKey fcon_in k = some cv := hcv
      have hcl2 : (atleast1d cv).length = con.ncon := hcl
      rw [if_pos hf, if_pos hf, List.length_append,
        ih (fun p hp => hlook p (List.mem_cons_of_mem _ hp)), hcv2]
      simp only [Option.getD_some]
      rw [hcl2]
    · rw [if_neg hf, if_neg hf]
      exact ih (fun p hp => hlook p (List.mem_cons_of_mem _ hp))

theorem nlPayload_slices (fcon_in : List (String × XVal)) :
    ∀ (cons : List (String × Constraint)) (done tail : List ℚ),
    ConsAligned done.length cons →
    (∀ p ∈ cons, p.2.linear = false → ∃ cv, getKey fcon_in p.1 = some cv ∧
      (atleast1d cv).length = p.2.ncon) →
    ∀ p ∈ cons, p.2.linear = false →
    sliceClamp (done ++ (nlPayload fcon_in cons ++ tail)) p.2.rs p.2.re =
      atleast1d ((getKey fcon_in p.1).getD (XVal.arr [])) := by
  intro cons
  induction cons with
  | nil => intro done tail _ _ p hp; cases hp
  | cons q rest ih =>
    intro done tail hal hlook p hp hlin
    obtain ⟨k, con⟩ := q
    rw [nlPayload_cons]
    by_cases hf : con.linear = false
    · obtain ⟨cv, hcv, hcl⟩ := hlook (k, con) (List.mem_cons_self _ _) hf
      have hcv2 : getKey fcon_in k = some cv := hcv
      have hcl2 : (atleast1d cv).length = con.ncon := hcl
      rw [if_pos hf]
      have hval : atleast1d ((getKey fcon_in k).getD (XVal.arr [])) =
          atleast1d cv := by
        rw [hcv2]; rfl
      obtain ⟨h1, h2, h3⟩ := hal.2 hf
      cases hp with
      | head =>
        show sliceClamp _ con.rs con.re =
          atleast1d ((getKey fcon_in k).getD (XVal.arr []))
        rw [h1, h2, hval]
        have hy : done ++ (atleast1d cv ++ nlPayload fcon_in rest ++ tail) =
            done ++ (atleast1d cv ++ (nlPayload fcon_in rest ++ tail)) := by
          simp
        rw [hy, show con.ncon = (atleast1d cv).length from hcl2.symm,
          sliceClamp_extract]
      | tail _ hp =>
        have hy : done ++ ((atleast1d ((getKey fcon_in k).getD (XVal.arr [])) ++
            nlPayload fcon_in rest) ++ tail) =
            (done ++ atleast1d cv) ++ (nlPayload fcon_in rest ++ tail) := by
          rw [hval]; simp
        rw [hy]
        have hdl : (done ++ atleast1d cv).length = done.length + con.ncon := by
          rw [List.length_append, hcl2]
        exact ih (done ++ atleast1d cv) tail (hdl ▸ h3)
          (fun r hr => hlook r (List.mem_cons_of_mem _ hr)) p hp hlin
    · rw [if_neg hf]
      have hlin2 : con.linear = true := by
        cases hcl : con.linear
        · exact absurd hcl hf
        · rfl
      cases hp with
      | head => exact absurd hlin hf
      | tail _ hp =>
        exact ih done tail (hal.1 hlin2)
          (fun r hr => hlook r (List.mem_cons_of_mem _ hr)) p hp hlin

theorem pncFold_spec (st : Optimization) (fcon_in : List (String × XVal)) (N : Nat) :
    ∀ (cons : List (String × Constraint)) (done : List ℚ),
    ConsAligned done.length cons →
    (∀ p ∈ cons, p.2.linear = false → ∃ cv, getKey fcon_in p.1 = some cv ∧
      (atleast1d cv).length = p.2.ncon) →
    done.length + nconSum cons ≤ N →
    pncFold st fcon_in cons (done ++ List.replicate (N - done.length) 0) =
      .ok ((done ++ nlPayload fcon_in cons) ++
        List.replicate (N - (done.length + nconSum cons)) 0) := by
  intro cons
  induction cons with
  | nil =>
    intro done _ _ _
    rw [pncFold]
    have h1 : nlPayload fcon_in [] = [] := rfl
    have h2 : nconSum ([] : List (String × Constraint)) = 0 := rfl
    rw [h1, h2, Nat.add_zero, List.append_nil]
  | cons q rest ih =>
    intro done hal hlook hlen
    obtain ⟨k, con⟩ := q
    have hacclen : (done ++ List.replicate (N - done.length) (0 : ℚ)).length
        = N := by
      rw [List.length_append, List.length_replicate]
      have : done.length ≤ N := by
        have := Nat.le_trans (Nat.le_add_right done.length _) hlen
        exact this
      omega
    by_cases hf : con.linear = false
    · obtain ⟨cv, hcv, hcl⟩ := hlook (k, con) (List.mem_cons_self _ _) hf
      have hcv2 : getKey fcon_in k = some cv := hcv
      have hcl2 : (atleast1d cv).length = con.ncon := hcl
      obtain ⟨h1, h2, h3⟩ := hal.2 hf
      rw [nconSum_cons, if_pos hf] at hlen
      simp only [pncFold, hf, Bool.not_false, if_true, hcv2]
      have hlo : min con.rs
          (done ++ List.replicate (N - done.length) (0 : ℚ)).length
          = done.length := by
        rw [h1, hacclen]
        omega
      have hhi : min con.re
          (done ++ List.replicate (N - done.length) (0 : ℚ)).length
          = done.length + con.ncon := by
        rw [h2, hacclen]
        omega
      rw [hlo, hhi, if_pos hcl2, if_pos (by omega)]
      have hls := listSet_append_replicate done (atleast1d cv) N
      rw [hcl2] at hls
      rw [hls]
      have hstep := ih (done ++ atleast1d cv) ?hal2 ?hlook2 ?hlen2
      · rw [List.length_append, hcl2] at hstep
        rw [hstep, nlPayload_cons, if_pos hf, hcv2]
        have hv : atleast1d ((some cv).getD (XVal.arr [])) = atleast1d cv := rfl
        rw [hv, nconSum_cons, if_pos hf]
        have harith : N - (done.length + con.ncon + nconSum rest) =
            N - (done.length + (con.ncon + nconSum rest)) := by omega
        rw [harith]
        simp [List.append_assoc]
      case hal2 =>
        rw [List.length_append, hcl2]
        exact h3
      case hlook2 => exact fun p hp => hlook p (List.mem_cons_of_mem _ hp)
      case hlen2 =>
        rw [List.length_append, hcl2]
        omega
    · have hlin : con.linear = true := by
        cases hcl : con.linear
        · exact absurd hcl hf
        · rfl
      simp only [pncFold, hlin, Bool.not_true, Bool.false_eq_true, if_false]
      rw [nconSum_cons, if_neg hf, nlPayload_cons, if_neg hf]
      rw [nconSum_cons, if_neg hf] at hlen
      exact ih done (hal.1 hlin) (fun p hp => hlook p (List.mem_cons_of_mem _ hp))
        hlen

theorem pncFold_err (st : Optimization) (fcon_in : List (String × XVal)) :
    ∀ (cons : List (String × Constraint)) (acc : List ℚ),
    (∃ p ∈ cons, p.2.linear = false ∧
      (getKey fcon_in p.1 = none ∨ ∃ cv, getKey fcon_in p.1 = some cv ∧
        (atleast1d cv).length ≠ p.2.ncon)) →
    ∃ e, pncFold st fcon_in cons acc = .error e := by
  intro cons
  induction cons with
  | nil => intro acc h; obtain ⟨p, hp, _⟩ := h; cases hp
  | cons q rest ih =>
    intro acc hbad
    obtain ⟨k, con⟩ := q
    by_cases hf : con.linear = false
    · simp only [pncFold, hf, Bool.not_false, if_true]
      cases hkv : getKey fcon_in k with
      | none => exact ⟨.missingConValue k, rfl⟩
      | some cv =>
        dsimp only
        by_cases hlc : (atleast1d cv).length = con.ncon
        · rw [if_pos hlc]
          have hrest : ∃ p ∈ rest, p.2.linear = false ∧
              (getKey fcon_in p.1 = none ∨ ∃ cv2, getKey fcon_in p.1 = some cv2 ∧
                (atleast1d cv2).length ≠ p.2.ncon) := by
            obtain ⟨p, hp, hlin, hrr⟩ := hbad
            cases hp with
            | head =>
              exfalso
              cases hrr with
              | inl hnone =>
                rw [show getKey fcon_in (k, con).1 = getKey fcon_in k from rfl,
                  hkv] at hnone
                cases hnone
              | inr hsome =>
                obtain ⟨cv2, hcv2, hne⟩ := hsome
                rw [show getKey fcon_in (k, con).1 = getKey fcon_in k from rfl,
                  hkv, Option.some.injEq] at hcv2
                rw [hcv2] at hlc
                exact hne hlc
            | tail _ hp => exact ⟨p, hp, hlin, hrr⟩
          by_cases hsl : (atleast1d cv).length =
              min con.re acc.length - min con.rs acc.length
          · rw [if_pos hsl]
            exact ih _ hrest
          · rw [if_neg hsl]
            exact ⟨.valueErr, rfl⟩
        · rw [if_neg hlc]
          exact ⟨.conValWrongLength k, rfl⟩
    · have hlin : con.linear = true := by
        cases hcl : con.linear
        · exact absurd hcl hf
        · rfl
      simp only [pncFold, hlin, Bool.not_true, Bool.false_eq_true, if_false]
      obtain ⟨p, hp, hplin, hrr⟩ := hbad
      cases hp with
      | head => exact absurd hplin hf
      | tail _ hp => exact ih acc ⟨p, hp, hplin, hrr⟩

theorem finalizeConstraints_eq2 (st : Optimization)
    (pr : Optimization × Option Coo) (h : finalizeConstraints st = .ok pr) :
    pr.1.conScaleNonLinear = (assignRows false 0 st.constraints).2.1 := by
  simp only [finalizeConstraints, reduceDict] at h
  split at h
  · rw [except_bind_ok] at h
    obtain ⟨lj, _, hpure⟩ := h
    simp only [pure, Except.pure, Except.ok.injEq] at hpure
    rw [← hpure]
  · simp only [pure, Except.pure, Except.ok.injEq] at h
    rw [← h]

/-- C8: given the finalized problem and a dictionary of constraint
values, `processNonlinearConstraints` fails whenever some nonlinear
constraint's name is missing from the dictionary or a supplied value's
length differs from that constraint's declared `ncon`; on a complete,
correctly sized dictionary it returns the length-`nnCon` vector in which
each nonlinear constraint's values occupy its assigned row range
`[rs, re)`, multiplied elementwise by the nonlinear scale vector. -/
theorem C8_theorem (st0 : Optimization) (pr : Optimization × Option Coo)
    (h : finalizeConstraints st0 = .ok pr)
    (hsl : ∀ p ∈ st0.constraints, p.2.scale.length = p.2.ncon)
    (hdum : pr.1.dummyConstraint = false) :
    (∀ fcon_in : List (String × XVal),
      (∃ p ∈ pr.1.constraints, p.2.linear = false ∧
        (getKey fcon_in p.1 = none ∨ ∃ cv, getKey fcon_in p.1 = some cv ∧
          (atleast1d cv).length ≠ p.2.ncon)) →
      ∃ e, processNonlinearConstraints pr.1 fcon_in true = .error e) ∧
    (∀ fcon_in : List (String × XVal),
      (∀ p ∈ pr.1.constraints, p.2.linear = false →
        ∃ cv, getKey fcon_in p.1 = some cv ∧ (atleast1d cv).length = p.2.ncon) →
      ∃ v, processNonlinearConstraints pr.1 fcon_in true = .ok v ∧
        v.length = pr.1.nnCon ∧
        ∀ p ∈ pr.1.constraints, p.2.linear = false →
          ∀ i, p.2.rs ≤ i → i < p.2.re →
            v.getD i 0 = pr.1.conScaleNonLinear.getD i 0 *
              (atleast1d ((getKey fcon_in p.1).getD
                (XVal.arr []))).getD (i - p.2.rs) 0) := by
  obtain ⟨hcons, hnn, hnl, hsum⟩ := finalizeConstraints_eq st0 pr h
  have hscl := finalizeConstraints_eq2 st0 pr h
  obtain ⟨s11, s12, s13, s14, s15⟩ := assignRows_spec false st0.constraints 0
  obtain ⟨s21, s22, s23, s24, s25⟩ := assignRows_spec true
    (assignRows false 0 st0.constraints).1
    (assignRows false 0 st0.constraints).2.2
  have hca : ConsAligned 0 pr.1.constraints := by
    rw [hcons]
    exact conAligned_assignRows_true _ 0 _
      (conAligned_assignRows_false st0.constraints 0)
  have hfiltF : pr.1.constraints.filter (fun p => decide (p.2.linear = false)) =
      (assignRows false 0 st0.constraints).1.filter
        (fun p => decide (p.2.linear = false)) := by
    rw [hcons, ← filter_lin_bridge_nt, s24, filter_lin_bridge_nt]
  have hns : nconSum pr.1.constraints = pr.1.nnCon := by
    unfold nconSum
    rw [hfiltF, assignRows_ncons false st0.constraints 0, hnn,
      filter_lin_bridge_not st0.constraints]
  have hslen : pr.1.conScaleNonLinear.length = pr.1.nnCon := by
    rw [hscl, assignRows_scales false st0.constraints 0, List.length_flatten,
      List.map_map, hnn, filter_lin_bridge_not st0.constraints]
    apply congrArg List.sum
    apply List.map_congr_left
    intro p hp
    exact hsl p (List.mem_of_mem_filter hp)
  constructor
  · intro fcon_in hbad
    obtain ⟨e, he⟩ := pncFold_err pr.1 fcon_in pr.1.constraints
      (List.replicate pr.1.nnCon 0) hbad
    refine ⟨e, ?_⟩
    simp only [processNonlinearConstraints, hdum, Bool.false_eq_true, if_false,
      if_true, he]
    rfl
  · intro fcon_in hlook
    have hrep : List.replicate pr.1.nnCon (0 : ℚ) =
        ([] : List ℚ) ++ List.replicate (pr.1.nnCon - ([] : List ℚ).length) 0 := by
      simp
    have hfold := pncFold_spec pr.1 fcon_in pr.1.nnCon pr.1.constraints []
      hca hlook (by rw [hns]; simp)
    rw [← hrep] at hfold
    have hpay : (nlPayload fcon_in pr.1.constraints).length = pr.1.nnCon := by
      rw [nlPayload_length fcon_in pr.1.constraints hlook, hns]
    have hfold2 : pncFold pr.1 fcon_in pr.1.constraints
        (List.replicate pr.1.nnCon 0) = .ok (nlPayload fcon_in pr.1.constraints) := by
      rw [hfold]
      have : pr.1.nnCon - (([] : List ℚ).length + nconSum pr.1.constraints) = 0 := by
        rw [hns]; simp
      rw [this]
      simp
    refine ⟨List.zipWith (fun a b => a * b) pr.1.conScaleNonLinear
      (nlPayload fcon_in pr.1.constraints), ?_, ?_, ?_⟩
    · simp only [processNonlinearConstraints, hdum, Bool.false_eq_true, if_false,
        if_true, hfold2]
      have hcond : pr.1.conScaleNonLinear.length =
          (nlPayload fcon_in pr.1.constraints).length := by
        rw [hslen, hpay]
      simp only [Bind.bind, Except.bind, hcond, if_pos]
    · rw [List.length_zipWith, hslen, hpay]
      exact Nat.min_self _
    · intro p hp hlin i hrs hre
      have hreb := (conAligned_re_bound pr.1.constraints 0 hca p hp hlin).2
      rw [Nat.zero_add, hns] at hreb
      have hiN : i < pr.1.nnCon := by omega
      rw [getD_zipWith_mul _ _ i (by omega) (by rw [hpay]; omega)]
      congr 1
      have hslice := nlPayload_slices fcon_in pr.1.constraints [] [] hca hlook
        p hp hlin
      simp only [List.nil_append, List.append_nil] at hslice
      have hgd := getD_sliceClamp (nlPayload fcon_in pr.1.constraints)
        p.2.rs p.2.re i hrs hre
      rw [hslice] at hgd
      exact hgd.symm

/-- C8 witness state: one design-variable set, a linear and a nonlinear
constraint registered. -/
def c8wSt : Optimization :=
  ((do
    let s1 ← runDecls (initOpt "p" true)
      [Decl.dvGroupDecl "ga" 1 "c" [0] none none none (some "a")]
    let s2 ← match finalizeDesignVariables s1 with
      | some s => Except.ok s
      | none => Except.error Err.indexErr
    let s3 ← addConGroup s2 "lin1" 1 none none [1] true (some ["a"])
      (some [("a", BlockInput.dense [[1]])])
    addConGroup s3 "nl1" 1 none none [1] false (some ["a"]) none
    : Except Err Optimization)).toOption.getD (initOpt "x" true)

/-- The pair `finalizeConstraints` returns on the C8 witness state. -/
def c8wPr : Optimization × Option Coo :=
  (finalizeConstraints c8wSt).toOption.getD (initOpt "x" true, none)

theorem C8_witness :
    (∀ fcon_in : List (String × XVal),
      (∃ p ∈ c8wPr.1.constraints, p.2.linear = false ∧
        (getKey fcon_in p.1 = none ∨ ∃ cv, getKey fcon_in p.1 = some cv ∧
          (atleast1d cv).length ≠ p.2.ncon)) →
      ∃ e, processNonlinearConstraints c8wPr.1 fcon_in true = .error e) ∧
    (∀ fcon_in : List (String × XVal),
      (∀ p ∈ c8wPr.1.constraints, p.2.linear = false →
        ∃ cv, getKey fcon_in p.1 = some cv ∧ (atleast1d cv).length = p.2.ncon) →
      ∃ v, processNonlinearConstraints c8wPr.1 fcon_in true = .ok v ∧
        v.length = c8wPr.1.nnCon ∧
        ∀ p ∈ c8wPr.1.constraints, p.2.linear = false →
          ∀ i, p.2.rs ≤ i → i < p.2.re →
            v.getD i 0 = c8wPr.1.conScaleNonLinear.getD i 0 *
              (atleast1d ((getKey fcon_in p.1).getD
                (XVal.arr []))).getD (i - p.2.rs) 0) :=
  C8_theorem c8wSt c8wPr (by rfl) (by decide) (by rfl)

theorem mem_of_getKey {α : Type} :
    ∀ (l : List (String × α)) (k : String) (v : α),
    getKey l k = some v → (k, v) ∈ l := by
  intro l
  induction l with
  | nil => intro k v h; cases h
  | cons p rest ih =>
    intro k v h
    rw [getKey_cons] at h
    by_cases he : p.1 = k
    · rw [if_pos he, Option.some.injEq] at h
      have : p = (k, v) := by
        obtain ⟨a, b⟩ := p
        simp only at he h
        rw [he, h]
      rw [← this]
      exact List.mem_cons_self _ _
    · rw [if_neg he] at h
      exact List.mem_cons_of_mem _ (ih k v h)

theorem conKeyTriples_nnz (st : Optimization) (con : Constraint)
    (sub : List (String × BlockInput)) (key : String) (templ : SpMat)
    (b : BlockInput)
    (htempl : getKey con.jac key = some templ)
    (hb : getKey sub key = some b)
    (hnnz : (blockToCsr b).nnz ≠ templ.nnz) :
    (∃ e, conKeyTriples st con sub key = .error e) ∧
    (∀ nrec, dvSetN st key = .ok nrec →
      (blockToCsr b).nrows = con.ncon →
      (blockToCsr b).ncols = nrec.hi - nrec.lo →
      conKeyTriples st con sub key = .error (.nnzMismatch con.cname)) := by
  cases hd : dvSetN st key with
  | error e =>
    constructor
    · refine ⟨e, ?_⟩
      simp only [conKeyTriples, hd, Bind.bind, Except.bind]
    · intro nrec hok
      cases hok
  | ok nrec =>
    by_cases hshape : (blockToCsr b).nrows = con.ncon ∧
        (blockToCsr b).ncols = nrec.hi - nrec.lo
    · constructor
      · refine ⟨.nnzMismatch con.cname, ?_⟩
        simp only [conKeyTriples, hd, htempl, hb, Bind.bind, Except.bind]
        rw [if_pos hshape, if_neg hnnz]
      · intro nrec2 hok _ _
        simp only [conKeyTriples, hd, htempl, hb, Bind.bind, Except.bind]
        rw [if_pos hshape, if_neg hnnz]
    · constructor
      · refine ⟨.jacWrongShape con.cname, ?_⟩
        simp only [conKeyTriples, hd, htempl, hb, Bind.bind, Except.bind]
        rw [if_neg hshape]
      · intro nrec2 hok hr hc
        rw [Except.ok.injEq] at hok
        rw [← hok] at hc
        exact absurd ⟨hr, hc⟩ hshape

theorem conKeysFold_err (st : Optimization) (con : Constraint)
    (sub : List (String × BlockInput)) :
    ∀ ks : List String,
    (∃ k ∈ ks, ∃ e, conKeyTriples st con sub k = .error e) →
    ∃ e, conKeysFold st con sub ks = .error e := by
  intro ks
  induction ks with
  | nil => intro h; obtain ⟨k, hk, _⟩ := h; cases hk
  | cons k rest ih =>
    intro h
    cases hk : conKeyTriples st con sub k with
    | error e =>
      refine ⟨e, ?_⟩
      simp only [conKeysFold, hk, Bind.bind, Except.bind]
    | ok t =>
      have hrest : ∃ k2 ∈ rest, ∃ e, conKeyTriples st con sub k2 = .error e := by
        obtain ⟨k2, hk2, e, he⟩ := h
        cases hk2 with
        | head =>
          rw [hk] at he
          cases he
        | tail _ hk2 => exact ⟨k2, hk2, e, he⟩
      obtain ⟨e, he⟩ := ih hrest
      refine ⟨e, ?_⟩
      simp only [conKeysFold, hk, he, Bind.bind, Except.bind]

theorem conTriples_err (st : Optimization)
    (d : List (String × List (String × BlockInput))) (iCon : String)
    (con : Constraint) (sub : List (String × BlockInput))
    (hsub : getKey d iCon = some sub)
    (hbad : ∃ k ∈ con.wrt, ∃ e, conKeyTriples st con sub k = .error e) :
    ∃ e, conTriples st d iCon con = .error e := by
  by_cases hhk : hasKey d con.cname
  · cases hf : (if !con.partRetOk then con.jac.find? (fun p => !(hasKey sub p.1))
        else none) with
    | some p =>
      refine ⟨.missingDvSetJac con.cname p.1, ?_⟩
      simp only [conTriples, hhk, Bool.not_true, Bool.false_eq_true, if_false,
        hsub, hf]
    | none =>
      obtain ⟨e, he⟩ := conKeysFold_err st con sub con.wrt hbad
      refine ⟨e, ?_⟩
      simp only [conTriples, hhk, Bool.not_true, Bool.false_eq_true, if_false,
        hsub, hf, he]
  · refine ⟨.missingConJac con.cname, ?_⟩
    have hhk2 : hasKey d con.cname = false := by
      cases hv : hasKey d con.cname
      · rfl
      · exact absurd hv hhk
    simp only [conTriples, hhk2, Bool.not_false, if_true]

theorem consFold_err (st : Optimization)
    (d : List (String × List (String × BlockInput))) (flag : Bool) :
    ∀ cons : List (String × Constraint),
    (∃ p ∈ cons, p.2.linear = flag ∧ ∃ e, conTriples st d p.1 p.2 = .error e) →
    ∃ e, consFold st d flag cons = .error e := by
  intro cons
  induction cons with
  | nil => intro h; obtain ⟨p, hp, _⟩ := h; cases hp
  | cons q rest ih =>
    intro h
    obtain ⟨k2, con2⟩ := q
    by_cases hflag : con2.linear = flag
    · cases ht : conTriples st d k2 con2 with
      | error e =>
        refine ⟨e, ?_⟩
        simp only [consFold]
        rw [if_pos hflag]
        simp only [ht, Bind.bind, Except.bind]
      | ok t =>
        have hrest : ∃ p ∈ rest, p.2.linear = flag ∧
            ∃ e, conTriples st d p.1 p.2 = .error e := by
          obtain ⟨p, hp, hpl, e, he⟩ := h
          cases hp with
          | head =>
            rw [show conTriples st d (k2, con2).1 (k2, con2).2 =
              conTriples st d k2 con2 from rfl, ht] at he
            cases he
          | tail _ hp => exact ⟨p, hp, hpl, e, he⟩
        obtain ⟨e, he⟩ := ih hrest
        refine ⟨e, ?_⟩
        simp only [consFold]
        rw [if_pos hflag]
        simp only [ht, he, Bind.bind, Except.bind]
    · have hrest : ∃ p ∈ rest, p.2.linear = flag ∧
          ∃ e, conTriples st d p.1 p.2 = .error e := by
        obtain ⟨p, hp, hpl, e, he⟩ := h
        cases hp with
        | head => exact absurd hpl hflag
        | tail _ hp => exact ⟨p, hp, hpl, e, he⟩
      obtain ⟨e, he⟩ := ih hrest
      refine ⟨e, ?_⟩
      simp only [consFold]
      rw [if_neg hflag]
      exact he

theorem processDictJac_err (st : Optimization) (shp : Nat × Nat)
    (conScale : List ℚ) (d : List (String × List (String × BlockInput)))
    (flag : Bool)
    (h : ∃ e, consFold st d flag st.constraints = .error e) :
    ∃ e, processDictJac st shp conScale d flag = .error e := by
  obtain ⟨e, he⟩ := h
  refine ⟨e, ?_⟩
  simp only [processDictJac, he, Bind.bind, Except.bind]

/-- C2: a dictionary submission holding, for some constraint of the
processed partition and some `wrt` set of that constraint, a block whose
nonzero count differs from the stored declaration template's always makes
`processConstraintJacobian` fail, whatever numeric values the block
carries; when the block's shape matches (so the per-key check reaches the
nonzero-count comparison), the per-key processing raises exactly the
Sparsity-Violation error `nnzMismatch` for that constraint. -/
theorem C2_theorem (st : Optimization)
    (d : List (String × List (String × BlockInput))) (linearFlag : Bool)
    (iCon : String) (con : Constraint) (sub : List (String × BlockInput))
    (key : String) (templ : SpMat) (b : BlockInput)
    (hnc : ¬ st.nCon = 0)
    (hmem : (iCon, con) ∈ st.constraints)
    (hflag : con.linear = linearFlag)
    (hkey : key ∈ con.wrt)
    (htempl : getKey con.jac key = some templ)
    (hsub : getKey d iCon = some sub)
    (hb : getKey sub key = some b)
    (hnnz : (blockToCsr b).nnz ≠ templ.nnz) :
    (∃ e, processConstraintJacobian st (.dict d) linearFlag = .error e) ∧
    (∀ nrec, dvSetN st key = .ok nrec →
      (blockToCsr b).nrows = con.ncon →
      (blockToCsr b).ncols = nrec.hi - nrec.lo →
      conKeyTriples st con sub key = .error (.nnzMismatch con.cname)) := by
  obtain ⟨hkt, hprecise⟩ := conKeyTriples_nnz st con sub key templ b htempl hb hnnz
  refine ⟨?_, hprecise⟩
  have hcf : ∃ e, consFold st d linearFlag st.constraints = .error e := by
    apply consFold_err
    exact ⟨(iCon, con), hmem, hflag,
      conTriples_err st d iCon con sub hsub ⟨key, hkey, hkt⟩⟩
  obtain ⟨e, he⟩ := processDictJac_err st
    (if linearFlag then (st.nlCon, st.ndvs) else (st.nnCon, st.ndvs))
    (if linearFlag then st.conScaleLinear else st.conScaleNonLinear)
    d linearFlag hcf
  refine ⟨e, ?_⟩
  simp only [processConstraintJacobian]
  rw [if_neg hnc]
  exact he

/-- C2 witness state: one variable set, one nonlinear constraint declared
with an explicit one-entry jacobian template, finalized. -/
def c2wSt : Optimization :=
  ((do
    let s1 ← runDecls (initOpt "p" true)
      [Decl.dvGroupDecl "ga" 1 "c" [0] none none none (some "a")]
    let s2 ← match finalizeDesignVariables s1 with
      | some s => Except.ok s
      | none => Except.error Err.indexErr
    let s3 ← addConGroup s2 "c1" 1 none none [1] false (some ["a"])
      (some [("a", BlockInput.dense [[1]])])
    let p ← finalizeConstraints s3
    Except.ok p.1 : Except Err Optimization)).toOption.getD (initOpt "x" true)

/-- The constraint record the witness state stores for `"c1"`. -/
def c2wCon : Constraint :=
  (getKey c2wSt.constraints "c1").getD ⟨"", false, [], [], false, [], [], [], 0, 0, 0⟩

/-- The declaration template the witness constraint stores for set `"a"`. -/
def c2wTempl : SpMat := (getKey c2wCon.jac "a").getD ⟨0, 0, []⟩

/-- The resubmitted per-set block: right shape, zero stored entries where
the template stores one. -/
def c2wSub : List (String × BlockInput) := [("a", BlockInput.sp ⟨1, 1, [[]]⟩)]

/-- The resubmitted dictionary. -/
def c2wD : List (String × List (String × BlockInput)) := [("c1", c2wSub)]

theorem C2_witness :
    (∃ e, processConstraintJacobian c2wSt (.dict c2wD) false = .error e) ∧
    (∀ nrec, dvSetN c2wSt "a" = .ok nrec →
      (blockToCsr (BlockInput.sp ⟨1, 1, [[]]⟩)).nrows = c2wCon.ncon →
      (blockToCsr (BlockInput.sp ⟨1, 1, [[]]⟩)).ncols = nrec.hi - nrec.lo →
      conKeyTriples c2wSt c2wCon c2wSub "a" =
        .error (.nnzMismatch c2wCon.cname)) :=
  C2_theorem c2wSt c2wD false "c1" c2wCon c2wSub "a" c2wTempl
    (BlockInput.sp ⟨1, 1, [[]]⟩)
    (by decide) (mem_of_getKey _ _ _ (by rfl)) (by decide) (by decide)
    (by rfl) (by rfl) (by rfl) (by decide)

theorem getKey_delKey_ne {α : Type} :
    ∀ (l : List (String × α)) (k0 k : String), k ≠ k0 →
    getKey (delKey l k0) k = getKey l k := by
  intro l
  induction l with
  | nil => intro k0 k _; rfl
  | cons p rest ih =>
    intro k0 k hne
    unfold delKey
    rw [List.filter_cons]
    by_cases hp : p.1 = k0
    · rw [if_neg (by simp [hp]), getKey_cons, if_neg (by rw [hp]; exact hne.symm)]
      exact ih k0 k hne
    · rw [if_pos (by simp [hp]), getKey_cons, getKey_cons]
      by_cases hpk : p.1 = k
      · rw [if_pos hpk, if_pos hpk]
      · rw [if_neg hpk, if_neg hpk]
        exact ih k0 k hne

theorem getKey_map_snd {α β : Type} (f : α → β) :
    ∀ (l : List (String × α)) (k : String),
    getKey (l.map (fun p => (p.1, f p.2))) k = (getKey l k).map f := by
  intro l
  induction l with
  | nil => intro k; rfl
  | cons p rest ih =>
    intro k
    rw [List.map_cons, getKey_cons, getKey_cons]
    by_cases hpk : p.1 = k
    · rw [if_pos hpk, if_pos hpk]
      rfl
    · rw [if_neg hpk, if_neg hpk]
      exact ih k

theorem enumFrom_mem_facts {α : Type} :
    ∀ (l : List α) (n : Nat) (p : Nat × α), p ∈ l.enumFrom n →
    n ≤ p.1 ∧ p.1 < n + l.length ∧ p.2 ∈ l := by
  intro l
  induction l with
  | nil => intro n p hp; cases hp
  | cons x rest ih =>
    intro n p hp
    rw [List.enumFrom] at hp
    cases hp with
    | head => exact ⟨le_refl _, by simp, List.mem_cons_self _ _⟩
    | tail _ hp =>
      obtain ⟨h1, h2, h3⟩ := ih (n + 1) p hp
      exact ⟨by omega, by simp only [List.length_cons]; omega,
        List.mem_cons_of_mem _ h3⟩

theorem flatData_mem (m : SpMat) (v : ℚ) (h : v ∈ m.flatData) :
    ∃ r ∈ m.rowsData, ∃ e ∈ r, (e : Nat × ℚ).2 = v := by
  unfold SpMat.flatData at h
  rw [List.mem_flatten] at h
  obtain ⟨r2, hr2, hv⟩ := h
  rw [List.mem_map] at hr2
  obtain ⟨r, hr, hrr⟩ := hr2
  rw [← hrr, List.mem_map] at hv
  obtain ⟨e, he, hev⟩ := hv
  exact ⟨r, hr, e, he, hev⟩

theorem flatData_csrFromDense_ne_zero (m : List (List ℚ)) :
    ∀ v ∈ (csrFromDense m).flatData, v ≠ 0 := by
  intro v hv
  obtain ⟨r, hr, e, he, hev⟩ := flatData_mem _ v hv
  unfold csrFromDense at hr
  simp only [List.mem_map] at hr
  obtain ⟨row, _, hrow⟩ := hr
  rw [← hrow] at he
  rw [List.mem_filter] at he
  have := of_decide_eq_true he.2
  rw [hev] at this
  exact this

theorem getD_mem_of_lt (l : List ℚ) (i : Nat) (h : i < l.length) :
    l.getD i 0 ∈ l := by
  rw [List.getD_eq_getElem l 0 h]
  exact List.getElem_mem h

theorem flatData_csrRowScale_ne_zero (m : SpMat) (vec : List ℚ)
    (hm : ∀ v ∈ m.flatData, v ≠ 0)
    (hlen : m.rowsData.length ≤ vec.length)
    (hvec : ∀ s ∈ vec, s ≠ 0) :
    ∀ v ∈ (csrRowScale m vec).flatData, v ≠ 0 := by
  intro v hv
  obtain ⟨r, hr, e, he, hev⟩ := flatData_mem _ v hv
  unfold csrRowScale at hr
  simp only [List.mem_map] at hr
  obtain ⟨p, hp, hpr⟩ := hr
  rw [← hpr, List.mem_map] at he
  obtain ⟨e0, he0, hee⟩ := he
  obtain ⟨_, hplt, hpmem⟩ := enumFrom_mem_facts m.rowsData 0 p hp
  rw [Nat.zero_add] at hplt
  have hv0 : e0.2 ≠ 0 := by
    apply hm
    unfold SpMat.flatData
    rw [List.mem_flatten]
    exact ⟨p.2.map Prod.snd, List.mem_map.mpr ⟨p.2, hpmem, rfl⟩,
      List.mem_map.mpr ⟨e0, he0, rfl⟩⟩
  have hs : vec.getD p.1 0 ≠ 0 := hvec _ (getD_mem_of_lt vec p.1 (by omega))
  rw [← hev, ← hee]
  exact mul_ne_zero hv0 hs

theorem broadcast_ok_length (v : List ℚ) (n : Nat) (w : String) (out : List ℚ)
    (h : broadcast v n w = .ok out) : out.length = n := by
  unfold broadcast at h
  by_cases h1 : v.length = 1
  · rw [if_pos h1, Except.ok.injEq] at h
    rw [← h, List.length_replicate]
  · rw [if_neg h1] at h
    by_cases h2 : v.length = n
    · rw [if_pos h2, Except.ok.injEq] at h
      rw [← h, h2]
    · rw [if_neg h2] at h
      cases h

theorem buildJacExplicit_lookup (st : Optimization) (conName : String)
    (nCon : Nat) :
    ∀ (ws : List String) (tmp : List (String × BlockInput))
      (out : List (String × SpMat)),
    buildJacExplicit st conName nCon ws tmp = .ok out →
    ws.Nodup →
    ∀ dvSet b, dvSet ∈ ws → getKey tmp dvSet = some b →
    getKey out dvSet = some (blockToCsr b) ∧ (blockShape b).1 = nCon := by
  intro ws
  induction ws with
  | nil => intro tmp out _ _ dvSet b hmem; cases hmem
  | cons d0 rest ih =>
    intro tmp out h hnd dvSet b hmem hget
    rw [show buildJacExplicit st conName nCon (d0 :: rest) tmp =
        (dvSetN st d0 >>= fun nrec =>
          if blockShape (match getKey tmp d0 with
              | some b => b
              | none => BlockInput.sp (zeroPlaceholder nCon (nrec.hi - nrec.lo)))
            = (nCon, nrec.hi - nrec.lo) then
            (buildJacExplicit st conName nCon rest (delKey tmp d0) >>= fun tl =>
              .ok ((d0, blockToCsr (match getKey tmp d0 with
                | some b => b
                | none => BlockInput.sp (zeroPlaceholder nCon
                    (nrec.hi - nrec.lo)))) :: tl))
          else .error (.jacWrongSize d0 conName)) from rfl] at h
    rw [except_bind_ok] at h
    obtain ⟨nrec, hnrec, h⟩ := h
    split at h
    · rw [except_bind_ok] at h
      obtain ⟨tl, htl, hok⟩ := h
      rw [Except.ok.injEq] at hok
      rw [List.nodup_cons] at hnd
      cases hmem with
      | head =>
        rw [hget] at hok
        rw [← hok, getKey_cons, if_pos rfl]
        constructor
        · rfl
        · rename_i hshape
          rw [hget] at hshape
          have hs2 : blockShape b = (nCon, nrec.hi - nrec.lo) := hshape
          rw [hs2]
      | tail _ hmem =>
        have hne : dvSet ≠ d0 := fun he => hnd.1 (he ▸ hmem)
        have hget2 : getKey (delKey tmp d0) dvSet = some b := by
          rw [getKey_delKey_ne tmp d0 dvSet hne]
          exact hget
        have := ih (delKey tmp d0) tl htl hnd.2 dvSet b hmem hget2
        rw [← hok, getKey_cons, if_neg (fun he => hne he.symm)]
        exact this
    · cases h

theorem addConGroup_explicit_eq (st : Optimization) (name : String) (nCon : Nat)
    (lower upper : Option (List ℚ)) (scaleIn : List ℚ) (linear : Bool)
    (wrtIn : Option (List String)) (jacIn : List (String × BlockInput))
    (st' : Optimization)
    (h : addConGroup st name nCon lower upper scaleIn linear wrtIn (some jacIn)
      = .ok st') :
    ∃ (scale : List ℚ) (out : List (String × SpMat)) (con : Constraint),
      broadcast scaleIn nCon "scale" = .ok scale ∧
      buildJacExplicit { st with conGroupNames := st.conGroupNames ++ [name] }
        name nCon con.wrt jacIn = .ok out ∧
      getKey st'.constraints name = some con ∧
      con.scale = scale ∧
      con.jac = out.map (fun p => (p.1, csrRowScale p.2 scale)) := by
  simp only [addConGroup] at h
  split at h
  · cases h
  · split at h
    · cases h
    · rw [except_bind_ok] at h
      obtain ⟨lo, hlo, h⟩ := h
      rw [except_bind_ok] at h
      obtain ⟨up, hup, h⟩ := h
      rw [except_bind_ok] at h
      obtain ⟨scale, hscale, h⟩ := h
      rw [except_bind_ok] at h
      obtain ⟨u, hu, h⟩ := h
      rw [except_bind_ok] at h
      obtain ⟨starts, hstarts, h⟩ := h
      rw [except_bind_ok] at h
      obtain ⟨jacPair, hjac, h⟩ := h
      rw [Except.ok.injEq] at h
      rw [show buildJac { st with conGroupNames := st.conGroupNames ++ [name] }
          name nCon linear ((starts.insertionSort tupleLe).map Prod.snd)
          (some jacIn) =
        (buildJacExplicit { st with conGroupNames := st.conGroupNames ++ [name] }
          name nCon ((starts.insertionSort tupleLe).map Prod.snd) jacIn >>=
          fun j => .ok (j, false)) from rfl] at hjac
      rw [except_bind_ok] at hjac
      obtain ⟨out, hout, hpair⟩ := hjac
      rw [Except.ok.injEq] at hpair
      refine ⟨scale, out,
        ⟨name, linear, (starts.insertionSort tupleLe).map Prod.snd,
         jacPair.1.map (fun p => (p.1, csrRowScale p.2 scale)), jacPair.2,
         List.zipWith (fun a b => a * b) lo scale,
         List.zipWith (fun a b => a * b) up scale, scale, nCon, 0, 0⟩,
        hscale, ?_, ?_, rfl, ?_⟩
      · exact hout
      · rw [← h]
        exact getKey_setKey _ _ _
      · rw [← hpair]

/-- C7 (amended): every block **given dense** in the `jac` argument of a
successful `addConGroup` is stored with every numerically zero entry
replaced by the tiny sentinel before the csr conversion, so (for nonzero
row scales) the stored compressed block carries no zero data value.
Sparse-given blocks are converted with `tocsr()` unchanged and keep any
explicitly stored zeros — see the counterexample. -/
theorem getKey_map_csrRowScale (scale : List ℚ) :
    ∀ (l : List (String × SpMat)) (k : String),
    getKey (l.map (fun p => (p.1, csrRowScale p.2 scale))) k =
      (getKey l k).map (fun b => csrRowScale b scale) := by
  intro l
  induction l with
  | nil => intro k; rfl
  | cons p rest ih =>
    intro k
    rw [List.map_cons, getKey_cons, getKey_cons]
    by_cases hpk : p.1 = k
    · rw [if_pos hpk, if_pos hpk]
      rfl
    · rw [if_neg hpk, if_neg hpk]
      exact ih k

theorem C7_theorem (st : Optimization) (name : String) (nCon : Nat)
    (lower upper : Option (List ℚ)) (scaleIn : List ℚ) (linear : Bool)
    (wrtIn : Option (List String)) (jacIn : List (String × BlockInput))
    (st' : Optimization)
    (h : addConGroup st name nCon lower upper scaleIn linear wrtIn (some jacIn)
      = .ok st') :
    ∃ con, getKey st'.constraints name = some con ∧
      con.scale.length = nCon ∧
      (con.wrt.Nodup →
        ∀ dvSet m, dvSet ∈ con.wrt →
          getKey jacIn dvSet = some (BlockInput.dense m) →
          getKey con.jac dvSet =
            some (csrRowScale (csrFromDense (replaceZeros m)) con.scale) ∧
          ((∀ s ∈ con.scale, s ≠ 0) →
            ∀ v, v ∈ (csrRowScale (csrFromDense (replaceZeros m))
              con.scale).flatData → v ≠ 0)) := by
  obtain ⟨scale, out, con, hscale, hout, hget, hcs, hcj⟩ :=
    addConGroup_explicit_eq st name nCon lower upper scaleIn linear wrtIn
      jacIn st' h
  have hslen : con.scale.length = nCon := by
    rw [hcs]
    exact broadcast_ok_length _ _ _ _ hscale
  refine ⟨con, hget, hslen, ?_⟩
  intro hnd dvSet m hmem hsubm
  obtain ⟨hlook, hshp⟩ := buildJacExplicit_lookup
    { st with conGroupNames := st.conGroupNames ++ [name] } name nCon con.wrt
    jacIn out hout hnd dvSet (BlockInput.dense m) hmem hsubm
  have hmlen : m.length = nCon := hshp
  constructor
  · rw [hcj, getKey_map_csrRowScale, hlook, hcs]
    rfl
  · intro hsnz v hv
    refine flatData_csrRowScale_ne_zero (csrFromDense (replaceZeros m))
      con.scale (flatData_csrFromDense_ne_zero _) ?_ hsnz v hv
    have hrl : (csrFromDense (replaceZeros m)).rowsData.length = m.length := by
      unfold csrFromDense replaceZeros
      rw [List.length_map, List.length_map]
    rw [hrl, hmlen, hslen]

/-- C7 counterexample state: `addConGroup` with an explicitly supplied
**sparse** block that stores a zero at its single structurally nonzero
position. -/
def c7state : Optimization :=
  ((do
    let s1 ← runDecls (initOpt "p" true)
      [Decl.dvGroupDecl "ga" 1 "c" [0] none none none (some "a")]
    let s2 ← match finalizeDesignVariables s1 with
      | some s => Except.ok s
      | none => Except.error Err.indexErr
    addConGroup s2 "c1" 1 none none [1] false (some ["a"])
      (some [("a", BlockInput.sp ⟨1, 1, [[(0, 0)]]⟩)])
    : Except Err Optimization)).toOption.getD (initOpt "x" true)

/-- C7 counterexample: the sparse-supplied block is stored through
`tocsr()` with **no** zero replacement — the stored compressed block for
`(c1, a)` keeps the explicitly stored value `0 * 1 = 0` at its one
structurally nonzero position, so the claim fails for sparse-given
blocks (the `1e-50` substitution at line 659 runs only in the dense
branch). -/
theorem C7_counterexample :
    getKey ((getKey c7state.constraints "c1").getD
      ⟨"", false, [], [], false, [], [], [], 0, 0, 0⟩).jac "a" =
      some ⟨1, 1, [[(0, (0 : ℚ) * 1)]]⟩ ∧ (0 : ℚ) * 1 = 0 :=
  ⟨by rfl, by norm_num⟩

/-- C7 witness pre-state: finalized design variables, no constraints yet. -/
def c7wPre : Optimization :=
  ((do
    let s1 ← runDecls (initOpt "p" true)
      [Decl.dvGroupDecl "ga" 1 "c" [0] none none none (some "a")]
    match finalizeDesignVariables s1 with
    | some s => Except.ok s
    | none => Except.error Err.indexErr
    : Except Err Optimization)).toOption.getD (initOpt "x" true)

/-- C7 witness post-state: a dense block containing a zero is supplied. -/
def c7wSt : Optimization :=
  (addConGroup c7wPre "c1" 1 none none [1] false (some ["a"])
    (some [("a", BlockInput.dense [[0]])])).toOption.getD (initOpt "x" true)

theorem C7_witness :
    ∃ con, getKey c7wSt.constraints "c1" = some con ∧
      con.scale.length = 1 ∧
      (con.wrt.Nodup →
        ∀ dvSet m, dvSet ∈ con.wrt →
          getKey [("a", BlockInput.dense [[0]])] dvSet =
            some (BlockInput.dense m) →
          getKey con.jac dvSet =
            some (csrRowScale (csrFromDense (replaceZeros m)) con.scale) ∧
          ((∀ s ∈ con.scale, s ≠ 0) →
            ∀ v, v ∈ (csrRowScale (csrFromDense (replaceZeros m))
              con.scale).flatData → v ≠ 0)) :=
  C7_theorem c7wPre "c1" 1 none none [1] false (some ["a"])
    [("a", BlockInput.dense [[0]])] c7wSt (by rfl)

theorem div_entries_ne_zero (xscale : List ℚ) (row : List ℚ)
    (hrow : ∀ v ∈ row, v ≠ 0) (hlen : row.length ≤ xscale.length)
    (hxnz : ∀ q ∈ xscale, q ≠ 0) :
    ∀ v ∈ row.enum.map (fun e => e.2 / xscale.getD e.1 0), v ≠ 0 := by
  intro v hv
  rw [List.mem_map] at hv
  obtain ⟨e, he, hev⟩ := hv
  obtain ⟨_, hlt, hmem⟩ := enumFrom_mem_facts row 0 e he
  rw [Nat.zero_add] at hlt
  have h1 : e.2 ≠ 0 := hrow e.2 hmem
  have h2 : xscale.getD e.1 0 ≠ 0 :=
    hxnz _ (getD_mem_of_lt xscale e.1 (by omega))
  rw [← hev]
  exact div_ne_zero h1 h2

theorem replaceZeros_ne_zero (m : List (List ℚ)) :
    ∀ r ∈ replaceZeros m, ∀ v ∈ r, v ≠ 0 := by
  intro r hr v hv
  unfold replaceZeros at hr
  rw [List.mem_map] at hr
  obtain ⟨r0, _, hr0⟩ := hr
  rw [← hr0, List.mem_map] at hv
  obtain ⟨v0, _, hv0⟩ := hv
  rw [← hv0]
  by_cases hz : v0 = 0
  · rw [if_pos hz]
    unfold tiny
    norm_num
  · rw [if_neg hz]
    exact hz

theorem processDenseJac_ok2 (st : Optimization) (shp : Nat × Nat)
    (conScale : List ℚ) (m : List (List ℚ))
    (hshape : denseShape m = shp)
    (hok : st.denseJacobianOK = true)
    (hx : st.ndvs ≤ st.xscale.length)
    (hrows : ∀ r ∈ m, r.length ≤ st.xscale.length)
    (hxnz : ∀ q ∈ st.xscale, q ≠ 0)
    (hcs : conScale.length = m.length) :
    processDenseJac st shp conScale m = .ok
      ⟨m.length,
       (((replaceZeros m).map (fun r => r.enum.map
         (fun e => e.2 / st.xscale.getD e.1 0))).headD []).length,
       (((replaceZeros m).map (fun r => r.enum.map
           (fun e => e.2 / st.xscale.getD e.1 0))).enum.map
         (fun p => p.2.enum.map (fun e =>
           (p.1, e.1, e.2 * conScale.getD p.1 0)))).flatten⟩ := by
  have hg2nz : ∀ r ∈ (replaceZeros m).map (fun r => r.enum.map
      (fun e => e.2 / st.xscale.getD e.1 0)), ∀ v ∈ r, v ≠ 0 := by
    intro r hr
    rw [List.mem_map] at hr
    obtain ⟨r0, hr0, hrr⟩ := hr
    rw [← hrr]
    apply div_entries_ne_zero st.xscale r0
      (replaceZeros_ne_zero m r0 hr0) ?_ hxnz
    have : r0.length ≤ st.xscale.length := by
      unfold replaceZeros at hr0
      rw [List.mem_map] at hr0
      obtain ⟨r1, hr1, he⟩ := hr0
      rw [← he, List.length_map]
      exact hrows r1 hr1
    exact this
  have hfd : cooFromDense ((replaceZeros m).map (fun r => r.enum.map
      (fun e => e.2 / st.xscale.getD e.1 0))) =
    ⟨m.length,
     (((replaceZeros m).map (fun r => r.enum.map
       (fun e => e.2 / st.xscale.getD e.1 0))).headD []).length,
     (((replaceZeros m).map (fun r => r.enum.map
         (fun e => e.2 / st.xscale.getD e.1 0))).enum.map
       (fun p => p.2.enum.map (fun e => (p.1, e.1, e.2)))).flatten⟩ := by
    unfold cooFromDense
    congr 1
    · rw [List.length_map]
      unfold replaceZeros
      rw [List.length_map]
    · apply congrArg List.flatten
      apply List.map_congr_left
      intro p hp
      have hpmem : p.2 ∈ (replaceZeros m).map (fun r => r.enum.map
          (fun e => e.2 / st.xscale.getD e.1 0)) :=
        (enumFrom_mem_facts _ 0 p hp).2.2
      have hfil : p.2.enum.filter (fun e => decide (e.2 ≠ 0)) = p.2.enum := by
        apply List.filter_eq_self.mpr
        intro e he
        apply decide_eq_true
        exact hg2nz p.2 hpmem e.2 (enumFrom_mem_facts _ 0 e he).2.2
      rw [hfil]
  simp only [processDenseJac, hshape, hok, if_true, reduceIte]
  rw [if_pos hx, hfd]
  unfold cooRowScale
  rw [if_pos (by rw [hcs])]
  apply congrArg Except.ok
  congr 1
  rw [List.map_flatten]
  apply congrArg List.flatten
  rw [List.map_map]
  apply List.map_congr_left
  intro p _
  rw [Function.comp_apply, List.map_map]
  apply List.map_congr_left
  intro e _
  rfl

theorem zip_map_same {α β γ : Type} (f : α → β) (g : α → γ) :
    ∀ l : List α, (l.map f).zip (l.map g) = l.map (fun x => (f x, g x)) := by
  intro l
  induction l with
  | nil => rfl
  | cons a t ih =>
    rw [List.map_cons, List.map_cons, List.zip_cons_cons, ih, List.map_cons]

theorem zip_flatten_same {α β γ : Type} (f : γ → List α) (g : γ → List β) :
    ∀ L : List γ, (∀ x ∈ L, (f x).length = (g x).length) →
    ((L.map f).flatten).zip ((L.map g).flatten) =
      (L.map (fun x => (f x).zip (g x))).flatten := by
  intro L
  induction L with
  | nil => intro _; rfl
  | cons a t ih =>
    intro hlen
    rw [List.map_cons, List.map_cons, List.flatten_cons, List.flatten_cons,
      List.zip_append (hlen a (List.mem_cons_self _ _)),
      ih (fun x hx => hlen x (List.mem_cons_of_mem _ hx)),
      List.map_cons, List.flatten_cons]

theorem enumFrom_enumFrom {α : Type} :
    ∀ (l : List α) (n : Nat),
    (l.enumFrom n).enumFrom n = (l.enumFrom n).map (fun e => (e.1, e)) := by
  intro l
  induction l with
  | nil => intro n; rfl
  | cons a t ih =>
    intro n
    rw [List.enumFrom, List.enumFrom, List.map_cons, ih (n + 1)]

theorem csrFromDense_rowsData_of_ne_zero (m : List (List ℚ))
    (hnz : ∀ r ∈ m, ∀ v ∈ r, v ≠ 0) :
    (csrFromDense m).rowsData = m.map List.enum := by
  unfold csrFromDense
  apply List.map_congr_left
  intro r hr
  apply List.filter_eq_self.mpr
  intro e he
  apply decide_eq_true
  exact hnz r hr e.2 (enumFrom_mem_facts r 0 e he).2.2

theorem mem_linearEntries_bounds (m : List (List ℚ))
    (hnz : ∀ r ∈ m, ∀ v ∈ r, v ≠ 0) :
    ∀ q ∈ (csrFromDense m).linearEntries,
      q.1 < m.length ∧ ∃ r ∈ m, q.2 < r.length := by
  intro q hq
  unfold SpMat.linearEntries at hq
  rw [csrFromDense_rowsData_of_ne_zero m hnz] at hq
  rw [List.mem_flatten] at hq
  obtain ⟨row, hrow, hqrow⟩ := hq
  rw [List.mem_map] at hrow
  obtain ⟨p, hp, hpr⟩ := hrow
  obtain ⟨_, hplt, hpmem⟩ := enumFrom_mem_facts _ 0 p hp
  rw [Nat.zero_add, List.length_map] at hplt
  rw [← hpr, List.mem_map] at hqrow
  obtain ⟨e, he, heq⟩ := hqrow
  rw [List.mem_map] at hpmem
  obtain ⟨r0, hr0, hr0e⟩ := hpmem
  rw [← hr0e] at he
  obtain ⟨_, helt, _⟩ := enumFrom_mem_facts r0 0 e he
  rw [Nat.zero_add] at helt
  constructor
  · rw [← heq]
    exact hplt
  · exact ⟨r0, hr0, by rw [← heq]; exact helt⟩

/-- C6 counterexample state: two design variables in one set, one
nonlinear constraint declared with an explicit sparse template storing a
single position `(0, 0)` out of the `1 × 2` block. -/
def c6state : Optimization :=
  ((do
    let s1 ← runDecls (initOpt "p" true)
      [Decl.dvGroupDecl "ga" 2 "c" [0, 0] none none none (some "a")]
    let s2 ← match finalizeDesignVariables s1 with
      | some s => Except.ok s
      | none => Except.error Err.indexErr
    let s3 ← addConGroup s2 "c1" 1 none none [1] false (some ["a"])
      (some [("a", BlockInput.sp ⟨1, 2, [[(0, 7)]]⟩)])
    let p ← finalizeConstraints s3
    Except.ok p.1 : Except Err Optimization)).toOption.getD (initOpt "x" true)

/-- The dictionary submission carrying the same numeric values as the
dense array `[[7, 0]]`: the template's one stored position holds `7`. -/
def c6dict : List (String × List (String × BlockInput)) :=
  [("c1", [("a", BlockInput.sp ⟨1, 2, [[(0, 7)]]⟩)])]

/-- C6 counterexample: a dense return is legal (`denseJacobianOK`) and the
submitted values respect the declared template — the dense array `[[7, 0]]`
is zero away from the template's single stored position and carries the
same `7` there as the dictionary block — yet the dense submission
assembles **two** entries (the off-template zero is turned into the tiny
sentinel and kept) while the dictionary submission assembles one, so the
two scaled sparse matrices are different multisets. -/
theorem C6_counterexample :
    ∃ cD cS,
      processConstraintJacobian c6state (GconArg.arr [[7, 0]]) false = .ok cD ∧
      processConstraintJacobian c6state (GconArg.dict c6dict) false = .ok cS ∧
      cD.entries.length = 2 ∧ cS.entries.length = 1 ∧
      ([[(7 : ℚ), 0]].getD 0 []).getD 1 0 = 0 ∧
      (cD.entries : Multiset (Nat × Nat × ℚ)) ≠
        (cS.entries : Multiset (Nat × Nat × ℚ)) := by
  have hdense : processConstraintJacobian c6state (GconArg.arr [[7, 0]]) false
      = .ok
      ⟨([[(7 : ℚ), 0]] : List (List ℚ)).length,
       (((replaceZeros [[7, 0]]).map (fun r => r.enum.map
         (fun e => e.2 / c6state.xscale.getD e.1 0))).headD []).length,
       (((replaceZeros [[7, 0]]).map (fun r => r.enum.map
           (fun e => e.2 / c6state.xscale.getD e.1 0))).enum.map
         (fun p => p.2.enum.map (fun e =>
           (p.1, e.1, e.2 * c6state.conScaleNonLinear.getD p.1 0)))).flatten⟩ := by
    simp only [processConstraintJacobian]
    rw [if_neg (by decide)]
    exact processDenseJac_ok2 c6state (c6state.nnCon, c6state.ndvs)
      c6state.conScaleNonLinear [[7, 0]] (by decide) (by decide) (by decide)
      (by decide) (by decide) (by decide)
  have hdict : (processConstraintJacobian c6state (GconArg.dict c6dict)
      false).toOption.map (fun c => c.entries.length) = some 1 := by decide
  cases hres : processConstraintJacobian c6state (GconArg.dict c6dict) false with
  | error e =>
    rw [hres] at hdict
    cases hdict
  | ok cS =>
    rw [hres] at hdict
    replace hdict : cS.entries.length = 1 := by
      have h0 : (Except.ok cS : Except Err Coo).toOption = some cS := rfl
      rw [h0] at hdict
      simpa using hdict
    refine ⟨_, cS, hdense, rfl, by decide, hdict, by decide, ?_⟩
    intro heq
    have hcard := congrArg Multiset.card heq
    rw [Multiset.coe_card, Multiset.coe_card, hdict] at hcard
    have h2 : (((replaceZeros ([[7, 0]] : List (List ℚ))).map
        (fun r => r.enum.map
          (fun e => e.2 / c6state.xscale.getD e.1 0))).enum.map
        (fun p => p.2.enum.map (fun e =>
          (p.1, e.1, e.2 * c6state.conScaleNonLinear.getD p.1 0)))).flatten.length
        = 2 := by decide
    rw [h2] at hcard
    cases hcard

theorem list_sum_map_add {β M : Type} [AddCommMonoid M] (l : List β)
    (g h : β → M) :
    (l.map (fun b => g b + h b)).sum = (l.map g).sum + (l.map h).sum := by
  induction l with
  | nil => simp
  | cons a t ih =>
    rw [List.map_cons, List.map_cons, List.map_cons, List.sum_cons,
      List.sum_cons, List.sum_cons, ih, add_add_add_comm]

theorem list_sum_comm {α β M : Type} [AddCommMonoid M] (l1 : List α)
    (l2 : List β) (f : α → β → M) :
    (l1.map (fun a => (l2.map (fun b => f a b)).sum)).sum =
      (l2.map (fun b => (l1.map (fun a => f a b)).sum)).sum := by
  induction l1 with
  | nil => simp
  | cons a t ih =>
    rw [List.map_cons, List.sum_cons, ih, ← list_sum_map_add]
    apply congrArg List.sum
    apply List.map_congr_left
    intro b _
    rw [List.map_cons, List.sum_cons]

theorem coe_flatten_sum {γ : Type} (L : List (List γ)) :
    Multiset.ofList L.flatten =
      (L.map (fun l => Multiset.ofList l)).sum := by
  induction L with
  | nil => rfl
  | cons a t ih =>
    rw [List.flatten_cons, List.map_cons, List.sum_cons, ← ih,
      ← Multiset.coe_add]

theorem flatten_flatten_swap {α β γ : Type} (l1 : List α) (l2 : List β)
    (X : α → β → List γ) :
    Multiset.ofList ((l1.map (fun a => (l2.map (fun b => X a b)).flatten)).flatten) =
      Multiset.ofList
        ((l2.map (fun b => (l1.map (fun a => X a b)).flatten)).flatten) := by
  rw [coe_flatten_sum, coe_flatten_sum, List.map_map, List.map_map]
  have h1 : ∀ a, ((fun l => Multiset.ofList l) ∘
      (fun a => (l2.map (fun b => X a b)).flatten)) a =
      (l2.map (fun b => Multiset.ofList (X a b))).sum := by
    intro a
    rw [Function.comp_apply, coe_flatten_sum, List.map_map]
    rfl
  have h2 : ∀ b, ((fun l => Multiset.ofList l) ∘
      (fun b => (l1.map (fun a => X a b)).flatten)) b =
      (l1.map (fun a => Multiset.ofList (X a b))).sum := by
    intro b
    rw [Function.comp_apply, coe_flatten_sum, List.map_map]
    rfl
  rw [List.map_congr_left (fun a _ => h1 a),
    List.map_congr_left (fun b _ => h2 b)]
  exact list_sum_comm l1 l2 _

theorem enumFrom_shift {α : Type} :
    ∀ (l : List α) (n : Nat),
    l.enumFrom n = l.enum.map (fun e => (n + e.1, e.2)) := by
  intro l n
  have key : ∀ (l : List α) (n m : Nat),
      l.enumFrom (n + m) = (l.enumFrom m).map (fun e => (n + e.1, e.2)) := by
    intro l
    induction l with
    | nil => intro n m; rfl
    | cons a t ih =>
      intro n m
      rw [List.enumFrom, List.enumFrom, List.map_cons]
      have harith : n + m + 1 = n + (m + 1) := by omega
      rw [harith, ih n (m + 1)]
  have h0 := key l n 0
  rw [Nat.add_zero] at h0
  exact h0

theorem ofList_flatten_swap_eq {α β γ : Type} (l1 : List α) (l2 : List β)
    (X Y : α → β → List γ) (h : ∀ a ∈ l1, ∀ b ∈ l2, X a b = Y a b) :
    Multiset.ofList ((l1.map (fun a => (l2.map (fun b => X a b)).flatten)).flatten) =
      Multiset.ofList
        ((l2.map (fun b => (l1.map (fun a => Y a b)).flatten)).flatten) := by
  have hfix : l1.map (fun a => (l2.map (fun b => X a b)).flatten) =
      l1.map (fun a => (l2.map (fun b => Y a b)).flatten) := by
    apply List.map_congr_left
    intro a ha
    apply congrArg List.flatten
    exact List.map_congr_left (fun b hb => h a ha b hb)
  rw [hfix]
  exact flatten_flatten_swap l1 l2 Y

/-- The dense sub-block of a full array at rows `[rs, rs + n)` and
columns `[lo, lo + w)` (`gcon[con.rs:con.re, lo:hi]`). -/
def subGrid (M : List (List ℚ)) (rs n lo w : Nat) : List (List ℚ) :=
  ((M.drop rs).take n).map (fun row => (row.drop lo).take w)

theorem replaceZeros_subGrid (M : List (List ℚ)) (rs n lo w : Nat) :
    replaceZeros (subGrid M rs n lo w) = subGrid (replaceZeros M) rs n lo w := by
  unfold replaceZeros subGrid
  rw [List.map_take, List.map_take, List.map_take, List.map_drop,
    List.map_drop, List.map_drop, List.map_map, List.map_map]
  apply congrArg (List.take n)
  apply congrArg (List.drop rs)
  apply List.map_congr_left
  intro row _
  rw [Function.comp_apply, Function.comp_apply, List.map_take, List.map_drop]

theorem dict_dense_entries_off (RB : List (List ℚ)) (xs cs : List ℚ)
    (rs lo : Nat) (hnz : ∀ r ∈ RB, ∀ v ∈ r, v ≠ 0) :
    (((csrFromDense RB).linearEntries.zip (csrFromDense RB).flatData).map
      (fun p => (rs + p.1.1, lo + p.1.2, p.2 / xs.getD (lo + p.1.2) 0))).map
      (fun e => (e.1, e.2.1, e.2.2 * cs.getD e.1 0)) =
    (RB.enum.map (fun p => p.2.enum.map (fun e =>
      (rs + p.1, lo + e.1,
        e.2 / xs.getD (lo + e.1) 0 * cs.getD (rs + p.1) 0)))).flatten := by
  have hrd : (csrFromDense RB).rowsData = RB.map List.enum :=
    csrFromDense_rowsData_of_ne_zero RB hnz
  have hflat : (csrFromDense RB).flatData =
      (((csrFromDense RB).rowsData.enum.map
        (fun p => p.2.map Prod.snd)).flatten) := by
    unfold SpMat.flatData
    congr 1
    rw [show (fun (p : Nat × List (Nat × ℚ)) => p.2.map Prod.snd) =
      ((fun (r : List (Nat × ℚ)) => r.map Prod.snd) ∘ Prod.snd) from rfl,
      ← List.map_map, List.enum_map_snd]
  have hlin : (csrFromDense RB).linearEntries =
      (((csrFromDense RB).rowsData.enum.map
        (fun p => p.2.map (fun e => (p.1, e.1)))).flatten) := rfl
  rw [List.map_map, hlin, hflat,
    zip_flatten_same _ _ _ (by intro x _; rw [List.length_map, List.length_map]),
    List.map_flatten, List.map_map, hrd]
  have henum1 : (RB.map List.enum).enum =
      RB.enum.map (Prod.map id List.enum) := by
    show List.enumFrom 0 (RB.map List.enum) =
      (List.enumFrom 0 RB).map (Prod.map id List.enum)
    exact List.enumFrom_map 0 RB List.enum
  rw [henum1, List.map_map]
  apply congrArg List.flatten
  apply List.map_congr_left
  intro q _
  obtain ⟨i, r⟩ := q
  simp only [Function.comp_apply, Prod.map_apply, id_eq]
  rw [zip_map_same, List.map_map]
  apply List.map_congr_left
  intro e _
  rfl

theorem denseEntries_canon (R : List (List ℚ)) (xs cs : List ℚ) :
    ((R.map (fun r => r.enum.map (fun e => e.2 / xs.getD e.1 0))).enum.map
      (fun p => p.2.enum.map (fun e => (p.1, e.1, e.2 * cs.getD p.1 0)))).flatten =
    (R.enum.map (fun p => p.2.enum.map (fun e =>
      (p.1, e.1, e.2 / xs.getD e.1 0 * cs.getD p.1 0)))).flatten := by
  have henum2 : (R.map (fun r => r.enum.map
      (fun e => e.2 / xs.getD e.1 0))).enum =
      R.enum.map (Prod.map id (fun r => r.enum.map
        (fun e => e.2 / xs.getD e.1 0))) := by
    show List.enumFrom 0 (R.map _) = (List.enumFrom 0 R).map _
    exact List.enumFrom_map 0 R _
  rw [henum2, List.map_map]
  apply congrArg List.flatten
  apply List.map_congr_left
  intro q _
  obtain ⟨i, r⟩ := q
  simp only [Function.comp_apply, Prod.map_apply, id_eq]
  have he3 : (r.enum.map (fun e => e.2 / xs.getD e.1 0)).enum =
      r.enum.enum.map (Prod.map id (fun e => e.2 / xs.getD e.1 0)) := by
    show List.enumFrom 0 (List.map _ _) = (List.enumFrom 0 _).map _
    exact List.enumFrom_map 0 r.enum _
  have he4 : r.enum.enum = r.enum.map (fun e => (e.1, e)) := by
    show List.enumFrom 0 (List.enumFrom 0 r) = (List.enumFrom 0 r).map _
    exact enumFrom_enumFrom r 0
  rw [he3, he4, List.map_map, List.map_map]
  apply List.map_congr_left
  intro e _
  rfl

theorem consecCover_nil_inv {a e : Nat} (h : ConsecCover a [] e) : e = a := by
  cases h
  rfl

theorem consecCover_cons_inv {a e : Nat} {p : Nat × Nat} {l : List (Nat × Nat)}
    (h : ConsecCover a (p :: l) e) : p.1 = a ∧ a ≤ p.2 ∧ ConsecCover p.2 l e := by
  cases h
  exact ⟨rfl, by assumption, by assumption⟩

/-- Splitting an enumerated list along a consecutive cover of its index
range: the enumeration of `suffix` from `c` is the concatenation of the
enumerations of its per-set slices (`wrt` sets listed in offset order). -/
theorem enumFrom_ranges_split {α γ : Type} (g : Nat × α → γ) :
    ∀ (sets : List (String × OffRec)) (c : Nat) (suffix : List α),
    ConsecCover c (sets.map (fun p => (p.2.lo, p.2.hi))) (c + suffix.length) →
    (suffix.enumFrom c).map g =
      (sets.map (fun q =>
        (((suffix.drop (q.2.lo - c)).take (q.2.hi - q.2.lo)).enumFrom q.2.lo).map g)).flatten := by
  intro sets
  induction sets with
  | nil =>
    intro c suffix hcov
    have h0 : suffix.length = 0 := by
      have := consecCover_nil_inv hcov
      omega
    have hs : suffix = [] := List.eq_nil_of_length_eq_zero h0
    subst hs
    rfl
  | cons p rest ih =>
    intro c suffix hcov
    rw [List.map_cons] at hcov
    obtain ⟨hlo, hlehi, htail⟩ := consecCover_cons_inv hcov
    have hlo' : p.2.lo = c := hlo
    have hlehi' : c ≤ p.2.hi := hlehi
    have hble : p.2.hi ≤ c + suffix.length := htail.start_le
    rw [List.map_cons, List.flatten_cons, hlo', Nat.sub_self, List.drop_zero]
    conv_lhs => rw [← List.take_append_drop (p.2.hi - c) suffix]
    rw [List.enumFrom_append, List.map_append]
    have hstart : c + (List.take (p.2.hi - c) suffix).length = p.2.hi := by
      rw [List.length_take]
      omega
    rw [hstart]
    have hih := ih p.2.hi (suffix.drop (p.2.hi - c))
      (by rw [show p.2.hi + (suffix.drop (p.2.hi - c)).length = c + suffix.length by
            rw [List.length_drop]; omega]
          exact htail)
    rw [hih]
    apply congrArg
    apply congrArg List.flatten
    apply List.map_congr_left
    intro q hq
    have hqlo : p.2.hi ≤ q.2.lo :=
      (htail.mem_bounds _ (List.mem_map_of_mem (fun r => (r.2.lo, r.2.hi)) hq)).1
    rw [List.drop_drop]
    rw [show (p.2.hi - c) + (q.2.lo - p.2.hi) = q.2.lo - c by omega]

/-- Splitting an enumerated row list along the row ranges of an aligned
constraint registry: the enumeration of `rows` from `c` is the
concatenation of the enumerations of the nonlinear constraints' row
slices, in registry order. -/
theorem enumFrom_cons_split {α γ : Type} (g : Nat × α → γ) :
    ∀ (cons : List (String × Constraint)) (c : Nat) (rows : List α),
    ConsAligned c cons → nconSum cons = rows.length →
    (rows.enumFrom c).map g =
      ((cons.filter (fun p => decide (p.2.linear = false))).map
        (fun p => (((rows.drop (p.2.rs - c)).take p.2.ncon).enumFrom p.2.rs).map g)).flatten := by
  intro cons
  induction cons with
  | nil =>
    intro c rows _ hsum
    have h0 : rows.length = 0 := by
      rw [← hsum]
      rfl
    have hs : rows = [] := List.eq_nil_of_length_eq_zero h0
    subst hs
    rfl
  | cons pq rest ih =>
    intro c rows hal hsum
    obtain ⟨k, con⟩ := pq
    rw [nconSum_cons] at hsum
    rw [filterLin_cons]
    by_cases hlin : con.linear = false
    · rw [if_pos hlin] at hsum
      rw [if_pos hlin, List.map_cons, List.flatten_cons]
      obtain ⟨hrs, hre, htail⟩ := hal.2 hlin
      rw [hrs, Nat.sub_self, List.drop_zero]
      conv_lhs => rw [← List.take_append_drop con.ncon rows]
      rw [List.enumFrom_append, List.map_append]
      have hstart : c + (List.take con.ncon rows).length = c + con.ncon := by
        rw [List.length_take]
        omega
      rw [hstart]
      have hih := ih (c + con.ncon) (rows.drop con.ncon) htail
        (by rw [List.length_drop]; omega)
      rw [hih]
      apply congrArg
      apply congrArg List.flatten
      apply List.map_congr_left
      intro q hq
      have hqm := List.mem_filter.mp hq
      have hqlin : q.2.linear = false := of_decide_eq_true hqm.2
      have hqrs : c + con.ncon ≤ q.2.rs :=
        (conAligned_re_bound rest (c + con.ncon) htail q hqm.1 hqlin).1
      rw [List.drop_drop]
      rw [show con.ncon + (q.2.rs - (c + con.ncon)) = q.2.rs - c by omega]
    · have hlinT : con.linear = true := by
        revert hlin
        cases con.linear <;> simp
      rw [if_neg hlin] at hsum
      rw [if_neg hlin]
      exact ih c rows (hal.1 hlinT) hsum

theorem conKeyTriples_ok (st : Optimization) (con : Constraint)
    (sub : List (String × BlockInput)) (key : String) (nrec : OffRec)
    (templ : SpMat) (b : BlockInput)
    (hdv : dvSetN st key = .ok nrec)
    (htempl : getKey con.jac key = some templ)
    (hb : getKey sub key = some b)
    (hr : (blockToCsr b).nrows = con.ncon)
    (hc : (blockToCsr b).ncols = nrec.hi - nrec.lo)
    (hnnz : (blockToCsr b).nnz = templ.nnz) :
    conKeyTriples st con sub key =
      .ok ((templ.linearEntries.zip (blockToCsr b).flatData).map
        (fun p => (con.rs + p.1.1, nrec.lo + p.1.2,
                   p.2 / st.xscale.getD (nrec.lo + p.1.2) 0))) := by
  simp only [conKeyTriples, hdv, htempl, hb, Bind.bind, Except.bind]
  rw [if_pos ⟨hr, hc⟩, if_pos hnnz]

theorem conKeysFold_sets_ok (st : Optimization) (con : Constraint)
    (sub : List (String × BlockInput))
    (Tf : String × OffRec → List (Nat × Nat × ℚ)) :
    ∀ sets : List (String × OffRec),
    (∀ q ∈ sets, conKeyTriples st con sub q.1 = .ok (Tf q)) →
    conKeysFold st con sub (sets.map Prod.fst) = .ok ((sets.map Tf).flatten) := by
  intro sets
  induction sets with
  | nil => intro _; rfl
  | cons q rest ih =>
    intro h
    rw [List.map_cons, List.map_cons, List.flatten_cons]
    simp only [conKeysFold, h q (List.mem_cons_self _ _),
      ih (fun r hr => h r (List.mem_cons_of_mem _ hr)), Bind.bind, Except.bind]

theorem conTriples_ok (st : Optimization)
    (d : List (String × List (String × BlockInput))) (iCon : String)
    (con : Constraint) (sub : List (String × BlockInput))
    (ts : List (Nat × Nat × ℚ))
    (hname : hasKey d con.cname = true)
    (hsub : getKey d iCon = some sub)
    (hjk : ∀ q ∈ con.jac, hasKey sub q.1 = true)
    (hfold : conKeysFold st con sub con.wrt = .ok ts) :
    conTriples st d iCon con = .ok ts := by
  have hfind : (if !con.partRetOk then
      con.jac.find? (fun p => !(hasKey sub p.1)) else none) = none := by
    cases con.partRetOk with
    | true => rfl
    | false =>
      simp only [Bool.not_false, if_true]
      rw [List.find?_eq_none]
      intro p hp
      rw [hjk p hp]
      simp
  simp only [conTriples, hname, Bool.not_true, Bool.false_eq_true, if_false,
    hsub, hfind, hfold]

theorem consFold_ok (st : Optimization)
    (d : List (String × List (String × BlockInput)))
    (Tc : String × Constraint → List (Nat × Nat × ℚ)) :
    ∀ cons : List (String × Constraint),
    (∀ p ∈ cons, p.2.linear = false → conTriples st d p.1 p.2 = .ok (Tc p)) →
    consFold st d false cons =
      .ok (((cons.filter (fun p => decide (p.2.linear = false))).map Tc).flatten) := by
  intro cons
  induction cons with
  | nil => intro _; rfl
  | cons p rest ih =>
    intro h
    rw [filterLin_cons]
    by_cases hlin : p.2.linear = false
    · rw [if_pos hlin, List.map_cons, List.flatten_cons]
      have hcon := h p (List.mem_cons_self _ _) hlin
      have hrest := ih (fun r hr hl => h r (List.mem_cons_of_mem _ hr) hl)
      simp only [consFold, if_pos hlin, hcon, hrest, Bind.bind, Except.bind]
    · rw [if_neg hlin]
      have hrest := ih (fun r hr hl => h r (List.mem_cons_of_mem _ hr) hl)
      simp only [consFold, if_neg hlin, hrest]

theorem conAligned_mem_re :
    ∀ (cons : List (String × Constraint)) (c : Nat),
    ConsAligned c cons →
    ∀ p ∈ cons, p.2.linear = false → p.2.re = p.2.rs + p.2.ncon := by
  intro cons
  induction cons with
  | nil => intro c _ p hp; cases hp
  | cons q rest ih =>
    intro c hal p hp
    obtain ⟨k, con⟩ := q
    intro hlin
    cases hp with
    | head =>
      obtain ⟨hrs, hre, _⟩ := hal.2 hlin
      show con.re = con.rs + con.ncon
      omega
    | tail _ hp =>
      by_cases hl : con.linear = false
      · exact ih (c + con.ncon) (hal.2 hl).2.2 p hp hlin
      · have hlt : con.linear = true := by revert hl; cases con.linear <;> simp
        exact ih c (hal.1 hlt) p hp hlin

theorem subGrid_ne_zero (R : List (List ℚ)) (rs n lo w : Nat)
    (h : ∀ r ∈ R, ∀ v ∈ r, v ≠ 0) :
    ∀ r ∈ subGrid R rs n lo w, ∀ v ∈ r, v ≠ 0 := by
  intro r hr v hv
  unfold subGrid at hr
  rw [List.mem_map] at hr
  obtain ⟨r0, hr0, hcut⟩ := hr
  have hr0R : r0 ∈ R := List.mem_of_mem_drop (List.mem_of_mem_take hr0)
  rw [← hcut] at hv
  exact h r0 hr0R v (List.mem_of_mem_drop (List.mem_of_mem_take hv))

theorem subGrid_length (R : List (List ℚ)) (rs n lo w : Nat)
    (hrn : rs + n ≤ R.length) : (subGrid R rs n lo w).length = n := by
  unfold subGrid
  rw [List.length_map, List.length_take, List.length_drop]
  omega

theorem subGrid_row_length (R : List (List ℚ)) (rs n lo w : Nat)
    (hw : ∀ r0 ∈ R, lo + w ≤ r0.length) :
    ∀ r ∈ subGrid R rs n lo w, r.length = w := by
  intro r hr
  unfold subGrid at hr
  rw [List.mem_map] at hr
  obtain ⟨r0, hr0, hcut⟩ := hr
  have hr0R : r0 ∈ R := List.mem_of_mem_drop (List.mem_of_mem_take hr0)
  rw [← hcut, List.length_take, List.length_drop]
  have := hw r0 hr0R
  omega

theorem subGrid_head_length (R : List (List ℚ)) (rs n lo w : Nat)
    (hn : 1 ≤ n) (hrs : rs < R.length)
    (hw : ∀ r0 ∈ R, lo + w ≤ r0.length) :
    ((subGrid R rs n lo w).headD []).length = w := by
  have hl2 : (subGrid R rs n lo w).length = min n (R.length - rs) := by
    unfold subGrid
    rw [List.length_map, List.length_take, List.length_drop]
  cases hB : subGrid R rs n lo w with
  | nil =>
    rw [hB] at hl2
    simp only [List.length_nil] at hl2
    omega
  | cons r t =>
    have hr : r ∈ subGrid R rs n lo w := by
      rw [hB]
      exact List.mem_cons_self _ _
    rw [List.headD_cons]
    exact subGrid_row_length R rs n lo w hw r hr

/-- The scaled triples one (constraint, set) pair contributes through the
dictionary path, written as the row-major flatten over the constraint's
global row range of per-row, per-set entry lists. -/
theorem dictChunk_rows (R : List (List ℚ)) (xs cs : List ℚ)
    (rs n lo w : Nat)
    (hnz : ∀ r ∈ R, ∀ v ∈ r, v ≠ 0) :
    (((csrFromDense (subGrid R rs n lo w)).linearEntries.zip
        (csrFromDense (subGrid R rs n lo w)).flatData).map
      (fun p => (rs + p.1.1, lo + p.1.2, p.2 / xs.getD (lo + p.1.2) 0))).map
      (fun e => (e.1, e.2.1, e.2.2 * cs.getD e.1 0)) =
    ((((R.drop rs).take n).enumFrom rs).map (fun ir =>
      (((ir.2.drop lo).take w).enumFrom lo).map (fun e =>
        (ir.1, e.1, e.2 / xs.getD e.1 0 * cs.getD ir.1 0)))).flatten := by
  rw [dict_dense_entries_off (subGrid R rs n lo w) xs cs rs lo
    (subGrid_ne_zero R rs n lo w hnz)]
  have hsg : subGrid R rs n lo w =
      ((R.drop rs).take n).map (fun row => (row.drop lo).take w) := rfl
  rw [hsg]
  have henum : (((R.drop rs).take n).map (fun row => (row.drop lo).take w)).enum =
      ((R.drop rs).take n).enum.map
        (Prod.map id (fun row => (row.drop lo).take w)) := by
    show List.enumFrom 0 (List.map _ _) = (List.enumFrom 0 _).map _
    exact List.enumFrom_map 0 _ _
  rw [henum, List.map_map, enumFrom_shift ((R.drop rs).take n) rs, List.map_map]
  apply congrArg List.flatten
  apply List.map_congr_left
  intro bz _
  obtain ⟨i, row⟩ := bz
  simp only [Function.comp_apply, Prod.map_apply, id_eq]
  rw [enumFrom_shift ((row.drop lo).take w) lo, List.map_map]
  apply List.map_congr_left
  intro e _
  rfl

/-- One constraint's block: the row-major dense-path entries and the
set-major dictionary-path entries are the same multiset. -/
theorem block_swap (R : List (List ℚ)) (xs cs : List ℚ)
    (sets : List (String × OffRec)) (nd rs n : Nat)
    (hnz : ∀ r ∈ R, ∀ v ∈ r, v ≠ 0)
    (hrl : ∀ r ∈ R, r.length = nd)
    (hcover : ConsecCover 0 (sets.map (fun p => (p.2.lo, p.2.hi))) nd) :
    Multiset.ofList (((((R.drop rs).take n).enumFrom rs).map
      (fun ir => ir.2.enum.map (fun e =>
        (ir.1, e.1, e.2 / xs.getD e.1 0 * cs.getD ir.1 0)))).flatten) =
    Multiset.ofList ((sets.map (fun q =>
      (((csrFromDense (subGrid R rs n q.2.lo (q.2.hi - q.2.lo))).linearEntries.zip
        (csrFromDense (subGrid R rs n q.2.lo (q.2.hi - q.2.lo))).flatData).map
        (fun z => (rs + z.1.1, q.2.lo + z.1.2,
          z.2 / xs.getD (q.2.lo + z.1.2) 0))).map
        (fun e => (e.1, e.2.1, e.2.2 * cs.getD e.1 0)))).flatten) := by
  have hL : ∀ ir ∈ ((R.drop rs).take n).enumFrom rs,
      ir.2.enum.map (fun e => (ir.1, e.1, e.2 / xs.getD e.1 0 * cs.getD ir.1 0)) =
      (sets.map (fun q =>
        (((ir.2.drop q.2.lo).take (q.2.hi - q.2.lo)).enumFrom q.2.lo).map
          (fun e => (ir.1, e.1, e.2 / xs.getD e.1 0 * cs.getD ir.1 0)))).flatten := by
    intro ir hir
    have hmem : ir.2 ∈ R :=
      List.mem_of_mem_drop (List.mem_of_mem_take (enumFrom_mem_facts _ rs ir hir).2.2)
    have hcov2 : ConsecCover 0 (sets.map (fun p => (p.2.lo, p.2.hi)))
        (0 + ir.2.length) := by
      rw [Nat.zero_add, hrl ir.2 hmem]
      exact hcover
    have h := enumFrom_ranges_split
      (fun e => (ir.1, e.1, e.2 / xs.getD e.1 0 * cs.getD ir.1 0)) sets 0 ir.2 hcov2
    simp only [Nat.sub_zero] at h
    exact h
  have hR : ∀ q ∈ sets,
      ((((csrFromDense (subGrid R rs n q.2.lo (q.2.hi - q.2.lo))).linearEntries.zip
        (csrFromDense (subGrid R rs n q.2.lo (q.2.hi - q.2.lo))).flatData).map
        (fun z => (rs + z.1.1, q.2.lo + z.1.2,
          z.2 / xs.getD (q.2.lo + z.1.2) 0))).map
        (fun e => (e.1, e.2.1, e.2.2 * cs.getD e.1 0))) =
      ((((R.drop rs).take n).enumFrom rs).map (fun ir =>
        (((ir.2.drop q.2.lo).take (q.2.hi - q.2.lo)).enumFrom q.2.lo).map
          (fun e => (ir.1, e.1, e.2 / xs.getD e.1 0 * cs.getD ir.1 0)))).flatten :=
    fun q _ => dictChunk_rows R xs cs rs n q.2.lo (q.2.hi - q.2.lo) hnz
  rw [List.map_congr_left hL, List.map_congr_left hR]
  exact ofList_flatten_swap_eq (((R.drop rs).take n).enumFrom rs) sets
    (fun ir q => (((ir.2.drop q.2.lo).take (q.2.hi - q.2.lo)).enumFrom q.2.lo).map
      (fun e => (ir.1, e.1, e.2 / xs.getD e.1 0 * cs.getD ir.1 0)))
    (fun ir q => (((ir.2.drop q.2.lo).take (q.2.hi - q.2.lo)).enumFrom q.2.lo).map
      (fun e => (ir.1, e.1, e.2 / xs.getD e.1 0 * cs.getD ir.1 0)))
    (fun _ _ _ _ => rfl)

theorem cooRowScale_ok (c : Coo) (vec : List ℚ) (h : c.nrows = vec.length) :
    cooRowScale c vec = .ok ⟨c.nrows, c.ncols,
      c.entries.map (fun e => (e.1, e.2.1, e.2.2 * vec.getD e.1 0))⟩ := by
  unfold cooRowScale
  rw [if_pos h]

theorem processDictJac_ok (st : Optimization) (shp : Nat × Nat)
    (conScale : List ℚ) (d : List (String × List (String × BlockInput)))
    (T : List (Nat × Nat × ℚ))
    (hfold : consFold st d false st.constraints = .ok T)
    (hguard : (T.all (fun e => decide (e.1 < shp.1) && decide (e.2.1 < shp.2)))
      = true)
    (hlen : shp.1 = conScale.length) :
    processDictJac st shp conScale d false =
      .ok ⟨shp.1, shp.2,
        T.map (fun e => (e.1, e.2.1, e.2.2 * conScale.getD e.1 0))⟩ := by
  simp only [processDictJac, hfold, Bind.bind, Except.bind, Bool.false_eq_true,
    if_false]
  have hcoo : cooFromTriples shp.1 shp.2 T = .ok ⟨shp.1, shp.2, T⟩ := by
    unfold cooFromTriples
    rw [if_pos hguard]
  rw [hcoo]
  show cooRowScale ⟨shp.1, shp.2, T⟩ conScale = _
  rw [cooRowScale_ok ⟨shp.1, shp.2, T⟩ conScale hlen]

/-- C6 (corrected): after finalization, when a dense return is legal,
every nonlinear constraint is nonempty, lists every registered variable
set in offset order as its `wrt`, its declared templates cover every
position of their blocks, and the dictionary submission supplies each
(constraint, set) block as the dense sub-array of the full array, then
the dense submission and the dictionary submission assemble the same
scaled sparse matrix: equal multisets of (row, column, value) entries. -/
theorem C6_theorem (st0 : Optimization) (pr : Optimization × Option Coo)
    (D : List (String × List (String × BlockInput)))
    (M : List (List ℚ)) (sets : List (String × OffRec))
    (hfin : finalizeConstraints st0 = .ok pr)
    (hncon : ¬ pr.1.nCon = 0)
    (hcover : ConsecCover 0 (sets.map (fun p => (p.2.lo, p.2.hi))) pr.1.ndvs)
    (hdvn : ∀ q ∈ sets, dvSetN pr.1 q.1 = .ok q.2)
    (hshape : denseShape M = (pr.1.nnCon, pr.1.ndvs))
    (hrowsM : ∀ r ∈ M, r.length = pr.1.ndvs)
    (hok : pr.1.denseJacobianOK = true)
    (hx : pr.1.ndvs ≤ pr.1.xscale.length)
    (hxnz : ∀ v ∈ pr.1.xscale, v ≠ 0)
    (hcsl : pr.1.conScaleNonLinear.length = pr.1.nnCon)
    (hcon : ∀ p ∈ pr.1.constraints, p.2.linear = false →
      1 ≤ p.2.ncon ∧ p.2.cname = p.1 ∧ p.2.wrt = sets.map Prod.fst ∧
      hasKey D p.1 = true ∧
      ∃ sub, getKey D p.1 = some sub ∧
        (∀ j ∈ p.2.jac, hasKey sub j.1 = true) ∧
        ∀ q ∈ sets,
          getKey sub q.1 = some (BlockInput.dense
            (subGrid M p.2.rs p.2.ncon q.2.lo (q.2.hi - q.2.lo))) ∧
          ∃ templ, getKey p.2.jac q.1 = some templ ∧
            templ.linearEntries = (csrFromDense (replaceZeros
              (subGrid M p.2.rs p.2.ncon q.2.lo (q.2.hi - q.2.lo)))).linearEntries ∧
            templ.nnz = (csrFromDense (replaceZeros
              (subGrid M p.2.rs p.2.ncon q.2.lo (q.2.hi - q.2.lo)))).nnz) :
    ∃ cD cS,
      processConstraintJacobian pr.1 (GconArg.arr M) false = .ok cD ∧
      processConstraintJacobian pr.1 (GconArg.dict D) false = .ok cS ∧
      Multiset.ofList cD.entries = Multiset.ofList cS.entries := by
  obtain ⟨hcons, hnn, _, _⟩ := finalizeConstraints_eq st0 pr hfin
  obtain ⟨_, _, _, s24, _⟩ := assignRows_spec true
    (assignRows false 0 st0.constraints).1
    (assignRows false 0 st0.constraints).2.2
  have hca : ConsAligned 0 pr.1.constraints := by
    rw [hcons]
    exact conAligned_assignRows_true _ 0 _
      (conAligned_assignRows_false st0.constraints 0)
  have hfiltF : pr.1.constraints.filter (fun p => decide (p.2.linear = false)) =
      (assignRows false 0 st0.constraints).1.filter
        (fun p => decide (p.2.linear = false)) := by
    rw [hcons, ← filter_lin_bridge_nt, s24, filter_lin_bridge_nt]
  have hns : nconSum pr.1.constraints = pr.1.nnCon := by
    unfold nconSum
    rw [hfiltF, assignRows_ncons false st0.constraints 0, hnn,
      filter_lin_bridge_not st0.constraints]
  have hMlen : M.length = pr.1.nnCon := congrArg Prod.fst hshape
  have hRlen : (replaceZeros M).length = M.length := by
    unfold replaceZeros
    rw [List.length_map]
  have hRrows : ∀ r ∈ replaceZeros M, r.length = pr.1.ndvs := by
    intro r hr
    unfold replaceZeros at hr
    rw [List.mem_map] at hr
    obtain ⟨m0, hm0, he⟩ := hr
    rw [← he, List.length_map]
    exact hrowsM m0 hm0
  have hsetb : ∀ q ∈ sets, q.2.lo ≤ q.2.hi ∧ q.2.hi ≤ pr.1.ndvs := by
    intro q hq
    have h := hcover.mem_bounds _
      (List.mem_map_of_mem (fun p => (p.2.lo, p.2.hi)) hq)
    exact ⟨h.2.1, h.2.2⟩
  have hpb : ∀ p ∈ pr.1.constraints, p.2.linear = false →
      p.2.rs + p.2.ncon ≤ pr.1.nnCon := by
    intro p hp hlin
    have h1 := (conAligned_re_bound pr.1.constraints 0 hca p hp hlin).2
    have h2 := conAligned_mem_re pr.1.constraints 0 hca p hp hlin
    rw [hns] at h1
    omega
  have hdense := processDenseJac_ok2 pr.1 (pr.1.nnCon, pr.1.ndvs)
    pr.1.conScaleNonLinear M hshape hok hx
    (fun r hr => by rw [hrowsM r hr]; exact hx) hxnz
    (by rw [hcsl, hMlen])
  have hDred : processConstraintJacobian pr.1 (GconArg.arr M) false =
      processDenseJac pr.1 (pr.1.nnCon, pr.1.ndvs) pr.1.conScaleNonLinear M := by
    unfold processConstraintJacobian
    rw [if_neg hncon]
    rfl
  have hSred : processConstraintJacobian pr.1 (GconArg.dict D) false =
      processDictJac pr.1 (pr.1.nnCon, pr.1.ndvs) pr.1.conScaleNonLinear D false := by
    unfold processConstraintJacobian
    rw [if_neg hncon]
    rfl
  have hTc : ∀ p ∈ pr.1.constraints, p.2.linear = false →
      conTriples pr.1 D p.1 p.2 = .ok ((sets.map (fun q =>
        ((csrFromDense (subGrid (replaceZeros M) p.2.rs p.2.ncon q.2.lo
            (q.2.hi - q.2.lo))).linearEntries.zip
          (csrFromDense (subGrid (replaceZeros M) p.2.rs p.2.ncon q.2.lo
            (q.2.hi - q.2.lo))).flatData).map
          (fun z => (p.2.rs + z.1.1, q.2.lo + z.1.2,
            z.2 / pr.1.xscale.getD (q.2.lo + z.1.2) 0)))).flatten) := by
    intro p hp hlin
    obtain ⟨hnc1, hcname, hwrt, hhk, sub, hgsub, hjk, hq⟩ := hcon p hp hlin
    apply conTriples_ok pr.1 D p.1 p.2 sub _
      (by rw [hcname]; exact hhk) hgsub hjk
    rw [hwrt]
    apply conKeysFold_sets_ok
    intro q hq2
    obtain ⟨hgq, templ, hgt, htlin, htnnz⟩ := hq q hq2
    have hBlen : (subGrid M p.2.rs p.2.ncon q.2.lo (q.2.hi - q.2.lo)).length
        = p.2.ncon :=
      subGrid_length M _ _ _ _ (by rw [hMlen]; exact hpb p hp hlin)
    have hr : (blockToCsr (BlockInput.dense
        (subGrid M p.2.rs p.2.ncon q.2.lo (q.2.hi - q.2.lo)))).nrows = p.2.ncon := by
      show (replaceZeros (subGrid M p.2.rs p.2.ncon q.2.lo
        (q.2.hi - q.2.lo))).length = p.2.ncon
      unfold replaceZeros
      rw [List.length_map]
      exact hBlen
    have hc : (blockToCsr (BlockInput.dense
        (subGrid M p.2.rs p.2.ncon q.2.lo (q.2.hi - q.2.lo)))).ncols
        = q.2.hi - q.2.lo := by
      show ((replaceZeros (subGrid M p.2.rs p.2.ncon q.2.lo
        (q.2.hi - q.2.lo))).headD []).length = q.2.hi - q.2.lo
      rw [replaceZeros_subGrid]
      apply subGrid_head_length (replaceZeros M) p.2.rs p.2.ncon q.2.lo
        (q.2.hi - q.2.lo) hnc1
      · rw [hRlen, hMlen]
        have := hpb p hp hlin
        omega
      · intro r0 hr0
        rw [hRrows r0 hr0]
        have h1 := (hsetb q hq2).1
        have h2 := (hsetb q hq2).2
        omega
    have hkt := conKeyTriples_ok pr.1 p.2 sub q.1 q.2 templ
      (BlockInput.dense (subGrid M p.2.rs p.2.ncon q.2.lo (q.2.hi - q.2.lo)))
      (hdvn q hq2) hgt hgq hr hc htnnz.symm
    rw [htlin] at hkt
    simp only [blockToCsr] at hkt
    rw [replaceZeros_subGrid] at hkt
    exact hkt
  have hfold : consFold pr.1 D false pr.1.constraints =
      .ok (((pr.1.constraints.filter (fun p => decide (p.2.linear = false))).map
        (fun p => (sets.map (fun q =>
          ((csrFromDense (subGrid (replaceZeros M) p.2.rs p.2.ncon q.2.lo
              (q.2.hi - q.2.lo))).linearEntries.zip
            (csrFromDense (subGrid (replaceZeros M) p.2.rs p.2.ncon q.2.lo
              (q.2.hi - q.2.lo))).flatData).map
            (fun z => (p.2.rs + z.1.1, q.2.lo + z.1.2,
              z.2 / pr.1.xscale.getD (q.2.lo + z.1.2) 0)))).flatten)).flatten) :=
    consFold_ok pr.1 D _ pr.1.constraints hTc
  have hguard : ((((pr.1.constraints.filter (fun p => decide (p.2.linear = false))).map
      (fun p => (sets.map (fun q =>
        ((csrFromDense (subGrid (replaceZeros M) p.2.rs p.2.ncon q.2.lo
            (q.2.hi - q.2.lo))).linearEntries.zip
          (csrFromDense (subGrid (replaceZeros M) p.2.rs p.2.ncon q.2.lo
            (q.2.hi - q.2.lo))).flatData).map
          (fun z => (p.2.rs + z.1.1, q.2.lo + z.1.2,
            z.2 / pr.1.xscale.getD (q.2.lo + z.1.2) 0)))).flatten)).flatten).all
      (fun e => decide (e.1 < pr.1.nnCon) && decide (e.2.1 < pr.1.ndvs))) = true := by
    rw [List.all_eq_true]
    intro e he
    rw [List.mem_flatten] at he
    obtain ⟨l, hl, hel⟩ := he
    rw [List.mem_map] at hl
    obtain ⟨p, hpF, hTcp⟩ := hl
    have hpmem := (List.mem_filter.mp hpF).1
    have hplin : p.2.linear = false := of_decide_eq_true (List.mem_filter.mp hpF).2
    rw [← hTcp, List.mem_flatten] at hel
    obtain ⟨l2, hl2, hel2⟩ := hel
    rw [List.mem_map] at hl2
    obtain ⟨q, hqs, hTfq⟩ := hl2
    rw [← hTfq, List.mem_map] at hel2
    obtain ⟨z, hz, hze⟩ := hel2
    have hz1 := (List.of_mem_zip hz).1
    have hb := mem_linearEntries_bounds
      (subGrid (replaceZeros M) p.2.rs p.2.ncon q.2.lo (q.2.hi - q.2.lo))
      (subGrid_ne_zero (replaceZeros M) _ _ _ _ (replaceZeros_ne_zero M)) z.1 hz1
    obtain ⟨hb1, r, hrB, hb2⟩ := hb
    have hBlen2 : (subGrid (replaceZeros M) p.2.rs p.2.ncon q.2.lo
        (q.2.hi - q.2.lo)).length = p.2.ncon :=
      subGrid_length _ _ _ _ _ (by rw [hRlen, hMlen]; exact hpb p hpmem hplin)
    have hrw : r.length = q.2.hi - q.2.lo := by
      apply subGrid_row_length (replaceZeros M) p.2.rs p.2.ncon q.2.lo
        (q.2.hi - q.2.lo) ?_ r hrB
      intro r0 hr0
      rw [hRrows r0 hr0]
      have h1 := (hsetb q hqs).1
      have h2 := (hsetb q hqs).2
      omega
    show (decide (e.1 < pr.1.nnCon) && decide (e.2.1 < pr.1.ndvs)) = true
    rw [← hze, Bool.and_eq_true]
    constructor
    · apply decide_eq_true
      show p.2.rs + z.1.1 < pr.1.nnCon
      rw [hBlen2] at hb1
      have := hpb p hpmem hplin
      omega
    · apply decide_eq_true
      show q.2.lo + z.1.2 < pr.1.ndvs
      rw [hrw] at hb2
      have h1 := (hsetb q hqs).1
      have h2 := (hsetb q hqs).2
      omega
  have hdict := processDictJac_ok pr.1 (pr.1.nnCon, pr.1.ndvs)
    pr.1.conScaleNonLinear D
    (((pr.1.constraints.filter (fun p => decide (p.2.linear = false))).map
      (fun p => (sets.map (fun q =>
        ((csrFromDense (subGrid (replaceZeros M) p.2.rs p.2.ncon q.2.lo
            (q.2.hi - q.2.lo))).linearEntries.zip
          (csrFromDense (subGrid (replaceZeros M) p.2.rs p.2.ncon q.2.lo
            (q.2.hi - q.2.lo))).flatData).map
          (fun z => (p.2.rs + z.1.1, q.2.lo + z.1.2,
            z.2 / pr.1.xscale.getD (q.2.lo + z.1.2) 0)))).flatten)).flatten) hfold hguard hcsl.symm
  refine ⟨_, _, hDred.trans hdense, hSred.trans hdict, ?_⟩
  show Multiset.ofList ((((replaceZeros M).map (fun r => r.enum.map
      (fun e => e.2 / pr.1.xscale.getD e.1 0))).enum.map
      (fun p => p.2.enum.map (fun e =>
        (p.1, e.1, e.2 * pr.1.conScaleNonLinear.getD p.1 0)))).flatten) =
    Multiset.ofList ((((pr.1.constraints.filter (fun p => decide (p.2.linear = false))).map
      (fun p => (sets.map (fun q =>
        ((csrFromDense (subGrid (replaceZeros M) p.2.rs p.2.ncon q.2.lo
            (q.2.hi - q.2.lo))).linearEntries.zip
          (csrFromDense (subGrid (replaceZeros M) p.2.rs p.2.ncon q.2.lo
            (q.2.hi - q.2.lo))).flatData).map
          (fun z => (p.2.rs + z.1.1, q.2.lo + z.1.2,
            z.2 / pr.1.xscale.getD (q.2.lo + z.1.2) 0)))).flatten)).flatten).map
      (fun e => (e.1, e.2.1, e.2.2 * pr.1.conScaleNonLinear.getD e.1 0)))
  rw [denseEntries_canon (replaceZeros M) pr.1.xscale pr.1.conScaleNonLinear]
  have hsplit1 : (replaceZeros M).enum.map (fun p => p.2.enum.map (fun e =>
      (p.1, e.1, e.2 / pr.1.xscale.getD e.1 0 *
        pr.1.conScaleNonLinear.getD p.1 0))) =
      ((pr.1.constraints.filter (fun p => decide (p.2.linear = false))).map
        (fun p => ((((replaceZeros M).drop p.2.rs).take p.2.ncon).enumFrom
          p.2.rs).map (fun ir => ir.2.enum.map (fun e =>
            (ir.1, e.1, e.2 / pr.1.xscale.getD e.1 0 *
              pr.1.conScaleNonLinear.getD ir.1 0))))).flatten := by
    have h := enumFrom_cons_split (fun ir : ℕ × List ℚ => ir.2.enum.map (fun e =>
        (ir.1, e.1, e.2 / pr.1.xscale.getD e.1 0 *
          pr.1.conScaleNonLinear.getD ir.1 0)))
      pr.1.constraints 0 (replaceZeros M) hca (by rw [hns, hRlen, hMlen])
    simp only [Nat.sub_zero] at h
    exact h
  rw [hsplit1, List.flatten_flatten, List.map_map, List.map_flatten, List.map_map,
    coe_flatten_sum, coe_flatten_sum, List.map_map, List.map_map]
  apply congrArg List.sum
  apply List.map_congr_left
  intro p hpF
  have hpmem := (List.mem_filter.mp hpF).1
  have hplin : p.2.linear = false := of_decide_eq_true (List.mem_filter.mp hpF).2
  simp only [Function.comp_apply]
  rw [List.map_flatten, List.map_map]
  exact block_swap (replaceZeros M) pr.1.xscale pr.1.conScaleNonLinear sets
    pr.1.ndvs p.2.rs p.2.ncon (replaceZeros_ne_zero M) hRrows hcover

/-- C6 witness state: two variable sets of one variable each and two
nonlinear one-row constraints declared over both sets with all-positions
dense templates. -/
def c6wSt : Optimization :=
  ((do
    let s1 ← runDecls (initOpt "p" true)
      [Decl.dvGroupDecl "ga" 1 "c" [0] none none none (some "a"),
       Decl.dvGroupDecl "gb" 1 "c" [0] none none none (some "b")]
    let s2 ← match finalizeDesignVariables s1 with
      | some s => Except.ok s
      | none => Except.error Err.indexErr
    let s3 ← addConGroup s2 "c1" 1 none none [1] false (some ["a", "b"])
      (some [("a", BlockInput.dense [[1]]), ("b", BlockInput.dense [[1]])])
    addConGroup s3 "c2" 1 none none [1] false (some ["a", "b"])
      (some [("a", BlockInput.dense [[1]]), ("b", BlockInput.dense [[1]])])
      : Except Err Optimization)).toOption.getD (initOpt "x" true)

/-- The witness state after `finalizeConstraints`. -/
def c6wPr : Optimization × Option Coo :=
  (finalizeConstraints c6wSt).toOption.getD (initOpt "x" true, none)

/-- The dictionary submission carrying the same values as the full dense
array `[[5, 6], [7, 8]]`, block by block. -/
def c6wD : List (String × List (String × BlockInput)) :=
  [("c1", [("a", BlockInput.dense [[5]]), ("b", BlockInput.dense [[6]])]),
   ("c2", [("a", BlockInput.dense [[7]]), ("b", BlockInput.dense [[8]])])]

/-- The two variable sets with their offset records. -/
def c6wSets : List (String × OffRec) :=
  [("a", ⟨0, 1, none⟩), ("b", ⟨1, 2, none⟩)]

/-- A throwaway constraint record for `getD` lookups. -/
def c6wC0 : Constraint := ⟨"", false, [], [], false, [], [], [], 0, 0, 0⟩

/-- C6 witness: on the concrete two-set, two-constraint problem, the full
dense array `[[5, 6], [7, 8]]` and the per-constraint, per-set dictionary
of the same values assemble the same multiset of scaled entries. -/
theorem C6_witness :
    ∃ cD cS,
      processConstraintJacobian c6wPr.1 (GconArg.arr [[5, 6], [7, 8]]) false
        = .ok cD ∧
      processConstraintJacobian c6wPr.1 (GconArg.dict c6wD) false = .ok cS ∧
      Multiset.ofList cD.entries = Multiset.ofList cS.entries :=
  C6_theorem c6wSt c6wPr c6wD [[5, 6], [7, 8]] c6wSets
    rfl
    (by decide)
    (by
      rw [show c6wSets.map (fun p => (p.2.lo, p.2.hi)) = [(0, 1), (1, 2)] from rfl,
        show c6wPr.1.ndvs = 2 from rfl]
      exact ConsecCover.cons 0 1 2 _ (by omega)
        (ConsecCover.cons 1 2 2 _ (by omega) (ConsecCover.nil 2)))
    (by
      intro q hq
      cases hq with
      | head => rfl
      | tail _ h2 =>
        cases h2 with
        | head => rfl
        | tail _ h3 => cases h3)
    rfl
    (by
      intro r hr
      cases hr with
      | head => rfl
      | tail _ h2 =>
        cases h2 with
        | head => rfl
        | tail _ h3 => cases h3)
    rfl
    (by decide)
    (by
      intro v hv
      rw [show c6wPr.1.xscale = [1, 1] from rfl] at hv
      cases hv with
      | head => decide
      | tail _ h2 =>
        cases h2 with
        | head => decide
        | tail _ h3 => cases h3)
    (by decide)
    (by
      intro p hp hlin
      rw [show c6wPr.1.constraints =
        [("c1", (getKey c6wPr.1.constraints "c1").getD c6wC0),
         ("c2", (getKey c6wPr.1.constraints "c2").getD c6wC0)] from rfl] at hp
      cases hp with
      | head =>
        refine ⟨by decide, by decide, by decide, by decide,
          [("a", BlockInput.dense [[5]]), ("b", BlockInput.dense [[6]])],
          by decide, ?_, ?_⟩
        · intro j hj
          have hall : ((("c1",
              (getKey c6wPr.1.constraints "c1").getD c6wC0).2.jac).all
              (fun j => hasKey [("a", BlockInput.dense [[5]]),
                ("b", BlockInput.dense [[6]])] j.1)) = true := by decide
          exact List.all_eq_true.mp hall j hj
        · intro q hq
          cases hq with
          | head =>
            exact ⟨by decide,
              (getKey ((getKey c6wPr.1.constraints "c1").getD c6wC0).jac "a").getD
                ⟨0, 0, []⟩, rfl, by decide, by decide⟩
          | tail _ h2 =>
            cases h2 with
            | head =>
              exact ⟨by decide,
                (getKey ((getKey c6wPr.1.constraints "c1").getD c6wC0).jac
                  "b").getD ⟨0, 0, []⟩, rfl, by decide, by decide⟩
            | tail _ h3 => cases h3
      | tail _ hp2 =>
        cases hp2 with
        | head =>
          refine ⟨by decide, by decide, by decide, by decide,
            [("a", BlockInput.dense [[7]]), ("b", BlockInput.dense [[8]])],
            by decide, ?_, ?_⟩
          · intro j hj
            have hall : ((("c2",
                (getKey c6wPr.1.constraints "c2").getD c6wC0).2.jac).all
                (fun j => hasKey [("a", BlockInput.dense [[7]]),
                  ("b", BlockInput.dense [[8]])] j.1)) = true := by decide
            exact List.all_eq_true.mp hall j hj
          · intro q hq
            cases hq with
            | head =>
              exact ⟨by decide,
                (getKey ((getKey c6wPr.1.constraints "c2").getD c6wC0).jac
                  "a").getD ⟨0, 0, []⟩, rfl, by decide, by decide⟩
            | tail _ h2 =>
              cases h2 with
              | head =>
                exact ⟨by decide,
                  (getKey ((getKey c6wPr.1.constraints "c2").getD c6wC0).jac
                    "b").getD ⟨0, 0, []⟩, rfl, by decide, by decide⟩
              | tail _ h3 => cases h3
        | tail _ hp3 => cases hp3)

end PyOptSparse
